import Mathlib

/-!
# FluxionDB: the in-memory collection engine

A shallow embedding of `src/collection.cpp` (class `Collection`) together with the
narrow interface it consumes from `SqliteStorage`.

Modelling conventions.

* `qint64` timestamps are `Int`; the code only compares them, so no wrap-around is involved.
* `QString` / `std::string` payloads and keys are `String`.
* `std::unordered_map<QString, V>` is an association list `UMap V`; `find`, `emplace`,
  `erase` and `operator[]` are modelled by `UMap.find`, `UMap.emplace`, `UMap.erase`,
  `UMap.assign`.  The iteration order of the C++ container is unspecified; the list
  order is one admissible order.
* `std::vector<std::unique_ptr<DataRecord>>` is `List DataRecord`.
* `std::lower_bound` / `std::upper_bound` are modelled by the *Returns* clause of the
  C++ standard: the furthermost position `i` such that the comparison holds for every
  element before `i`.
* The store is an external collaborator.  Its answers (fetched rows, success flags)
  are arguments of the operations, and every call issued to it is appended to the
  ghost field `storeCalls`.
* `SqliteStorage` models the tables of `src/sqlitestorage.cpp` (rows of `records` and
  `key_values`, with the SQL statements of each method); `Collection.flushOn` and
  `Collection.loadOn` run a collection against such a store.
* Indices returned as C++ `int` are `Int` with `-1` for "none"; a vector is taken to hold
  fewer than `2^31` records, so the conversion of an iterator difference to `int` is exact.
* Capacity compaction, `rehash(0)`, `malloc_trim`, logging and timers have no effect
  on the abstract state and are omitted.
-/

namespace FluxionDB

/-! ## Data model -/

/-- Record of a document: `DataRecord` of `collection.h` (timestamp, data, isNew). -/
structure DataRecord where
  timestamp : Int
  data : String
  isNew : Bool
deriving DecidableEq, Repr

/-- Row returned by `SqliteStorage::fetchRecords` (`SqliteStorage::StoredRecord`). -/
structure StoredRecord where
  document : String
  timestamp : Int
  data : String
deriving DecidableEq, Repr

/-- Row returned by `SqliteStorage::fetchKeyValues` (`SqliteStorage::StoredKeyValue`). -/
structure StoredKeyValue where
  key : String
  value : String
deriving DecidableEq, Repr

/-- Calls that `Collection` issues to its `SqliteStorage`. -/
inductive StoreCall where
  | fetchRecords (collection : String)
  | fetchKeyValues (collection : String)
  | upsertRecord (collection document : String) (timestamp : Int) (data : String)
  | deleteRecord (collection document : String) (timestamp : Int)
  | deleteRecordsInRange (collection document : String) (fromTs toTs : Int)
  | deleteDocument (collection document : String)
  | upsertKeyValue (collection key value : String)
  | removeKeyValue (collection key : String)
  | beginTransaction
  | commitTransaction
  | rollbackTransaction
deriving DecidableEq, Repr

/-- The part of `QRegularExpression` the collection uses: `isValid()` and
`match(s).hasMatch()`. -/
structure QRegularExpression where
  isValid : Bool
  hasMatch : String → Bool

/-! ## `std::unordered_map<QString, V>` -/

/-- Association list standing for `std::unordered_map<QString, V>` (also used for `QHash`). -/
abbrev UMap (V : Type) := List (String × V)

/-- Model of `m.find(key)`: the mapped value, `none` standing for `m.end()`. -/
def UMap.find {V : Type} : UMap V → String → Option V
  | [], _ => none
  | (k, v) :: rest, key => if k = key then some v else UMap.find rest key

/-- Model of `m.emplace(key, value)`: inserts only when the key is not yet present. -/
def UMap.emplace {V : Type} (m : UMap V) (key : String) (value : V) : UMap V :=
  match UMap.find m key with
  | some _ => m
  | none => m ++ [(key, value)]

/-- Model of writing through `it->second` / a reference obtained from `find`. -/
def UMap.update {V : Type} : UMap V → String → V → UMap V
  | [], _, _ => []
  | (k, v) :: rest, key, value =>
    if k = key then (k, value) :: rest else (k, v) :: UMap.update rest key value

/-- Model of `m.erase(it)` / `m.erase(key)`. -/
def UMap.erase {V : Type} (m : UMap V) (key : String) : UMap V :=
  m.filter (fun e => decide (e.1 ≠ key))

/-- Model of `m[key] = value` (and of `QHash::insert`): overwrite or add. -/
def UMap.assign {V : Type} (m : UMap V) (key : String) (value : V) : UMap V :=
  match UMap.find m key with
  | some _ => UMap.update m key value
  | none => m ++ [(key, value)]

/-- Keys of the map, in iteration order. -/
def UMap.keys {V : Type} (m : UMap V) : List String := m.map Prod.fst

/-! ## Binary searches on a record vector -/

/-- Model of `std::lower_bound(records.begin(), records.end(), value, a->timestamp < b)`:
the length of the longest prefix whose timestamps are all `< value`. -/
def lowerBound : List DataRecord → Int → Nat
  | [], _ => 0
  | a :: rest, value => if a.timestamp < value then lowerBound rest value + 1 else 0

/-- Model of `std::upper_bound(records.begin(), records.end(), value, b < a->timestamp)`:
the length of the longest prefix none of whose timestamps is `> value`. -/
def upperBound : List DataRecord → Int → Nat
  | [], _ => 0
  | a :: rest, value => if value < a.timestamp then 0 else upperBound rest value + 1

/-- `Collection::getLatestRecordIndex`; the result is a C++ `int`, `-1` meaning none. -/
def getLatestRecordIndex (records : List DataRecord) (timestamp : Int) : Int :=
  if records.isEmpty then -1
  else
    let vecIt := upperBound records timestamp
    if vecIt = 0 then
      match records.head? with
      | some front => if front.timestamp > timestamp then -1 else 0
      | none => 0
    else ((vecIt - 1 : Nat) : Int)

/-- `Collection::getEarliestRecordIndex`; the result is a C++ `int`, `-1` meaning none. -/
def getEarliestRecordIndex (records : List DataRecord) (timestamp : Int) : Int :=
  if records.isEmpty then -1
  else
    let vecIt := lowerBound records timestamp
    if vecIt = records.length then -1 else (vecIt : Int)

/-- The loop `for (int i = startIndex; i <= endIndex; ++i) result.append(records[i])`:
the elements at positions `startIndex .. endIndex` inclusive. -/
def copyRange (records : List DataRecord) (startIndex endIndex : Int) : List DataRecord :=
  (records.take (endIndex + 1).toNat).drop startIndex.toNat

/-! ## The collection -/

/-- State of a `Collection` object. `m_storage` records whether the storage pointer is
non-null; `storeCalls` is the ghost trace of the calls issued to the store so far. -/
structure Collection where
  m_name : String
  m_storage : Bool
  m_data : UMap (List DataRecord)
  m_key_vaue : UMap String
  m_hasNewRecords : Bool
  storeCalls : List StoreCall

namespace Collection

/-- Constructor `Collection::Collection(name, storage)`. -/
def new (name : String) (storage : Bool) : Collection :=
  { m_name := name, m_storage := storage, m_data := [], m_key_vaue := [],
    m_hasNewRecords := false, storeCalls := [] }

/-- Record sequence of a document; the empty sequence when the key is not in the map. -/
def document (c : Collection) (key : String) : List DataRecord :=
  (UMap.find c.m_data key).getD []

/-- The vector part of `insertInternal` once the document exists and is non-empty:
lower-bound, then replace in place or insert at the position. -/
def upsertSorted (records : List DataRecord) (record : DataRecord) : List DataRecord :=
  let vecIt := lowerBound records record.timestamp
  match records[vecIt]? with
  | some r =>
    if r.timestamp = record.timestamp then records.set vecIt record
    else records.take vecIt ++ record :: records.drop vecIt
  | none => records.take vecIt ++ record :: records.drop vecIt

/-- `Collection::insertInternal`. -/
def insertInternal (c : Collection) (timestamp : Int) (key data : String)
    (persistToStorage : Bool) : Collection :=
  let record : DataRecord := { timestamp := timestamp, data := data, isNew := persistToStorage }
  let shouldMarkNew := record.isNew
  match UMap.find c.m_data key with
  | none =>
    { c with
      m_hasNewRecords := if shouldMarkNew then true else c.m_hasNewRecords
      m_data := UMap.emplace c.m_data key [record] }
  | some records =>
    if records.isEmpty then
      { c with m_data := UMap.update c.m_data key (records ++ [record]) }
    else
      { c with
        m_data := UMap.update c.m_data key (upsertSorted records record)
        m_hasNewRecords := if shouldMarkNew then true else c.m_hasNewRecords }

/-- `Collection::insert`. -/
def insert (c : Collection) (timestamp : Int) (key data : String) : Collection :=
  let shouldPersist := c.m_storage
  insertInternal c timestamp key data shouldPersist

/-- `Collection::getLatestRecordForDocument`; `none` is the null pointer. -/
def getLatestRecordForDocument (c : Collection) (key : String) (timestamp : Int) :
    Option DataRecord :=
  match UMap.find c.m_data key with
  | none => none
  | some records =>
    let index := getLatestRecordIndex records timestamp
    if index = -1 then none else records[index.toNat]?

/-- `Collection::getEarliestRecordForDocument`; `none` is the null pointer. -/
def getEarliestRecordForDocument (c : Collection) (key : String) (timestamp : Int) :
    Option DataRecord :=
  match UMap.find c.m_data key with
  | none => none
  | some records =>
    let index := getEarliestRecordIndex records timestamp
    if index = -1 then none else records[index.toNat]?

/-- Body of the two loops of `getAllRecords` for one document: the latest record at
`timestamp`, kept when `from == 0 || record->timestamp >= from`. -/
def snapshotInsert (result : UMap DataRecord) (docKey : String) (records : List DataRecord)
    (timestamp fromTs : Int) : UMap DataRecord :=
  let index := getLatestRecordIndex records timestamp
  if index ≠ -1 then
    match records[index.toNat]? with
    | some record =>
      if fromTs = 0 ∨ record.timestamp ≥ fromTs then UMap.assign result docKey record
      else result
    | none => result
  else result

/-- `Collection::getAllRecords`. -/
def getAllRecords (c : Collection) (timestamp : Int) (key : String) (fromTs : Int)
    (keyRegex : Option QRegularExpression) : UMap DataRecord :=
  let hasRegex : Bool :=
    match keyRegex with
    | some re => re.isValid
    | none => false
  if hasRegex ∨ key.isEmpty then
    c.m_data.foldl
      (fun result entry =>
        let docKey := entry.1
        let records := entry.2
        let regexMiss : Bool :=
          match keyRegex with
          | some re => hasRegex && !re.hasMatch docKey
          | none => false
        if regexMiss then result
        else if ¬ key.isEmpty ∧ docKey ≠ key then result
        else snapshotInsert result docKey records timestamp fromTs)
      []
  else
    match UMap.find c.m_data key with
    | none => []
    | some records => snapshotInsert [] key records timestamp fromTs

/-- `Collection::getSessionData`. -/
def getSessionData (c : Collection) (fromTs toTs : Int) : UMap (List DataRecord) :=
  c.m_data.foldl
    (fun result entry =>
      let key := entry.1
      let records := entry.2
      if fromTs > toTs then result
      else
        let startIndex := getEarliestRecordIndex records fromTs
        if startIndex = -1 then result
        else
          let endIndex := getLatestRecordIndex records toTs
          if endIndex = -1 then result
          else
            (copyRange records startIndex endIndex).foldl
              (fun res r => UMap.assign res key ((UMap.find res key).getD [] ++ [r]))
              result)
    []

/-- `Collection::getAllRecordsForDocument`. -/
def getAllRecordsForDocument (c : Collection) (key : String) (fromTs toTs : Int)
    (reverse : Bool) (limit : Int) : List DataRecord :=
  match UMap.find c.m_data key with
  | none => []
  | some records =>
    if fromTs > toTs then []
    else
      let startIndex := getEarliestRecordIndex records fromTs
      if startIndex = -1 then []
      else
        let endIndex := getLatestRecordIndex records toTs
        if endIndex = -1 then []
        else
          let result := copyRange records startIndex endIndex
          let result := if reverse then result.reverse else result
          if limit > 0 ∧ (result.length : Int) > limit then result.take limit.toNat
          else result

/-- `Collection::clearDocument`. -/
def clearDocument (c : Collection) (key : String) : Collection :=
  let c1 : Collection :=
    match UMap.find c.m_data key with
    | some _ => { c with m_data := UMap.erase c.m_data key }
    | none => c
  if c1.m_storage then
    { c1 with storeCalls := c1.storeCalls ++ [StoreCall.deleteDocument c1.m_name key] }
  else c1

/-- `Collection::deleteRecord`. -/
def deleteRecord (c : Collection) (key : String) (ts : Int) : Collection :=
  match UMap.find c.m_data key with
  | none => c
  | some records =>
    let vecIt := lowerBound records ts
    match records[vecIt]? with
    | none => c
    | some r =>
      if r.timestamp ≠ ts then c
      else
        let records1 := records.eraseIdx vecIt
        let calls :=
          if c.m_storage then c.storeCalls ++ [StoreCall.deleteRecord c.m_name key ts]
          else c.storeCalls
        if records1.isEmpty then
          { c with m_data := UMap.erase c.m_data key, storeCalls := calls }
        else
          { c with m_data := UMap.update c.m_data key records1, storeCalls := calls }

/-- `Collection::deleteRecordsInRange`. -/
def deleteRecordsInRange (c : Collection) (key : String) (fromTs toTs : Int) : Collection :=
  match UMap.find c.m_data key with
  | none => c
  | some records =>
    let beginIt := lowerBound records fromTs
    let endIt := upperBound records toTs
    if beginIt = records.length ∨ beginIt ≥ endIt then c
    else
      let records1 := records.take beginIt ++ records.drop endIt
      let calls :=
        if c.m_storage then
          c.storeCalls ++ [StoreCall.deleteRecordsInRange c.m_name key fromTs toTs]
        else c.storeCalls
      if records1.isEmpty then
        { c with m_data := UMap.erase c.m_data key, storeCalls := calls }
      else
        { c with m_data := UMap.update c.m_data key records1, storeCalls := calls }

/-- `Collection::setValueForKey`. -/
def setValueForKey (c : Collection) (key value : String) : Collection :=
  let c1 := { c with m_key_vaue := UMap.assign c.m_key_vaue key value }
  if c1.m_storage then
    { c1 with storeCalls := c1.storeCalls ++ [StoreCall.upsertKeyValue c1.m_name key value] }
  else c1

/-- `Collection::getValueForKey`. -/
def getValueForKey (c : Collection) (key : String) : String :=
  match UMap.find c.m_key_vaue key with
  | none => ""
  | some v => v

/-- `Collection::removeValueForKey`. -/
def removeValueForKey (c : Collection) (key : String) : Collection :=
  let c1 := { c with m_key_vaue := UMap.erase c.m_key_vaue key }
  if c1.m_storage then
    { c1 with storeCalls := c1.storeCalls ++ [StoreCall.removeKeyValue c1.m_name key] }
  else c1

/-- `Collection::getAllValues`. -/
def getAllValues (c : Collection) (keyRegex : Option QRegularExpression) : UMap String :=
  let hasRegex : Bool :=
    match keyRegex with
    | some re => re.isValid
    | none => false
  c.m_key_vaue.foldl
    (fun result entry =>
      let regexMiss : Bool :=
        match keyRegex with
        | some re => hasRegex && !re.hasMatch entry.1
        | none => false
      if regexMiss then result else UMap.assign result entry.1 entry.2)
    []

/-- `Collection::getAllKeys`. -/
def getAllKeys (c : Collection) : List String :=
  c.m_key_vaue.foldl (fun result entry => result ++ [entry.1]) []

/-- Loop state of `flushToDisk`: number of `upsertRecord` calls made so far,
the flag `keepFlushing`, and the calls issued by the loop. -/
structure FlushState where
  upserts : Nat
  keepFlushing : Bool
  calls : List StoreCall

/-- Inner loop of `flushToDisk` over the records of document `doc`. The answer of the
store to the `n`-th `upsertRecord` call of this flush is `upsertOk n`. -/
def flushRecords (name doc : String) (upsertOk : Nat → Bool) :
    List DataRecord → FlushState → List DataRecord × FlushState
  | [], st => ([], st)
  | record :: rest, st =>
    if ¬ record.isNew then
      let out := flushRecords name doc upsertOk rest st
      (record :: out.1, out.2)
    else
      let call := StoreCall.upsertRecord name doc record.timestamp record.data
      if upsertOk st.upserts then
        let out := flushRecords name doc upsertOk rest
          { upserts := st.upserts + 1, keepFlushing := st.keepFlushing,
            calls := st.calls ++ [call] }
        ({ record with isNew := false } :: out.1, out.2)
      else
        let out := flushRecords name doc upsertOk rest
          { upserts := st.upserts + 1, keepFlushing := true, calls := st.calls ++ [call] }
        (record :: out.1, out.2)

/-- Outer loop of `flushToDisk` over the documents. -/
def flushDocs (name : String) (upsertOk : Nat → Bool) :
    UMap (List DataRecord) → FlushState → UMap (List DataRecord) × FlushState
  | [], st => ([], st)
  | (doc, records) :: rest, st =>
    let out1 := flushRecords name doc upsertOk records st
    let out2 := flushDocs name upsertOk rest out1.2
    ((doc, out1.1) :: out2.1, out2.2)

/-- The rescan of `flushToDisk`: whether some record of some document has `isNew`. -/
def anyNew (data : UMap (List DataRecord)) : Bool :=
  data.any (fun entry => entry.2.any (fun record => record.isNew))

/-- `Collection::flushToDisk`. `beginOk`, `upsertOk` and `commitOk` are the answers of the
store to `beginTransaction`, to the successive `upsertRecord` calls and to
`commitTransaction`. -/
def flushToDisk (c : Collection) (beginOk : Bool) (upsertOk : Nat → Bool) (commitOk : Bool) :
    Collection :=
  if ¬ c.m_storage then c
  else if ¬ c.m_hasNewRecords then c
  else
    let c1 := { c with storeCalls := c.storeCalls ++ [StoreCall.beginTransaction] }
    let startedTransaction := beginOk
    if ¬ startedTransaction then c1
    else
      let out := flushDocs c1.m_name upsertOk c1.m_data
        { upserts := 0, keepFlushing := false, calls := [] }
      let hasNew : Bool := if ¬ out.2.keepFlushing then false else anyNew out.1
      let commitCalls :=
        if commitOk then [StoreCall.commitTransaction]
        else [StoreCall.commitTransaction, StoreCall.rollbackTransaction]
      { c1 with
        m_data := out.1
        m_hasNewRecords := hasNew
        storeCalls := c1.storeCalls ++ out.2.calls ++ commitCalls }

/-- `Collection::loadFromDisk`. `rows` and `keyValues` are what the store returns from
`fetchRecords(m_name)` and `fetchKeyValues(m_name)`. -/
def loadFromDisk (c : Collection) (rows : List StoredRecord)
    (keyValues : List StoredKeyValue) : Collection :=
  if ¬ c.m_storage then c
  else
    let c1 : Collection :=
      { c with
        m_data := []
        m_key_vaue := []
        m_hasNewRecords := false
        storeCalls := c.storeCalls ++ [StoreCall.fetchRecords c.m_name] }
    let c2 := rows.foldl
      (fun acc record => insertInternal acc record.timestamp record.document record.data false)
      c1
    { c2 with
      m_key_vaue := keyValues.foldl (fun m kv => UMap.assign m kv.key kv.value) c2.m_key_vaue
      storeCalls := c2.storeCalls ++ [StoreCall.fetchKeyValues c2.m_name] }

end Collection

/-! ## Public operations and reachable states -/

/-- One call of a state-changing public operation, together with the answers the store
gives during that call. -/
inductive Op where
  | insert (timestamp : Int) (key data : String)
  | deleteRecord (key : String) (ts : Int)
  | deleteRecordsInRange (key : String) (fromTs toTs : Int)
  | clearDocument (key : String)
  | loadFromDisk (rows : List StoredRecord) (keyValues : List StoredKeyValue)
  | flushToDisk (beginOk : Bool) (upsertOk : Nat → Bool) (commitOk : Bool)
  | setValueForKey (key value : String)
  | removeValueForKey (key : String)

/-- Effect of one operation. -/
def step (c : Collection) : Op → Collection
  | Op.insert timestamp key data => c.insert timestamp key data
  | Op.deleteRecord key ts => c.deleteRecord key ts
  | Op.deleteRecordsInRange key fromTs toTs => c.deleteRecordsInRange key fromTs toTs
  | Op.clearDocument key => c.clearDocument key
  | Op.loadFromDisk rows keyValues => c.loadFromDisk rows keyValues
  | Op.flushToDisk beginOk upsertOk commitOk => c.flushToDisk beginOk upsertOk commitOk
  | Op.setValueForKey key value => c.setValueForKey key value
  | Op.removeValueForKey key => c.removeValueForKey key

/-- Effect of a finite sequence of operations, left to right. -/
def run (c : Collection) (ops : List Op) : Collection := ops.foldl step c

/-- States reachable from a freshly constructed collection (with or without a store). -/
def Reachable (c : Collection) : Prop :=
  ∃ (name : String) (storage : Bool) (ops : List Op), c = run (Collection.new name storage) ops

/-- Strictly ascending by timestamp. -/
def StrictAsc (records : List DataRecord) : Prop :=
  records.Pairwise (fun a b => a.timestamp < b.timestamp)

instance (records : List DataRecord) : Decidable (StrictAsc records) := by
  unfold StrictAsc; infer_instance

/-- Some record of the collection has `dirty == true`. -/
def hasDirtyRecord (c : Collection) : Prop :=
  ∃ entry ∈ c.m_data, ∃ record ∈ entry.2, record.isNew = true

/-- The operation is one of the three deletions. -/
def Op.isDeletion : Op → Bool
  | Op.deleteRecord _ _ => true
  | Op.deleteRecordsInRange _ _ _ => true
  | Op.clearDocument _ => true
  | _ => false

/-- Representation invariant of the collection: the document map has no repeated key,
no document is empty, every document is strictly ascending, and a dirty record implies
both `m_hasNewRecords` and the presence of a store. -/
structure Inv (c : Collection) : Prop where
  nodup : (UMap.keys c.m_data).Nodup
  nonempty : ∀ e ∈ c.m_data, e.2 ≠ []
  sorted : ∀ e ∈ c.m_data, StrictAsc e.2
  dirty : ∀ e ∈ c.m_data, ∀ r ∈ e.2, r.isNew = true →
    c.m_hasNewRecords = true ∧ c.m_storage = true

/-! ## The persistent store -/

/-- Row of table `records(collection, doc, ts, data)`; primary key `(collection, doc, ts)`. -/
structure RecordRow where
  collection : String
  doc : String
  ts : Int
  data : String
deriving DecidableEq, Repr

/-- Row of table `key_values(collection, key, value)`; primary key `(collection, key)`. -/
structure KeyValueRow where
  collection : String
  key : String
  value : String
deriving DecidableEq, Repr

/-- State of a `SqliteStorage`: the flag `m_isOpen`, the two tables the collection uses,
and the table contents saved by `beginTransaction` while a transaction is pending.
Every data statement is taken to execute successfully on an open database; as in SQLite,
a `BEGIN` inside a pending transaction and a `COMMIT` outside one fail. -/
structure SqliteStorage where
  m_isOpen : Bool
  records : List RecordRow
  key_values : List KeyValueRow
  pending : Option (List RecordRow × List KeyValueRow)

namespace SqliteStorage

/-- `SqliteStorage::fetchRecords`: `SELECT doc, ts, data FROM records WHERE collection = ?
ORDER BY ts ASC`. -/
def fetchRecords (s : SqliteStorage) (collection : String) : List StoredRecord :=
  if ¬ s.m_isOpen then []
  else
    ((s.records.filter (fun row => decide (row.collection = collection))).insertionSort
      (fun a b => a.ts ≤ b.ts)).map (fun row => ⟨row.doc, row.ts, row.data⟩)

/-- `SqliteStorage::fetchKeyValues`: `SELECT key, value FROM key_values WHERE
collection = ?`. -/
def fetchKeyValues (s : SqliteStorage) (collection : String) : List StoredKeyValue :=
  if ¬ s.m_isOpen then []
  else
    (s.key_values.filter (fun row => decide (row.collection = collection))).map
      (fun row => ⟨row.key, row.value⟩)

/-- `SqliteStorage::upsertRecord`: `INSERT OR REPLACE INTO records`; a row with the same
primary key is deleted before the new row is inserted. -/
def upsertRecord (s : SqliteStorage) (collection document : String) (timestamp : Int)
    (data : String) : Bool × SqliteStorage :=
  if ¬ s.m_isOpen then (false, s)
  else
    (true,
      { s with
        records :=
          s.records.filter
              (fun row =>
                !decide (row.ts = timestamp ∧ row.collection = collection ∧
                  row.doc = document)) ++
            [⟨collection, document, timestamp, data⟩] })

/-- `SqliteStorage::deleteRecord`: `DELETE FROM records WHERE ts = ? AND collection = ?
AND doc = ?`. -/
def deleteRecord (s : SqliteStorage) (collection document : String) (timestamp : Int) :
    Bool × SqliteStorage :=
  if ¬ s.m_isOpen then (false, s)
  else
    (true,
      { s with
        records :=
          s.records.filter
            (fun row =>
              !decide (row.ts = timestamp ∧ row.collection = collection ∧
                row.doc = document)) })

/-- `SqliteStorage::deleteRecordsInRange`: `DELETE FROM records WHERE collection = ? AND
doc = ? AND ts >= ? AND ts <= ?`. -/
def deleteRecordsInRange (s : SqliteStorage) (collection document : String)
    (fromTs toTs : Int) : Bool × SqliteStorage :=
  if ¬ s.m_isOpen then (false, s)
  else
    (true,
      { s with
        records :=
          s.records.filter
            (fun row =>
              !decide (row.collection = collection ∧ row.doc = document ∧
                row.ts ≥ fromTs ∧ row.ts ≤ toTs)) })

/-- `SqliteStorage::deleteDocument`: `DELETE FROM records WHERE collection = ? AND
doc = ?`. -/
def deleteDocument (s : SqliteStorage) (collection document : String) :
    Bool × SqliteStorage :=
  if ¬ s.m_isOpen then (false, s)
  else
    (true,
      { s with
        records :=
          s.records.filter
            (fun row => !decide (row.collection = collection ∧ row.doc = document)) })

/-- `SqliteStorage::upsertKeyValue`: `INSERT OR REPLACE INTO key_values`. -/
def upsertKeyValue (s : SqliteStorage) (collection key value : String) :
    Bool × SqliteStorage :=
  if ¬ s.m_isOpen then (false, s)
  else
    (true,
      { s with
        key_values :=
          s.key_values.filter
              (fun row => !decide (row.collection = collection ∧ row.key = key)) ++
            [⟨collection, key, value⟩] })

/-- `SqliteStorage::removeKeyValue`: `DELETE FROM key_values WHERE collection = ? AND
key = ?`. -/
def removeKeyValue (s : SqliteStorage) (collection key : String) : Bool × SqliteStorage :=
  if ¬ s.m_isOpen then (false, s)
  else
    (true,
      { s with
        key_values :=
          s.key_values.filter
            (fun row => !decide (row.collection = collection ∧ row.key = key)) })

/-- `SqliteStorage::beginTransaction`: `false` on a closed store and when
`m_db.transaction()` fails, which it does while a transaction is already pending;
otherwise the table contents are saved for a rollback. -/
def beginTransaction (s : SqliteStorage) : Bool × SqliteStorage :=
  if ¬ s.m_isOpen then (false, s)
  else
    match s.pending with
    | some _ => (false, s)
    | none => (true, { s with pending := some (s.records, s.key_values) })

/-- `SqliteStorage::commitTransaction`: `false` on a closed store and when `m_db.commit()`
fails, which it does when no transaction is pending; otherwise the changes stay and the
saved contents are dropped. -/
def commitTransaction (s : SqliteStorage) : Bool × SqliteStorage :=
  if ¬ s.m_isOpen then (false, s)
  else
    match s.pending with
    | some _ => (true, { s with pending := none })
    | none => (false, s)

/-- `SqliteStorage::rollbackTransaction`: the saved table contents are restored. -/
def rollbackTransaction (s : SqliteStorage) : SqliteStorage :=
  if ¬ s.m_isOpen then s
  else
    match s.pending with
    | some saved => { s with records := saved.1, key_values := saved.2, pending := none }
    | none => s

/-- State of the store after it has executed one call issued by a collection. -/
def apply (s : SqliteStorage) : StoreCall → SqliteStorage
  | StoreCall.fetchRecords _ => s
  | StoreCall.fetchKeyValues _ => s
  | StoreCall.upsertRecord collection document timestamp data =>
    (s.upsertRecord collection document timestamp data).2
  | StoreCall.deleteRecord collection document timestamp =>
    (s.deleteRecord collection document timestamp).2
  | StoreCall.deleteRecordsInRange collection document fromTs toTs =>
    (s.deleteRecordsInRange collection document fromTs toTs).2
  | StoreCall.deleteDocument collection document => (s.deleteDocument collection document).2
  | StoreCall.upsertKeyValue collection key value => (s.upsertKeyValue collection key value).2
  | StoreCall.removeKeyValue collection key => (s.removeKeyValue collection key).2
  | StoreCall.beginTransaction => s.beginTransaction.2
  | StoreCall.commitTransaction => s.commitTransaction.2
  | StoreCall.rollbackTransaction => s.rollbackTransaction

/-- State of the store after a list of calls, in order. -/
def applyAll (s : SqliteStorage) (calls : List StoreCall) : SqliteStorage :=
  calls.foldl apply s

end SqliteStorage

/-! ## A collection running against a store -/

/-- The dirty records of the document map, each with its document key, in the order in
which `flushToDisk` visits them. -/
def dirtyRecords : UMap (List DataRecord) → List (String × DataRecord)
  | [] => []
  | (doc, records) :: rest =>
    (records.filter (fun r => r.isNew)).map (fun r => (doc, r)) ++ dirtyRecords rest

/-- The call `upsertRecord(m_name, doc, record->timestamp, record->data)` of `flushToDisk`
for one record. -/
def upsertCall (name : String) (p : String × DataRecord) : StoreCall :=
  StoreCall.upsertRecord name p.1 p.2.timestamp p.2.data

/-- `flushToDisk` of a collection attached to the store `s`: the answers given to the
collection are the return values of the store's methods, and the calls issued by the
flush are executed on the store. `beginTransaction` is answered by `s` itself; the
upserts and the commit are only reached inside the transaction just started, where each
returns `m_isOpen`. -/
def Collection.flushOn (c : Collection) (s : SqliteStorage) : Collection × SqliteStorage :=
  let c1 := c.flushToDisk s.beginTransaction.1 (fun _ => s.m_isOpen) s.m_isOpen
  (c1, s.applyAll (c1.storeCalls.drop c.storeCalls.length))

/-- `loadFromDisk` of a collection attached to the store `s`. -/
def Collection.loadOn (c : Collection) (s : SqliteStorage) : Collection :=
  c.loadFromDisk (s.fetchRecords c.m_name) (s.fetchKeyValues c.m_name)

/-- The operation is an `insert`. -/
def Op.isInsert : Op → Bool
  | Op.insert _ _ _ => true
  | _ => false

/-- The operation binds key `k` in the key/value side-table: `setValueForKey(k, _)`, or a
`loadFromDisk` whose fetched key/values contain `k`. -/
def Op.setsKey (k : String) : Op → Bool
  | Op.setValueForKey key _ => decide (key = k)
  | Op.loadFromDisk _ keyValues => keyValues.any (fun kv => decide (kv.key = k))
  | _ => false

/-- The operation leaves `m_hasNewRecords` exact whatever happened before it: an `insert`
(with a store the inserted record is dirty, without one the marker is never set), a
`loadFromDisk`, or a `flushToDisk` whose `beginTransaction` succeeds. -/
def Op.recomputesMarker : Op → Bool
  | Op.insert _ _ _ => true
  | Op.loadFromDisk _ _ => true
  | Op.flushToDisk beginOk _ _ => beginOk
  | _ => false

/-! ## Lemmas on `UMap` -/

namespace UMap

variable {V : Type}

theorem find_some_mem {m : UMap V} {k : String} {v : V} (h : find m k = some v) :
    (k, v) ∈ m := by
  induction m with
  | nil => simp [find] at h
  | cons e rest ih =>
    obtain ⟨k0, v0⟩ := e
    by_cases hk : k0 = k
    · simp [find, hk] at h
      simp [hk, h]
    · simp [find, hk] at h
      exact List.mem_cons_of_mem _ (ih h)

theorem find_none_iff (m : UMap V) (k : String) : find m k = none ↔ k ∉ keys m := by
  induction m with
  | nil => simp [find, keys]
  | cons e rest ih =>
    obtain ⟨k0, v0⟩ := e
    by_cases hk : k0 = k
    · simp [find, keys, hk]
    · have hk1 : ¬ k = k0 := fun h => hk h.symm
      simp only [find, hk, if_false, ih, keys, List.map_cons, List.mem_cons, hk1, false_or]

theorem mem_find {m : UMap V} (hn : (keys m).Nodup) {k : String} {v : V} (h : (k, v) ∈ m) :
    find m k = some v := by
  induction m with
  | nil => simp at h
  | cons e rest ih =>
    obtain ⟨k0, v0⟩ := e
    simp only [keys, List.map_cons, List.nodup_cons] at hn
    rcases List.mem_cons.1 h with h1 | h1
    · cases h1
      simp [find]
    · have hk : k0 ≠ k := by
        intro hk
        apply hn.1
        rw [hk]
        exact List.mem_map_of_mem Prod.fst h1
      simp only [find, hk, if_false]
      exact ih hn.2 h1

theorem find_isSome_iff (m : UMap V) (k : String) : (find m k).isSome ↔ k ∈ keys m := by
  cases h : find m k with
  | none => simpa using (find_none_iff m k).1 h
  | some v =>
    simp only [Option.isSome_some, true_iff]
    exact List.mem_map_of_mem Prod.fst (find_some_mem h)

theorem keys_update (m : UMap V) (k : String) (v : V) : keys (update m k v) = keys m := by
  induction m with
  | nil => rfl
  | cons e rest ih =>
    obtain ⟨k0, v0⟩ := e
    by_cases hk : k0 = k
    · simp [update, keys, hk]
    · simp only [update, hk, if_false, keys, List.map_cons] at ih ⊢
      rw [ih]

theorem mem_update {m : UMap V} {k : String} {v : V} {e : String × V}
    (h : e ∈ update m k v) : e ∈ m ∨ e = (k, v) := by
  induction m with
  | nil => simp [update] at h
  | cons e0 rest ih =>
    obtain ⟨k0, v0⟩ := e0
    by_cases hk : k0 = k
    · simp only [update, hk, if_true, List.mem_cons] at h
      rcases h with h | h
      · exact Or.inr h
      · exact Or.inl (List.mem_cons_of_mem _ h)
    · simp only [update, hk, if_false, List.mem_cons] at h
      rcases h with h | h
      · exact Or.inl (by simp [h])
      · rcases ih h with h2 | h2
        · exact Or.inl (List.mem_cons_of_mem _ h2)
        · exact Or.inr h2

theorem find_update_self {m : UMap V} {k : String} {v0 : V} (v : V)
    (h : find m k = some v0) : find (update m k v) k = some v := by
  induction m with
  | nil => simp [find] at h
  | cons e rest ih =>
    obtain ⟨k0, v1⟩ := e
    by_cases hk : k0 = k
    · simp [update, find, hk]
    · simp only [find, hk, if_false] at h
      simp only [update, hk, if_false, find]
      exact ih h

theorem find_update_of_ne (m : UMap V) {k k1 : String} (v : V) (h : k1 ≠ k) :
    find (update m k v) k1 = find m k1 := by
  induction m with
  | nil => rfl
  | cons e rest ih =>
    obtain ⟨k0, v1⟩ := e
    by_cases hk : k0 = k
    · have hk1 : ¬ k = k1 := fun h1 => h h1.symm
      simp [update, find, hk, hk1]
    · by_cases hk2 : k0 = k1
      · subst hk2
        simp [update, find, hk]
      · simp only [update, find, hk, hk2, if_false]
        exact ih

theorem find_erase_self (m : UMap V) (k : String) : find (erase m k) k = none := by
  rw [find_none_iff]
  simp [keys, erase, List.mem_filter]

theorem find_erase_of_ne (m : UMap V) {k k1 : String} (h : k1 ≠ k) :
    find (erase m k) k1 = find m k1 := by
  induction m with
  | nil => rfl
  | cons e rest ih =>
    obtain ⟨k0, v1⟩ := e
    by_cases hk : k0 = k
    · have hk1 : ¬ k = k1 := fun h1 => h h1.symm
      simp only [erase, hk, ne_eq, not_true_eq_false, decide_False, Bool.false_eq_true,
        not_false_eq_true, List.filter_cons_of_neg, find, hk1, if_false]
      exact ih
    · by_cases hk2 : k0 = k1
      · subst hk2
        simp [erase, find, hk, List.filter_cons]
      · simp only [erase, ne_eq, hk, not_false_eq_true, decide_True, List.filter_cons_of_pos,
          find, hk2, if_false]
        exact ih

theorem mem_erase {m : UMap V} {k : String} {e : String × V} (h : e ∈ erase m k) : e ∈ m :=
  (List.mem_filter.1 h).1

theorem keys_erase_nodup {m : UMap V} (hn : (keys m).Nodup) (k : String) :
    (keys (erase m k)).Nodup := by
  unfold keys erase
  exact hn.sublist ((List.filter_sublist m).map Prod.fst)

theorem find_append_single (m : UMap V) (k k1 : String) (v : V) :
    find (m ++ [(k, v)]) k1 = match find m k1 with
      | some w => some w
      | none => if k = k1 then some v else none := by
  induction m with
  | nil => simp [find]
  | cons e rest ih =>
    obtain ⟨k0, v1⟩ := e
    by_cases hk : k0 = k1
    · simp [find, hk]
    · simp only [List.cons_append, find, hk, if_false]
      exact ih

theorem keys_append_single_nodup {m : UMap V} (hn : (keys m).Nodup) {k : String} (v : V)
    (h : find m k = none) : (keys (m ++ [(k, v)])).Nodup := by
  rw [find_none_iff] at h
  simp only [keys, List.map_append, List.map_cons, List.map_nil]
  rw [List.nodup_append]
  refine ⟨hn, List.nodup_singleton k, ?_⟩
  intro a ha hb
  simp only [List.mem_singleton] at hb
  subst hb
  exact h ha

theorem emplace_of_none {m : UMap V} {k : String} (v : V) (h : find m k = none) :
    emplace m k v = m ++ [(k, v)] := by
  simp [emplace, h]

theorem assign_of_none {m : UMap V} {k : String} (v : V) (h : find m k = none) :
    assign m k v = m ++ [(k, v)] := by
  simp [assign, h]

theorem assign_of_some {m : UMap V} {k : String} {v0 : V} (v : V) (h : find m k = some v0) :
    assign m k v = update m k v := by
  simp [assign, h]

theorem find_assign_self (m : UMap V) (k : String) (v : V) :
    find (assign m k v) k = some v := by
  cases h : find m k with
  | none => rw [assign_of_none v h, find_append_single, h]; simp
  | some v0 => rw [assign_of_some v h]; exact find_update_self v h

theorem find_assign_of_ne (m : UMap V) {k k1 : String} (v : V) (hne : k1 ≠ k) :
    find (assign m k v) k1 = find m k1 := by
  cases h : find m k with
  | none =>
    rw [assign_of_none v h, find_append_single]
    have hk1 : ¬ k = k1 := fun h1 => hne h1.symm
    cases find m k1 <;> simp [hk1]
  | some v0 => rw [assign_of_some v h]; exact find_update_of_ne m v hne

end UMap

/-! ## Lemmas on sorted record vectors -/

theorem strictAsc_cons {a : DataRecord} {rest : List DataRecord} :
    StrictAsc (a :: rest) ↔ (∀ b ∈ rest, a.timestamp < b.timestamp) ∧ StrictAsc rest := by
  unfold StrictAsc
  exact List.pairwise_cons

theorem strictAsc_of_sublist {l1 l2 : List DataRecord} (h : l1.Sublist l2)
    (hs : StrictAsc l2) : StrictAsc l1 :=
  List.Pairwise.sublist h hs

theorem strictAsc_iff_map (l : List DataRecord) :
    StrictAsc l ↔ (l.map (fun r => r.timestamp)).Pairwise (fun a b => a < b) := by
  unfold StrictAsc
  rw [List.pairwise_map]

namespace Collection

theorem upsertSorted_nil (r : DataRecord) : upsertSorted [] r = [r] := by
  simp [upsertSorted, lowerBound]

theorem upsertSorted_cons (a : DataRecord) (rest : List DataRecord) (r : DataRecord) :
    upsertSorted (a :: rest) r =
      if a.timestamp < r.timestamp then a :: upsertSorted rest r
      else if a.timestamp = r.timestamp then r :: rest else r :: a :: rest := by
  by_cases h : a.timestamp < r.timestamp
  · simp only [upsertSorted, lowerBound, h, if_true, List.getElem?_cons_succ, List.set_cons_succ,
      List.take_succ_cons, List.drop_succ_cons, List.cons_append]
    cases hget : rest[lowerBound rest r.timestamp]? with
    | none => rfl
    | some x =>
      by_cases hx : x.timestamp = r.timestamp <;> simp [hx]
  · by_cases h2 : a.timestamp = r.timestamp
    · simp [upsertSorted, lowerBound, h, h2]
    · simp [upsertSorted, lowerBound, h, h2]

theorem upsertSorted_ne_nil (records : List DataRecord) (r : DataRecord) :
    upsertSorted records r ≠ [] := by
  cases records with
  | nil => simp [upsertSorted_nil]
  | cons a rest =>
    rw [upsertSorted_cons]
    split_ifs <;> simp

theorem mem_upsertSorted {records : List DataRecord} (hs : StrictAsc records)
    (r x : DataRecord) :
    x ∈ upsertSorted records r ↔ x = r ∨ (x ∈ records ∧ x.timestamp ≠ r.timestamp) := by
  induction records with
  | nil => simp [upsertSorted_nil]
  | cons a rest ih =>
    rw [strictAsc_cons] at hs
    rw [upsertSorted_cons]
    by_cases h : a.timestamp < r.timestamp
    · simp only [h, if_true, List.mem_cons, ih hs.2]
      constructor
      · rintro (h1 | h1 | h1)
        · right; exact ⟨Or.inl h1, by rw [h1]; omega⟩
        · left; exact h1
        · right; exact ⟨Or.inr h1.1, h1.2⟩
      · rintro (h1 | ⟨h1 | h1, h2⟩)
        · right; left; exact h1
        · left; exact h1
        · right; right; exact ⟨h1, h2⟩
    · by_cases h2 : a.timestamp = r.timestamp
      · rw [if_neg h, if_pos h2]
        simp only [List.mem_cons]
        constructor
        · rintro (h1 | h1)
          · left; exact h1
          · right
            have := hs.1 x h1
            exact ⟨Or.inr h1, by omega⟩
        · rintro (h1 | ⟨h1 | h1, h3⟩)
          · left; exact h1
          · exfalso; apply h3; rw [h1, h2]
          · right; exact h1
      · rw [if_neg h, if_neg h2]
        simp only [List.mem_cons]
        constructor
        · rintro (h1 | h1 | h1)
          · left; exact h1
          · right; exact ⟨Or.inl h1, by rw [h1]; exact h2⟩
          · right
            have := hs.1 x h1
            exact ⟨Or.inr h1, by omega⟩
        · rintro (h1 | ⟨h1 | h1, _⟩)
          · left; exact h1
          · right; left; exact h1
          · right; right; exact h1

theorem strictAsc_upsertSorted {records : List DataRecord} (hs : StrictAsc records)
    (r : DataRecord) : StrictAsc (upsertSorted records r) := by
  induction records with
  | nil => simp [upsertSorted_nil, StrictAsc]
  | cons a rest ih =>
    have hs0 := hs
    rw [strictAsc_cons] at hs
    rw [upsertSorted_cons]
    by_cases h : a.timestamp < r.timestamp
    · simp only [h, if_true]
      rw [strictAsc_cons]
      refine ⟨?_, ih hs.2⟩
      intro b hb
      rcases (mem_upsertSorted hs.2 r b).1 hb with h1 | h1
      · rw [h1]; exact h
      · exact hs.1 b h1.1
    · by_cases h2 : a.timestamp = r.timestamp
      · rw [if_neg h, if_pos h2]
        rw [strictAsc_cons]
        refine ⟨?_, hs.2⟩
        intro b hb
        have := hs.1 b hb
        omega
      · rw [if_neg h, if_neg h2]
        rw [strictAsc_cons]
        refine ⟨?_, hs0⟩
        intro b hb
        rcases List.mem_cons.1 hb with h1 | h1
        · rw [h1]; omega
        · have := hs.1 b h1
          omega

theorem take_append_drop_sublist (l : List DataRecord) {b e : Nat} (h : b ≤ e) :
    (l.take b ++ l.drop e).Sublist l := by
  have h1 : (l.take b ++ l.drop e).Sublist (l.take b ++ l.drop b) :=
    List.Sublist.append (List.Sublist.refl _) (List.drop_sublist_drop_left l h)
  rwa [List.take_append_drop] at h1

end Collection

/-! ## Lemmas on the flush loops -/

namespace Collection

theorem flushRecords_cons_clean (name doc : String) (ok : Nat → Bool) {r : DataRecord}
    (rest : List DataRecord) (st : FlushState) (h : r.isNew = false) :
    flushRecords name doc ok (r :: rest) st =
      (r :: (flushRecords name doc ok rest st).1, (flushRecords name doc ok rest st).2) := by
  simp [flushRecords, h]

theorem flushRecords_cons_ok (name doc : String) (ok : Nat → Bool) {r : DataRecord}
    (rest : List DataRecord) (st : FlushState) (h : r.isNew = true)
    (hok : ok st.upserts = true) :
    flushRecords name doc ok (r :: rest) st =
      ({ r with isNew := false } ::
        (flushRecords name doc ok rest
          { upserts := st.upserts + 1, keepFlushing := st.keepFlushing,
            calls := st.calls ++ [StoreCall.upsertRecord name doc r.timestamp r.data] }).1,
       (flushRecords name doc ok rest
          { upserts := st.upserts + 1, keepFlushing := st.keepFlushing,
            calls := st.calls ++ [StoreCall.upsertRecord name doc r.timestamp r.data] }).2) := by
  simp [flushRecords, h, hok]

theorem flushRecords_cons_fail (name doc : String) (ok : Nat → Bool) {r : DataRecord}
    (rest : List DataRecord) (st : FlushState) (h : r.isNew = true)
    (hok : ok st.upserts = false) :
    flushRecords name doc ok (r :: rest) st =
      (r ::
        (flushRecords name doc ok rest
          { upserts := st.upserts + 1, keepFlushing := true,
            calls := st.calls ++ [StoreCall.upsertRecord name doc r.timestamp r.data] }).1,
       (flushRecords name doc ok rest
          { upserts := st.upserts + 1, keepFlushing := true,
            calls := st.calls ++ [StoreCall.upsertRecord name doc r.timestamp r.data] }).2) := by
  simp [flushRecords, h, hok]

theorem flushRecords_map_timestamp (name doc : String) (ok : Nat → Bool)
    (records : List DataRecord) (st : FlushState) :
    (flushRecords name doc ok records st).1.map (fun r => r.timestamp) =
      records.map (fun r => r.timestamp) := by
  induction records generalizing st with
  | nil => rfl
  | cons r rest ih =>
    unfold flushRecords
    split_ifs <;> simp [ih]

theorem flushRecords_keep_false (name doc : String) (ok : Nat → Bool)
    (records : List DataRecord) (st : FlushState)
    (h : (flushRecords name doc ok records st).2.keepFlushing = false) :
    st.keepFlushing = false ∧
      ∀ r ∈ (flushRecords name doc ok records st).1, r.isNew = false := by
  induction records generalizing st with
  | nil => simpa [flushRecords] using h
  | cons r rest ih =>
    by_cases h1 : r.isNew = true
    · by_cases h2 : ok st.upserts = true
      · rw [flushRecords_cons_ok name doc ok rest st h1 h2] at h ⊢
        have := ih _ h
        refine ⟨this.1, ?_⟩
        intro x hx
        rcases List.mem_cons.1 hx with hx | hx
        · rw [hx]
        · exact this.2 x hx
      · rw [flushRecords_cons_fail name doc ok rest st h1 (by simpa using h2)] at h
        have := ih _ h
        simp at this
    · have h1 : r.isNew = false := by simpa using h1
      rw [flushRecords_cons_clean name doc ok rest st h1] at h ⊢
      have := ih st h
      refine ⟨this.1, ?_⟩
      intro x hx
      rcases List.mem_cons.1 hx with hx | hx
      · rw [hx]; exact h1
      · exact this.2 x hx

theorem flushDocs_keys (name : String) (ok : Nat → Bool) (m : UMap (List DataRecord))
    (st : FlushState) : UMap.keys (flushDocs name ok m st).1 = UMap.keys m := by
  induction m generalizing st with
  | nil => rfl
  | cons e rest ih =>
    obtain ⟨doc, records⟩ := e
    simp only [flushDocs, UMap.keys, List.map_cons] at ih ⊢
    rw [ih]

theorem flushDocs_entry (name : String) (ok : Nat → Bool) (m : UMap (List DataRecord))
    (st : FlushState) :
    ∀ e1 ∈ (flushDocs name ok m st).1, ∃ e ∈ m, e1.1 = e.1 ∧
      e1.2.map (fun r => r.timestamp) = e.2.map (fun r => r.timestamp) := by
  induction m generalizing st with
  | nil => intro e1 h; simp [flushDocs] at h
  | cons e rest ih =>
    obtain ⟨doc, records⟩ := e
    intro e1 h
    simp only [flushDocs, List.mem_cons] at h
    rcases h with h | h
    · refine ⟨(doc, records), List.mem_cons_self _ _, ?_, ?_⟩
      · rw [h]
      · rw [h]; exact flushRecords_map_timestamp name doc ok records st
    · obtain ⟨e, he, h1, h2⟩ := ih _ e1 h
      exact ⟨e, List.mem_cons_of_mem _ he, h1, h2⟩

theorem flushDocs_keep_false (name : String) (ok : Nat → Bool) (m : UMap (List DataRecord))
    (st : FlushState) (h : (flushDocs name ok m st).2.keepFlushing = false) :
    st.keepFlushing = false ∧
      ∀ e ∈ (flushDocs name ok m st).1, ∀ r ∈ e.2, r.isNew = false := by
  induction m generalizing st with
  | nil => simpa [flushDocs] using h
  | cons e rest ih =>
    obtain ⟨doc, records⟩ := e
    simp only [flushDocs] at h ⊢
    have h2 := ih _ h
    have h1 := flushRecords_keep_false name doc ok records st h2.1
    refine ⟨h1.1, ?_⟩
    intro e1 he1 r hr
    rcases List.mem_cons.1 he1 with he1 | he1
    · rw [he1] at hr; exact h1.2 r hr
    · exact h2.2 e1 he1 r hr

theorem anyNew_iff (data : UMap (List DataRecord)) :
    anyNew data = true ↔ ∃ e ∈ data, ∃ r ∈ e.2, r.isNew = true := by
  simp [anyNew, List.any_eq_true]

end Collection

/-! ## Preservation of the representation invariant -/

theorem Inv.new (name : String) (storage : Bool) : Inv (Collection.new name storage) := by
  constructor <;> simp [Collection.new, UMap.keys]

theorem Inv.same {c c1 : Collection} (h : Inv c) (hd : c1.m_data = c.m_data)
    (hst : c1.m_storage = c.m_storage)
    (hhn : c.m_hasNewRecords = true → c1.m_hasNewRecords = true) : Inv c1 := by
  constructor
  · rw [hd]; exact h.nodup
  · rw [hd]; exact h.nonempty
  · rw [hd]; exact h.sorted
  · rw [hd, hst]
    intro e he r hr hnew
    exact ⟨hhn (h.dirty e he r hr hnew).1, (h.dirty e he r hr hnew).2⟩

theorem Inv.erase {c c1 : Collection} (h : Inv c) (key : String)
    (hd : c1.m_data = UMap.erase c.m_data key) (hst : c1.m_storage = c.m_storage)
    (hhn : c.m_hasNewRecords = true → c1.m_hasNewRecords = true) : Inv c1 := by
  constructor
  · rw [hd]; exact UMap.keys_erase_nodup h.nodup key
  · rw [hd]; intro e he; exact h.nonempty e (UMap.mem_erase he)
  · rw [hd]; intro e he; exact h.sorted e (UMap.mem_erase he)
  · rw [hd, hst]
    intro e he r hr hnew
    have := h.dirty e (UMap.mem_erase he) r hr hnew
    exact ⟨hhn this.1, this.2⟩

theorem Inv.update {c c1 : Collection} (h : Inv c) (key : String)
    (records1 : List DataRecord)
    (hd : c1.m_data = UMap.update c.m_data key records1) (hst : c1.m_storage = c.m_storage)
    (hhn : c.m_hasNewRecords = true → c1.m_hasNewRecords = true)
    (hne : records1 ≠ []) (hsorted : StrictAsc records1)
    (hdirty : ∀ r ∈ records1, r.isNew = true →
      c1.m_hasNewRecords = true ∧ c1.m_storage = true) : Inv c1 := by
  constructor
  · rw [hd, UMap.keys_update]; exact h.nodup
  · rw [hd]; intro e he
    rcases UMap.mem_update he with he | he
    · exact h.nonempty e he
    · rw [he]; exact hne
  · rw [hd]; intro e he
    rcases UMap.mem_update he with he | he
    · exact h.sorted e he
    · rw [he]; exact hsorted
  · rw [hd]
    intro e he r hr hnew
    rcases UMap.mem_update he with he | he
    · have := h.dirty e he r hr hnew
      exact ⟨hhn this.1, by rw [hst]; exact this.2⟩
    · rw [he] at hr; exact hdirty r hr hnew

theorem Inv.append {c c1 : Collection} (h : Inv c) (key : String)
    (records1 : List DataRecord) (hf : UMap.find c.m_data key = none)
    (hd : c1.m_data = c.m_data ++ [(key, records1)]) (hst : c1.m_storage = c.m_storage)
    (hhn : c.m_hasNewRecords = true → c1.m_hasNewRecords = true)
    (hne : records1 ≠ []) (hsorted : StrictAsc records1)
    (hdirty : ∀ r ∈ records1, r.isNew = true →
      c1.m_hasNewRecords = true ∧ c1.m_storage = true) : Inv c1 := by
  constructor
  · rw [hd]; exact UMap.keys_append_single_nodup h.nodup records1 hf
  · rw [hd]; intro e he
    rcases List.mem_append.1 he with he | he
    · exact h.nonempty e he
    · rw [List.mem_singleton.1 he]; exact hne
  · rw [hd]; intro e he
    rcases List.mem_append.1 he with he | he
    · exact h.sorted e he
    · rw [List.mem_singleton.1 he]; exact hsorted
  · rw [hd]
    intro e he r hr hnew
    rcases List.mem_append.1 he with he | he
    · have := h.dirty e he r hr hnew
      exact ⟨hhn this.1, by rw [hst]; exact this.2⟩
    · rw [List.mem_singleton.1 he] at hr; exact hdirty r hr hnew

theorem Inv.find_ne_nil {c : Collection} (h : Inv c) {key : String}
    {records : List DataRecord} (hf : UMap.find c.m_data key = some records) :
    records ≠ [] :=
  h.nonempty _ (UMap.find_some_mem hf)

theorem Inv.find_sorted {c : Collection} (h : Inv c) {key : String}
    {records : List DataRecord} (hf : UMap.find c.m_data key = some records) :
    StrictAsc records :=
  h.sorted _ (UMap.find_some_mem hf)

theorem Inv.insertInternal {c : Collection} (h : Inv c) (timestamp : Int) (key data : String)
    (persist : Bool) (hp : persist = true → c.m_storage = true) :
    Inv (c.insertInternal timestamp key data persist) := by
  unfold Collection.insertInternal
  cases hf : UMap.find c.m_data key with
  | none =>
    simp only []
    refine Inv.append h key [⟨timestamp, data, persist⟩] hf ?_ rfl ?_ (by simp)
      (by simp [StrictAsc]) ?_
    · simp [UMap.emplace_of_none _ hf]
    · intro h1; simp [h1]
    · intro r hr hnew
      simp only [List.mem_singleton] at hr
      subst hr
      simp only at hnew
      subst hnew
      exact ⟨by simp, hp rfl⟩
  | some records =>
    have hne : records.isEmpty = false := by
      cases records with
      | nil => exact absurd rfl (h.find_ne_nil hf)
      | cons a rest => rfl
    simp only [hne, Bool.false_eq_true, if_false]
    refine Inv.update h key _ rfl rfl ?_ (Collection.upsertSorted_ne_nil _ _)
      (Collection.strictAsc_upsertSorted (h.find_sorted hf) _) ?_
    · intro h1; simp [h1]
    · intro r hr hnew
      rcases (Collection.mem_upsertSorted (h.find_sorted hf) _ r).1 hr with hr | hr
      · subst hr
        simp only at hnew
        subst hnew
        exact ⟨by simp, hp rfl⟩
      · have := h.dirty _ (UMap.find_some_mem hf) r hr.1 hnew
        exact ⟨by simp [this.1], this.2⟩

theorem Inv.insert {c : Collection} (h : Inv c) (timestamp : Int) (key data : String) :
    Inv (c.insert timestamp key data) :=
  Inv.insertInternal h timestamp key data c.m_storage (fun hp => hp)

theorem Inv.clearDocument {c : Collection} (h : Inv c) (key : String) :
    Inv (c.clearDocument key) := by
  unfold Collection.clearDocument
  cases hf : UMap.find c.m_data key with
  | none =>
    simp only []
    split_ifs
    · exact Inv.same h rfl rfl (fun x => x)
    · exact h
  | some records =>
    simp only []
    split_ifs
    · exact Inv.erase h key rfl rfl (fun x => x)
    · exact Inv.erase h key rfl rfl (fun x => x)

theorem Inv.removal {c c1 : Collection} (h : Inv c) {key : String}
    {records records1 : List DataRecord} (hf : UMap.find c.m_data key = some records)
    (hsub : records1.Sublist records)
    (hd : c1.m_data = if records1.isEmpty then UMap.erase c.m_data key
      else UMap.update c.m_data key records1)
    (hst : c1.m_storage = c.m_storage)
    (hhn : c1.m_hasNewRecords = c.m_hasNewRecords) : Inv c1 := by
  by_cases hemp : records1.isEmpty = true
  · rw [if_pos hemp] at hd
    exact Inv.erase h key hd hst (fun x => by rw [hhn]; exact x)
  · rw [if_neg hemp] at hd
    refine Inv.update h key records1 hd hst (fun x => by rw [hhn]; exact x) ?_
      (strictAsc_of_sublist hsub (h.find_sorted hf)) ?_
    · intro h3; apply hemp; rw [h3]; rfl
    · intro x hx hnew
      rw [hhn, hst]
      exact h.dirty _ (UMap.find_some_mem hf) x (hsub.subset hx) hnew

theorem Inv.deleteRecord {c : Collection} (h : Inv c) (key : String) (ts : Int) :
    Inv (c.deleteRecord key ts) := by
  unfold Collection.deleteRecord
  cases hf : UMap.find c.m_data key with
  | none => exact h
  | some records =>
    simp only []
    cases hget : records[lowerBound records ts]? with
    | none => exact h
    | some r =>
      simp only []
      by_cases h1 : r.timestamp ≠ ts
      · rw [if_pos h1]; exact h
      · rw [if_neg h1]
        refine Inv.removal h hf (List.eraseIdx_sublist records (lowerBound records ts)) ?_ ?_ ?_
        · split_ifs <;> rfl
        · split_ifs <;> rfl
        · split_ifs <;> rfl

theorem Inv.deleteRecordsInRange {c : Collection} (h : Inv c) (key : String)
    (fromTs toTs : Int) : Inv (c.deleteRecordsInRange key fromTs toTs) := by
  unfold Collection.deleteRecordsInRange
  cases hf : UMap.find c.m_data key with
  | none => exact h
  | some records =>
    simp only []
    by_cases h1 : lowerBound records fromTs = records.length ∨
        lowerBound records fromTs ≥ upperBound records toTs
    · rw [if_pos h1]; exact h
    · rw [if_neg h1]
      have hle : lowerBound records fromTs ≤ upperBound records toTs := by
        simp only [not_or, not_le, ge_iff_le] at h1
        omega
      refine Inv.removal h hf (Collection.take_append_drop_sublist records hle) ?_ ?_ ?_
      · split_ifs <;> rfl
      · split_ifs <;> rfl
      · split_ifs <;> rfl

theorem Inv.setValueForKey {c : Collection} (h : Inv c) (key value : String) :
    Inv (c.setValueForKey key value) := by
  unfold Collection.setValueForKey
  simp only []
  split_ifs <;> exact Inv.same h rfl rfl (fun x => x)

theorem Inv.removeValueForKey {c : Collection} (h : Inv c) (key : String) :
    Inv (c.removeValueForKey key) := by
  unfold Collection.removeValueForKey
  simp only []
  split_ifs <;> exact Inv.same h rfl rfl (fun x => x)

theorem Inv.flushToDisk {c : Collection} (h : Inv c) (beginOk : Bool) (upsertOk : Nat → Bool)
    (commitOk : Bool) : Inv (c.flushToDisk beginOk upsertOk commitOk) := by
  unfold Collection.flushToDisk
  by_cases hst : c.m_storage = true
  swap
  · rw [if_pos hst]; exact h
  rw [if_neg (not_not.2 hst)]
  by_cases hn : c.m_hasNewRecords = true
  swap
  · rw [if_pos hn]; exact h
  rw [if_neg (not_not.2 hn)]
  simp only []
  by_cases hb : beginOk = true
  swap
  · rw [if_pos hb]; exact Inv.same h rfl rfl (fun x => x)
  rw [if_neg (not_not.2 hb)]
  constructor
  · simp only [Collection.flushDocs_keys]; exact h.nodup
  · intro e1 he1
    obtain ⟨e, he, _, h2⟩ := Collection.flushDocs_entry _ _ _ _ e1 he1
    intro h3
    rw [h3] at h2
    have := h.nonempty e he
    cases hx : e.2 with
    | nil => exact this hx
    | cons a rest => rw [hx] at h2; simp at h2
  · intro e1 he1
    obtain ⟨e, he, _, h2⟩ := Collection.flushDocs_entry _ _ _ _ e1 he1
    rw [strictAsc_iff_map, h2, ← strictAsc_iff_map]
    exact h.sorted e he
  · intro e1 he1 r hr hnew
    refine ⟨?_, hst⟩
    simp only []
    by_cases hk : (Collection.flushDocs c.m_name upsertOk c.m_data
        { upserts := 0, keepFlushing := false, calls := [] }).2.keepFlushing = true
    · rw [if_neg (not_not.2 hk)]
      rw [Collection.anyNew_iff]
      exact ⟨e1, he1, r, hr, hnew⟩
    · have hk1 := (Collection.flushDocs_keep_false _ _ _ _ (by simpa using hk)).2 e1 he1 r hr
      rw [hk1] at hnew
      cases hnew

theorem Inv.foldl_insertInternal (rows : List StoredRecord) {c : Collection} (h : Inv c) :
    Inv (rows.foldl
      (fun acc record =>
        Collection.insertInternal acc record.timestamp record.document record.data false) c) := by
  induction rows generalizing c with
  | nil => exact h
  | cons row rest ih =>
    simp only [List.foldl_cons]
    exact ih (Inv.insertInternal h _ _ _ false (by simp))

theorem Inv.loadFromDisk {c : Collection} (h : Inv c) (rows : List StoredRecord)
    (keyValues : List StoredKeyValue) : Inv (c.loadFromDisk rows keyValues) := by
  unfold Collection.loadFromDisk
  by_cases hst : c.m_storage = true
  swap
  · rw [if_pos hst]; exact h
  rw [if_neg (not_not.2 hst)]
  simp only []
  refine Inv.same (Inv.foldl_insertInternal rows ?_) rfl rfl (fun x => x)
  constructor <;> simp [UMap.keys]

theorem Inv.step {c : Collection} (h : Inv c) (op : Op) : Inv (step c op) := by
  cases op with
  | insert timestamp key data => exact Inv.insert h timestamp key data
  | deleteRecord key ts => exact Inv.deleteRecord h key ts
  | deleteRecordsInRange key fromTs toTs => exact Inv.deleteRecordsInRange h key fromTs toTs
  | clearDocument key => exact Inv.clearDocument h key
  | loadFromDisk rows keyValues => exact Inv.loadFromDisk h rows keyValues
  | flushToDisk beginOk upsertOk commitOk => exact Inv.flushToDisk h beginOk upsertOk commitOk
  | setValueForKey key value => exact Inv.setValueForKey h key value
  | removeValueForKey key => exact Inv.removeValueForKey h key

theorem Inv.run {c : Collection} (h : Inv c) (ops : List Op) : Inv (run c ops) := by
  induction ops generalizing c with
  | nil => exact h
  | cons op rest ih =>
    simp only [FluxionDB.run, List.foldl_cons]
    exact ih (Inv.step h op)

theorem Inv.of_reachable {c : Collection} (h : Reachable c) : Inv c := by
  obtain ⟨name, storage, ops, rfl⟩ := h
  exact Inv.run (Inv.new name storage) ops

theorem reachable_new (name : String) (storage : Bool) :
    Reachable (Collection.new name storage) :=
  ⟨name, storage, [], rfl⟩

theorem reachable_run (name : String) (storage : Bool) (ops : List Op) :
    Reachable (run (Collection.new name storage) ops) :=
  ⟨name, storage, ops, rfl⟩

theorem run_append (c : Collection) (ops1 ops2 : List Op) :
    run c (ops1 ++ ops2) = run (run c ops1) ops2 := by
  simp [run, List.foldl_append]

theorem reachable_step {c : Collection} (h : Reachable c) (op : Op) : Reachable (step c op) := by
  obtain ⟨name, storage, ops, rfl⟩ := h
  exact ⟨name, storage, ops ++ [op], by simp [run, List.foldl_append]⟩

/-! ## Lower and upper bounds on sorted vectors -/

theorem strictAsc_eq_of_timestamp {l : List DataRecord} (hs : StrictAsc l) {x y : DataRecord}
    (hx : x ∈ l) (hy : y ∈ l) (h : x.timestamp = y.timestamp) : x = y := by
  induction l with
  | nil => simp at hx
  | cons a rest ih =>
    rw [strictAsc_cons] at hs
    rcases List.mem_cons.1 hx with hx | hx <;> rcases List.mem_cons.1 hy with hy | hy
    · rw [hx, hy]
    · have := hs.1 y hy; rw [hx] at h; omega
    · have := hs.1 x hx; rw [hy] at h; omega
    · exact ih hs.2 hx hy

theorem strictAsc_timestamps_nodup {l : List DataRecord} (hs : StrictAsc l) :
    (l.map (fun r => r.timestamp)).Nodup := by
  rw [strictAsc_iff_map] at hs
  exact hs.imp (fun h => ne_of_lt h)

theorem strictAsc_getLast {l : List DataRecord} (hs : StrictAsc l) {r : DataRecord}
    (h : l.getLast? = some r) : ∀ x ∈ l, x.timestamp ≤ r.timestamp := by
  induction l with
  | nil => simp at h
  | cons a rest ih =>
    rw [strictAsc_cons] at hs
    intro x hx
    cases rest with
    | nil =>
      simp at h hx
      rw [hx, h]
    | cons b rest2 =>
      have h2 : (b :: rest2).getLast? = some r := by
        simpa [List.getLast?_cons_cons] using h
      have hr : r ∈ b :: rest2 := List.mem_of_getLast?_eq_some h2
      rcases List.mem_cons.1 hx with hx | hx
      · rw [hx]; exact le_of_lt (hs.1 r hr)
      · exact ih hs.2 h2 x hx

theorem strictAsc_head {l : List DataRecord} (hs : StrictAsc l) {r : DataRecord}
    (h : l.head? = some r) : ∀ x ∈ l, r.timestamp ≤ x.timestamp := by
  cases l with
  | nil => simp at h
  | cons a rest =>
    rw [strictAsc_cons] at hs
    simp only [List.head?_cons, Option.some.injEq] at h
    subst h
    intro x hx
    rcases List.mem_cons.1 hx with hx | hx
    · rw [hx]
    · exact le_of_lt (hs.1 x hx)

theorem lowerBound_le_length (l : List DataRecord) (t : Int) : lowerBound l t ≤ l.length := by
  induction l with
  | nil => simp [lowerBound]
  | cons a rest ih =>
    simp only [lowerBound]
    split_ifs <;> simp [ih]

theorem upperBound_le_length (l : List DataRecord) (t : Int) : upperBound l t ≤ l.length := by
  induction l with
  | nil => simp [upperBound]
  | cons a rest ih =>
    simp only [upperBound]
    split_ifs <;> simp [ih]

theorem filter_eq_nil_of_gt {l : List DataRecord} {a : DataRecord} {t : Int}
    (h : ∀ b ∈ l, a.timestamp < b.timestamp) (ha : t < a.timestamp) :
    l.filter (fun r => decide (r.timestamp ≤ t)) = [] := by
  rw [List.filter_eq_nil_iff]
  intro b hb
  have := h b hb
  simp only [decide_eq_true_eq, not_le]
  omega

theorem take_upperBound_eq_filter {l : List DataRecord} (hs : StrictAsc l) (t : Int) :
    l.take (upperBound l t) = l.filter (fun r => decide (r.timestamp ≤ t)) := by
  induction l with
  | nil => rfl
  | cons a rest ih =>
    rw [strictAsc_cons] at hs
    by_cases h : t < a.timestamp
    · have h1 : ¬ a.timestamp ≤ t := by omega
      simp only [upperBound, h, if_true, List.take_zero, List.filter_cons, h1, decide_False,
        Bool.false_eq_true, if_false]
      exact (filter_eq_nil_of_gt hs.1 h).symm
    · have h1 : a.timestamp ≤ t := by omega
      simp only [upperBound, h, if_false, List.take_succ_cons, List.filter_cons, h1, decide_True,
        if_true, ih hs.2]

theorem drop_upperBound_eq_filter {l : List DataRecord} (hs : StrictAsc l) (t : Int) :
    l.drop (upperBound l t) = l.filter (fun r => decide (t < r.timestamp)) := by
  induction l with
  | nil => rfl
  | cons a rest ih =>
    rw [strictAsc_cons] at hs
    by_cases h : t < a.timestamp
    · simp only [upperBound, h, if_true, List.drop_zero]
      symm
      rw [List.filter_eq_self]
      intro b hb
      rcases List.mem_cons.1 hb with hb | hb
      · rw [hb]; simpa using h
      · have := hs.1 b hb
        simp only [decide_eq_true_eq]
        omega
    · simp only [upperBound, h, if_false, List.drop_succ_cons, List.filter_cons, decide_False,
        Bool.false_eq_true, ih hs.2]

theorem take_lowerBound_eq_filter {l : List DataRecord} (hs : StrictAsc l) (t : Int) :
    l.take (lowerBound l t) = l.filter (fun r => decide (r.timestamp < t)) := by
  induction l with
  | nil => rfl
  | cons a rest ih =>
    rw [strictAsc_cons] at hs
    by_cases h : a.timestamp < t
    · simp only [lowerBound, h, if_true, List.take_succ_cons, List.filter_cons, decide_True,
        ih hs.2]
    · simp only [lowerBound, h, if_false, List.take_zero]
      symm
      rw [List.filter_eq_nil_iff]
      intro b hb
      rcases List.mem_cons.1 hb with hb | hb
      · rw [hb]; simpa using h
      · have := hs.1 b hb
        simp only [decide_eq_true_eq, not_lt]
        omega

theorem drop_lowerBound_eq_filter {l : List DataRecord} (hs : StrictAsc l) (t : Int) :
    l.drop (lowerBound l t) = l.filter (fun r => decide (t ≤ r.timestamp)) := by
  induction l with
  | nil => rfl
  | cons a rest ih =>
    rw [strictAsc_cons] at hs
    by_cases h : a.timestamp < t
    · have h1 : ¬ t ≤ a.timestamp := by omega
      simp only [lowerBound, h, if_true, List.drop_succ_cons, List.filter_cons, h1, decide_False,
        Bool.false_eq_true, if_false, ih hs.2]
    · simp only [lowerBound, h, if_false, List.drop_zero]
      symm
      rw [List.filter_eq_self]
      intro b hb
      rcases List.mem_cons.1 hb with hb | hb
      · rw [hb]; simp only [decide_eq_true_eq]; omega
      · have := hs.1 b hb
        simp only [decide_eq_true_eq]
        omega

theorem take_drop_bounds_eq_filter {l : List DataRecord} (hs : StrictAsc l) (a b : Int) :
    (l.take (upperBound l b)).drop (lowerBound l a) =
      l.filter (fun r => decide (a ≤ r.timestamp ∧ r.timestamp ≤ b)) := by
  induction l with
  | nil => rfl
  | cons x rest ih =>
    have hs0 := hs
    rw [strictAsc_cons] at hs
    by_cases h : x.timestamp < a
    · have hx : ¬ (a ≤ x.timestamp ∧ x.timestamp ≤ b) := by omega
      by_cases h2 : b < x.timestamp
      · simp only [upperBound, h2, if_true, List.take_zero, List.drop_nil, List.filter_cons, hx,
          decide_False, Bool.false_eq_true, if_false]
        symm
        rw [List.filter_eq_nil_iff]
        intro y hy
        have := hs.1 y hy
        simp only [decide_eq_true_eq]
        omega
      · simp only [upperBound, h2, if_false, lowerBound, h, if_true, List.take_succ_cons,
          List.drop_succ_cons, List.filter_cons, hx, decide_False, Bool.false_eq_true, ih hs.2]
    · have hlb : lowerBound (x :: rest) a = 0 := by simp [lowerBound, h]
      rw [hlb, List.drop_zero, take_upperBound_eq_filter hs0]
      apply List.filter_congr
      intro y hy
      have hy2 : a ≤ y.timestamp := by
        rcases List.mem_cons.1 hy with hy | hy
        · rw [hy]; omega
        · have := hs.1 y hy; omega
      simp [hy2]

/-! ## The index functions -/

theorem getLast?_take_succ (l : List DataRecord) {n : Nat} (h : n < l.length) :
    (l.take (n + 1)).getLast? = l[n]? := by
  rw [List.getLast?_eq_getElem?, List.length_take, List.getElem?_take]
  have : min (n + 1) l.length - 1 = n := by omega
  rw [this]
  simp

theorem latest_index_get (l : List DataRecord) (t : Int) :
    (if getLatestRecordIndex l t = -1 then none
      else l[(getLatestRecordIndex l t).toNat]?) = (l.take (upperBound l t)).getLast? := by
  cases l with
  | nil => simp [getLatestRecordIndex]
  | cons a rest =>
    by_cases h : t < a.timestamp
    · simp [getLatestRecordIndex, upperBound, h]
    · have hlen := upperBound_le_length rest t
      have hidx : getLatestRecordIndex (a :: rest) t = (upperBound rest t : Int) := by
        simp [getLatestRecordIndex, upperBound, h]
      have hub : upperBound (a :: rest) t = upperBound rest t + 1 := by
        simp [upperBound, h]
      rw [hidx, hub, getLast?_take_succ _ (by simp; omega)]
      have hne : ¬ ((upperBound rest t : Int) = -1) := by omega
      rw [if_neg hne]
      simp

theorem earliest_index_get (l : List DataRecord) (t : Int) :
    (if getEarliestRecordIndex l t = -1 then none
      else l[(getEarliestRecordIndex l t).toNat]?) = (l.drop (lowerBound l t)).head? := by
  cases l with
  | nil => simp [getEarliestRecordIndex]
  | cons a rest =>
    have hlen := lowerBound_le_length (a :: rest) t
    by_cases h : lowerBound (a :: rest) t = (a :: rest).length
    · have hidx : getEarliestRecordIndex (a :: rest) t = -1 := by
        simp only [getEarliestRecordIndex, List.isEmpty_cons, Bool.false_eq_true, if_false, h,
          if_true]
      rw [hidx, h]
      simp
    · have hidx : getEarliestRecordIndex (a :: rest) t = (lowerBound (a :: rest) t : Int) := by
        simp only [getEarliestRecordIndex, List.isEmpty_cons, Bool.false_eq_true, if_false, h]
      rw [hidx]
      have hne : ¬ ((lowerBound (a :: rest) t : Int) = -1) := by omega
      rw [if_neg hne, List.head?_drop]
      simp

theorem range_select (l : List DataRecord) (a b : Int) :
    (if getEarliestRecordIndex l a = -1 then []
      else if getLatestRecordIndex l b = -1 then []
      else copyRange l (getEarliestRecordIndex l a) (getLatestRecordIndex l b)) =
      (l.take (upperBound l b)).drop (lowerBound l a) := by
  cases l with
  | nil => simp [getEarliestRecordIndex]
  | cons x rest =>
    have hlen := lowerBound_le_length (x :: rest) a
    by_cases h : lowerBound (x :: rest) a = (x :: rest).length
    · have hidx : getEarliestRecordIndex (x :: rest) a = -1 := by
        simp only [getEarliestRecordIndex, List.isEmpty_cons, Bool.false_eq_true, if_false, h,
          if_true]
      rw [hidx, h]
      simp only [if_true]
      symm
      apply List.drop_eq_nil_of_le
      rw [List.length_take]
      exact min_le_right _ _
    · have hidx : getEarliestRecordIndex (x :: rest) a = (lowerBound (x :: rest) a : Int) := by
        simp only [getEarliestRecordIndex, List.isEmpty_cons, Bool.false_eq_true, if_false, h]
      have hne : ¬ ((lowerBound (x :: rest) a : Int) = -1) := by omega
      rw [hidx, if_neg hne]
      by_cases h2 : b < x.timestamp
      · simp [getLatestRecordIndex, upperBound, h2]
      · have hidx2 : getLatestRecordIndex (x :: rest) b = (upperBound rest b : Int) := by
          simp [getLatestRecordIndex, upperBound, h2]
        have hub : upperBound (x :: rest) b = upperBound rest b + 1 := by
          simp [upperBound, h2]
        have hne2 : ¬ ((upperBound rest b : Int) = -1) := by omega
        rw [hidx2, if_neg hne2, hub]
        simp only [copyRange]
        have e1 : ((upperBound rest b : Int) + 1).toNat = upperBound rest b + 1 := by omega
        have e2 : ((lowerBound (x :: rest) a : Nat) : Int).toNat = lowerBound (x :: rest) a := by
          omega
        rw [e1, e2]

/-! ## Point lookups -/

theorem document_of_find {c : Collection} {key : String} {records : List DataRecord}
    (hf : UMap.find c.m_data key = some records) : c.document key = records := by
  simp [Collection.document, hf]

theorem document_of_find_none {c : Collection} {key : String}
    (hf : UMap.find c.m_data key = none) : c.document key = [] := by
  simp [Collection.document, hf]

theorem Inv.document_sorted {c : Collection} (h : Inv c) (key : String) :
    StrictAsc (c.document key) := by
  cases hf : UMap.find c.m_data key with
  | none => rw [document_of_find_none hf]; exact List.Pairwise.nil
  | some records => rw [document_of_find hf]; exact h.find_sorted hf

theorem getLatest_eq (c : Collection) (key : String) (t : Int) :
    c.getLatestRecordForDocument key t =
      ((c.document key).take (upperBound (c.document key) t)).getLast? := by
  unfold Collection.getLatestRecordForDocument
  cases hf : UMap.find c.m_data key with
  | none => simp [document_of_find_none hf]
  | some records =>
    rw [document_of_find hf]
    exact latest_index_get records t

theorem getEarliest_eq (c : Collection) (key : String) (t : Int) :
    c.getEarliestRecordForDocument key t =
      ((c.document key).drop (lowerBound (c.document key) t)).head? := by
  unfold Collection.getEarliestRecordForDocument
  cases hf : UMap.find c.m_data key with
  | none => simp [document_of_find_none hf]
  | some records =>
    rw [document_of_find hf]
    exact earliest_index_get records t

theorem latest_spec {l : List DataRecord} (hs : StrictAsc l) (t : Int) (r : DataRecord) :
    (l.take (upperBound l t)).getLast? = some r ↔
      (r ∈ l ∧ r.timestamp ≤ t ∧ ∀ x ∈ l, x.timestamp ≤ t → x.timestamp ≤ r.timestamp) := by
  rw [take_upperBound_eq_filter hs]
  have hsf : StrictAsc (l.filter (fun r => decide (r.timestamp ≤ t))) :=
    strictAsc_of_sublist (List.filter_sublist l) hs
  have fwd : ∀ r1, (l.filter (fun r => decide (r.timestamp ≤ t))).getLast? = some r1 →
      (r1 ∈ l ∧ r1.timestamp ≤ t ∧ ∀ x ∈ l, x.timestamp ≤ t → x.timestamp ≤ r1.timestamp) := by
    intro r1 h
    have hm := List.mem_of_getLast?_eq_some h
    rw [List.mem_filter] at hm
    refine ⟨hm.1, by simpa using hm.2, ?_⟩
    intro x hx hxt
    exact strictAsc_getLast hsf h x (List.mem_filter.2 ⟨hx, by simpa using hxt⟩)
  constructor
  · exact fwd r
  · rintro ⟨hr, hrt, hmax⟩
    cases hlast : (l.filter (fun r => decide (r.timestamp ≤ t))).getLast? with
    | none =>
      rw [List.getLast?_eq_none_iff, List.filter_eq_nil_iff] at hlast
      exact absurd (by simpa using hrt) (hlast r hr)
    | some r1 =>
      obtain ⟨h1, h2, h3⟩ := fwd r1 hlast
      have e : r1.timestamp = r.timestamp := le_antisymm (hmax r1 h1 h2) (h3 r hr hrt)
      rw [strictAsc_eq_of_timestamp hs h1 hr e]

theorem latest_none {l : List DataRecord} (hs : StrictAsc l) (t : Int) :
    (l.take (upperBound l t)).getLast? = none ↔ ∀ x ∈ l, ¬ x.timestamp ≤ t := by
  rw [take_upperBound_eq_filter hs, List.getLast?_eq_none_iff, List.filter_eq_nil_iff]
  simp

theorem earliest_spec {l : List DataRecord} (hs : StrictAsc l) (t : Int) (r : DataRecord) :
    (l.drop (lowerBound l t)).head? = some r ↔
      (r ∈ l ∧ t ≤ r.timestamp ∧ ∀ x ∈ l, t ≤ x.timestamp → r.timestamp ≤ x.timestamp) := by
  rw [drop_lowerBound_eq_filter hs]
  have hsf : StrictAsc (l.filter (fun r => decide (t ≤ r.timestamp))) :=
    strictAsc_of_sublist (List.filter_sublist l) hs
  have fwd : ∀ r1, (l.filter (fun r => decide (t ≤ r.timestamp))).head? = some r1 →
      (r1 ∈ l ∧ t ≤ r1.timestamp ∧ ∀ x ∈ l, t ≤ x.timestamp → r1.timestamp ≤ x.timestamp) := by
    intro r1 h
    have hm := List.mem_of_mem_head? h
    rw [List.mem_filter] at hm
    refine ⟨hm.1, by simpa using hm.2, ?_⟩
    intro x hx hxt
    exact strictAsc_head hsf h x (List.mem_filter.2 ⟨hx, by simpa using hxt⟩)
  constructor
  · exact fwd r
  · rintro ⟨hr, hrt, hmin⟩
    cases hhead : (l.filter (fun r => decide (t ≤ r.timestamp))).head? with
    | none =>
      rw [List.head?_eq_none_iff, List.filter_eq_nil_iff] at hhead
      exact absurd (by simpa using hrt) (hhead r hr)
    | some r1 =>
      obtain ⟨h1, h2, h3⟩ := fwd r1 hhead
      have e : r1.timestamp = r.timestamp := le_antisymm (h3 r hr hrt) (hmin r1 h1 h2)
      rw [strictAsc_eq_of_timestamp hs h1 hr e]

theorem earliest_none {l : List DataRecord} (hs : StrictAsc l) (t : Int) :
    (l.drop (lowerBound l t)).head? = none ↔ ∀ x ∈ l, ¬ t ≤ x.timestamp := by
  rw [drop_lowerBound_eq_filter hs, List.head?_eq_none_iff, List.filter_eq_nil_iff]
  simp

/-! ## Effect of `insertInternal` on the documents -/

theorem insertInternal_document_self {c : Collection} (h : Inv c) (timestamp : Int)
    (key data : String) (persist : Bool) :
    (c.insertInternal timestamp key data persist).document key =
      Collection.upsertSorted (c.document key) ⟨timestamp, data, persist⟩ := by
  unfold Collection.insertInternal
  cases hf : UMap.find c.m_data key with
  | none =>
    simp only [Collection.document, hf, UMap.emplace_of_none _ hf, UMap.find_append_single,
      if_true, Option.getD_some, Option.getD_none, Collection.upsertSorted_nil]
  | some records =>
    have hne : records.isEmpty = false := by
      cases records with
      | nil => exact absurd rfl (h.find_ne_nil hf)
      | cons a rest => rfl
    simp only [hne, Bool.false_eq_true, if_false, Collection.document, hf,
      UMap.find_update_self _ hf, Option.getD_some]

theorem insertInternal_find_other (c : Collection) (timestamp : Int) (key data : String)
    (persist : Bool) {key1 : String} (hk : key1 ≠ key) :
    UMap.find (c.insertInternal timestamp key data persist).m_data key1 =
      UMap.find c.m_data key1 := by
  unfold Collection.insertInternal
  cases hf : UMap.find c.m_data key with
  | none =>
    have hk1 : ¬ key = key1 := fun h1 => hk h1.symm
    simp only [UMap.emplace_of_none _ hf, UMap.find_append_single, hk1, if_false]
    cases UMap.find c.m_data key1 <;> rfl
  | some records =>
    simp only []
    split_ifs <;> exact UMap.find_update_of_ne _ _ hk

theorem insertInternal_find_self {c : Collection} (h : Inv c) (timestamp : Int)
    (key data : String) (persist : Bool) :
    UMap.find (c.insertInternal timestamp key data persist).m_data key =
      some (Collection.upsertSorted (c.document key) ⟨timestamp, data, persist⟩) := by
  have h1 := insertInternal_document_self h timestamp key data persist
  cases hf : UMap.find (c.insertInternal timestamp key data persist).m_data key with
  | none =>
    rw [document_of_find_none hf] at h1
    exact absurd h1.symm (Collection.upsertSorted_ne_nil _ _)
  | some records =>
    rw [document_of_find hf] at h1
    rw [h1]

theorem insertInternal_storage (c : Collection) (timestamp : Int) (key data : String)
    (persist : Bool) : (c.insertInternal timestamp key data persist).m_storage = c.m_storage := by
  unfold Collection.insertInternal
  cases UMap.find c.m_data key with
  | none => rfl
  | some records => simp only []; split_ifs <;> rfl

theorem insertInternal_keyValues (c : Collection) (timestamp : Int) (key data : String)
    (persist : Bool) :
    (c.insertInternal timestamp key data persist).m_key_vaue = c.m_key_vaue := by
  unfold Collection.insertInternal
  cases UMap.find c.m_data key with
  | none => rfl
  | some records => simp only []; split_ifs <;> rfl

theorem insertInternal_storeCalls (c : Collection) (timestamp : Int) (key data : String)
    (persist : Bool) :
    (c.insertInternal timestamp key data persist).storeCalls = c.storeCalls := by
  unfold Collection.insertInternal
  cases UMap.find c.m_data key with
  | none => rfl
  | some records => simp only []; split_ifs <;> rfl

theorem insertInternal_hasNew {c : Collection} (h : Inv c) (timestamp : Int)
    (key data : String) (persist : Bool) :
    (c.insertInternal timestamp key data persist).m_hasNewRecords =
      (persist || c.m_hasNewRecords) := by
  unfold Collection.insertInternal
  cases hf : UMap.find c.m_data key with
  | none => cases persist <;> simp
  | some records =>
    have hne : records.isEmpty = false := by
      cases records with
      | nil => exact absurd rfl (h.find_ne_nil hf)
      | cons a rest => rfl
    cases persist <;> simp [hne]

/-! ## Range reads on one document -/

theorem getAllRecordsForDocument_base (c : Collection) (key : String) (a b : Int) :
    c.getAllRecordsForDocument key a b false 0 =
      if a > b then []
      else ((c.document key).take (upperBound (c.document key) b)).drop
        (lowerBound (c.document key) a) := by
  unfold Collection.getAllRecordsForDocument
  cases hf : UMap.find c.m_data key with
  | none => simp [document_of_find_none hf]
  | some records =>
    rw [document_of_find hf, ← range_select records a b]
    simp only []
    by_cases h0 : a > b
    · simp [h0]
    · simp only [h0, if_false]
      by_cases h1 : getEarliestRecordIndex records a = -1
      · simp [h1]
      · simp only [h1, if_false]
        by_cases h2 : getLatestRecordIndex records b = -1
        · simp [h2]
        · simp [h2]

theorem getAllRecordsForDocument_post (c : Collection) (key : String) (a b : Int)
    (reverse : Bool) (limit : Int) :
    c.getAllRecordsForDocument key a b reverse limit =
      if limit > 0 ∧
          (((if reverse then (c.getAllRecordsForDocument key a b false 0).reverse
            else c.getAllRecordsForDocument key a b false 0).length : Nat) : Int) > limit
      then (if reverse then (c.getAllRecordsForDocument key a b false 0).reverse
            else c.getAllRecordsForDocument key a b false 0).take limit.toNat
      else (if reverse then (c.getAllRecordsForDocument key a b false 0).reverse
            else c.getAllRecordsForDocument key a b false 0) := by
  unfold Collection.getAllRecordsForDocument
  cases hf : UMap.find c.m_data key with
  | none => cases reverse <;> simp
  | some records =>
    simp only []
    by_cases h0 : a > b
    · cases reverse <;> simp [h0]
    · simp only [h0, if_false]
      by_cases h1 : getEarliestRecordIndex records a = -1
      · cases reverse <;> simp [h1]
      · simp only [h1, if_false]
        by_cases h2 : getLatestRecordIndex records b = -1
        · cases reverse <;> simp [h2]
        · cases reverse <;> simp [h2]

theorem getAllRecordsForDocument_filter {c : Collection} (h : Inv c) (key : String)
    (a b : Int) :
    c.getAllRecordsForDocument key a b false 0 =
      (c.document key).filter (fun r => decide (a ≤ r.timestamp ∧ r.timestamp ≤ b)) := by
  rw [getAllRecordsForDocument_base]
  have hs := h.document_sorted key
  rw [take_drop_bounds_eq_filter hs]
  by_cases h0 : a > b
  · rw [if_pos h0]
    symm
    rw [List.filter_eq_nil_iff]
    intro x _
    simp only [decide_eq_true_eq]
    omega
  · rw [if_neg h0]

/-! ## Snapshots over all documents -/

theorem UMap.keys_assign_nodup {V : Type} {m : UMap V} (hn : (UMap.keys m).Nodup)
    (k : String) (v : V) : (UMap.keys (UMap.assign m k v)).Nodup := by
  cases h : UMap.find m k with
  | none => rw [UMap.assign_of_none v h]; exact UMap.keys_append_single_nodup hn v h
  | some v0 => rw [UMap.assign_of_some v h, UMap.keys_update]; exact hn

theorem snapshotInsert_eq (result : UMap DataRecord) (docKey : String)
    (records : List DataRecord) (atTs fromTs : Int) :
    Collection.snapshotInsert result docKey records atTs fromTs =
      match ((records.take (upperBound records atTs)).getLast?).filter
          (fun r => decide (fromTs = 0 ∨ r.timestamp ≥ fromTs)) with
      | some r => UMap.assign result docKey r
      | none => result := by
  rw [← latest_index_get records atTs]
  unfold Collection.snapshotInsert
  by_cases h : getLatestRecordIndex records atTs = -1
  · simp [h]
  · simp only [ne_eq, h, not_false_eq_true, if_true, if_false]
    cases hget : records[(getLatestRecordIndex records atTs).toNat]? with
    | none => simp
    | some r =>
      by_cases h2 : fromTs = 0 ∨ r.timestamp ≥ fromTs
      · simp [Option.filter, h2]
      · simp [Option.filter, h2]

theorem find_foldl_snapshotInsert (atTs fromTs : Int) (k : String)
    (m : UMap (List DataRecord)) (hn : (UMap.keys m).Nodup) (init : UMap DataRecord) :
    UMap.find (m.foldl
      (fun result entry => Collection.snapshotInsert result entry.1 entry.2 atTs fromTs) init) k =
      match (UMap.find m k).bind (fun records =>
          ((records.take (upperBound records atTs)).getLast?).filter
            (fun r => decide (fromTs = 0 ∨ r.timestamp ≥ fromTs))) with
      | some r => some r
      | none => UMap.find init k := by
  induction m generalizing init with
  | nil => simp [UMap.find]
  | cons e rest ih =>
    obtain ⟨k0, v0⟩ := e
    simp only [UMap.keys, List.map_cons, List.nodup_cons] at hn
    simp only [List.foldl_cons]
    rw [ih hn.2]
    by_cases hk : k0 = k
    · subst hk
      have hnone : UMap.find rest k0 = none := (UMap.find_none_iff rest k0).2 hn.1
      rw [snapshotInsert_eq]
      simp only [hnone, Option.none_bind, UMap.find, if_true, Option.some_bind]
      generalize ((v0.take (upperBound v0 atTs)).getLast?).filter
          (fun r => decide (fromTs = 0 ∨ r.timestamp ≥ fromTs)) = sel
      cases sel with
      | none => rfl
      | some r => simp [UMap.find_assign_self]
    · simp only [UMap.find, hk, if_false]
      have hfi : UMap.find (Collection.snapshotInsert init k0 v0 atTs fromTs) k =
          UMap.find init k := by
        rw [snapshotInsert_eq]
        generalize ((v0.take (upperBound v0 atTs)).getLast?).filter
            (fun r => decide (fromTs = 0 ∨ r.timestamp ≥ fromTs)) = sel
        cases sel with
        | none => rfl
        | some r => exact UMap.find_assign_of_ne init r (fun h1 => hk h1.symm)
      rw [hfi]

theorem keys_foldl_snapshotInsert_nodup (atTs fromTs : Int) (m : UMap (List DataRecord))
    (init : UMap DataRecord) (hi : (UMap.keys init).Nodup) :
    (UMap.keys (m.foldl
      (fun result entry => Collection.snapshotInsert result entry.1 entry.2 atTs fromTs)
      init)).Nodup := by
  induction m generalizing init with
  | nil => exact hi
  | cons e rest ih =>
    simp only [List.foldl_cons]
    apply ih
    rw [snapshotInsert_eq]
    generalize ((e.2.take (upperBound e.2 atTs)).getLast?).filter
        (fun r => decide (fromTs = 0 ∨ r.timestamp ≥ fromTs)) = sel
    cases sel with
    | none => exact hi
    | some r => exact UMap.keys_assign_nodup hi _ _

theorem getAllRecords_all (c : Collection) (atTs fromTs : Int) :
    c.getAllRecords atTs "" fromTs none =
      c.m_data.foldl
        (fun result entry => Collection.snapshotInsert result entry.1 entry.2 atTs fromTs) [] := by
  have he : "".isEmpty = true := by decide
  simp [Collection.getAllRecords, he]

/-! ## The aggregate marker `m_hasNewRecords` -/

theorem foldl_insertInternal_hasNew (rows : List StoredRecord) {c : Collection} (h : Inv c) :
    (rows.foldl
      (fun acc record =>
        Collection.insertInternal acc record.timestamp record.document record.data false)
      c).m_hasNewRecords = c.m_hasNewRecords := by
  induction rows generalizing c with
  | nil => rfl
  | cons row rest ih =>
    simp only [List.foldl_cons]
    rw [ih (Inv.insertInternal h _ _ _ false (by simp)), insertInternal_hasNew h]
    simp

theorem loadFromDisk_hasNew {c : Collection} (hst : c.m_storage = true)
    (rows : List StoredRecord) (keyValues : List StoredKeyValue) :
    (c.loadFromDisk rows keyValues).m_hasNewRecords = false := by
  unfold Collection.loadFromDisk
  rw [if_neg (not_not.2 hst)]
  simp only []
  rw [foldl_insertInternal_hasNew rows]
  constructor <;> simp [UMap.keys]

theorem hasNew_exact_step {c : Collection} (h : Inv c)
    (he : c.m_hasNewRecords = true → hasDirtyRecord c) (op : Op)
    (hop : op.isDeletion = false) :
    (step c op).m_hasNewRecords = true → hasDirtyRecord (step c op) := by
  cases op with
  | deleteRecord key ts => simp [Op.isDeletion] at hop
  | deleteRecordsInRange key fromTs toTs => simp [Op.isDeletion] at hop
  | clearDocument key => simp [Op.isDeletion] at hop
  | insert timestamp key data =>
    intro hnew
    simp only [step, Collection.insert] at hnew ⊢
    by_cases hst : c.m_storage = true
    · have hfind := insertInternal_find_self h timestamp key data c.m_storage
      refine ⟨_, UMap.find_some_mem hfind, ⟨timestamp, data, c.m_storage⟩, ?_, hst⟩
      exact (Collection.mem_upsertSorted (h.document_sorted key) _ _).2 (Or.inl rfl)
    · rw [insertInternal_hasNew h] at hnew
      have hst1 : c.m_storage = false := by simpa using hst
      rw [hst1] at hnew
      simp only [Bool.false_or] at hnew
      obtain ⟨e, hmem, r, hr, hd⟩ := he hnew
      exact absurd (h.dirty e hmem r hr hd).2 hst
  | loadFromDisk rows keyValues =>
    intro hnew
    simp only [step] at hnew ⊢
    by_cases hst : c.m_storage = true
    · rw [loadFromDisk_hasNew hst] at hnew
      cases hnew
    · have hsame : c.loadFromDisk rows keyValues = c := by
        unfold Collection.loadFromDisk
        rw [if_pos hst]
      rw [hsame] at hnew ⊢
      exact he hnew
  | flushToDisk beginOk upsertOk commitOk =>
    simp only [step]
    unfold Collection.flushToDisk
    by_cases hst : c.m_storage = true
    swap
    · rw [if_pos hst]; exact he
    rw [if_neg (not_not.2 hst)]
    by_cases hn : c.m_hasNewRecords = true
    swap
    · rw [if_pos hn]; exact he
    rw [if_neg (not_not.2 hn)]
    simp only []
    by_cases hb : beginOk = true
    swap
    · rw [if_pos hb]; intro hnew; exact he hnew
    rw [if_neg (not_not.2 hb)]
    intro hnew
    simp only [] at hnew
    by_cases hk : (Collection.flushDocs c.m_name upsertOk c.m_data
        { upserts := 0, keepFlushing := false, calls := [] }).2.keepFlushing = true
    · rw [if_neg (not_not.2 hk)] at hnew
      exact (Collection.anyNew_iff _).1 hnew
    · rw [if_pos hk] at hnew
      cases hnew
  | setValueForKey key value =>
    intro hnew
    simp only [step, Collection.setValueForKey] at hnew ⊢
    split_ifs at hnew ⊢ <;> exact he hnew
  | removeValueForKey key =>
    intro hnew
    simp only [step, Collection.removeValueForKey] at hnew ⊢
    split_ifs at hnew ⊢ <;> exact he hnew

theorem hasNew_exact_run {c : Collection} (h : Inv c)
    (he : c.m_hasNewRecords = true → hasDirtyRecord c) (ops : List Op)
    (hops : ∀ op ∈ ops, op.isDeletion = false) :
    (run c ops).m_hasNewRecords = true → hasDirtyRecord (run c ops) := by
  induction ops generalizing c with
  | nil => exact he
  | cons op rest ih =>
    simp only [run, List.foldl_cons]
    exact ih (Inv.step h op)
      (hasNew_exact_step h he op (hops op (List.mem_cons_self _ _)))
      (fun op1 h1 => hops op1 (List.mem_cons_of_mem _ h1))

/-! ## Key filters of `getAllRecords` and `getAllValues` -/

theorem getAllRecords_invalid_regex (c : Collection) (atTs : Int) (key : String) (fromTs : Int)
    (re : QRegularExpression) (hv : re.isValid = false) :
    c.getAllRecords atTs key fromTs (some re) = c.getAllRecords atTs key fromTs none := by
  simp [Collection.getAllRecords, hv]

theorem getAllValues_invalid_regex (c : Collection)
    (re : QRegularExpression) (hv : re.isValid = false) :
    c.getAllValues (some re) = c.getAllValues none := by
  simp [Collection.getAllValues, hv]

theorem getAllRecords_valid_regex (c : Collection) (atTs : Int) (key : String) (fromTs : Int)
    (re : QRegularExpression) (hv : re.isValid = true) :
    c.getAllRecords atTs key fromTs (some re) =
      c.m_data.foldl
        (fun result entry =>
          if re.hasMatch entry.1 = false then result
          else if key.isEmpty = false ∧ entry.1 ≠ key then result
          else Collection.snapshotInsert result entry.1 entry.2 atTs fromTs) [] := by
  simp [Collection.getAllRecords, hv]

theorem getAllRecords_key_only (c : Collection) (atTs : Int) (key : String) (fromTs : Int)
    (hk : key.isEmpty = false) :
    c.getAllRecords atTs key fromTs none =
      match UMap.find c.m_data key with
      | none => []
      | some records => Collection.snapshotInsert [] key records atTs fromTs := by
  simp [Collection.getAllRecords, hk]

theorem foldl_regex_key_skip (re : QRegularExpression) (key : String) (atTs fromTs : Int)
    (m : UMap (List DataRecord)) (init : UMap DataRecord)
    (h : ∀ e ∈ m, re.hasMatch e.1 = false ∨ (key.isEmpty = false ∧ e.1 ≠ key)) :
    m.foldl
      (fun result entry =>
        if re.hasMatch entry.1 = false then result
        else if key.isEmpty = false ∧ entry.1 ≠ key then result
        else Collection.snapshotInsert result entry.1 entry.2 atTs fromTs) init = init := by
  induction m generalizing init with
  | nil => rfl
  | cons e rest ih =>
    simp only [List.foldl_cons]
    have he := h e (List.mem_cons_self _ _)
    have hstep : (if re.hasMatch e.1 = false then init
        else if key.isEmpty = false ∧ e.1 ≠ key then init
        else Collection.snapshotInsert init e.1 e.2 atTs fromTs) = init := by
      rcases he with he | he
      · rw [if_pos he]
      · by_cases h1 : re.hasMatch e.1 = false
        · rw [if_pos h1]
        · rw [if_neg h1, if_pos he]
    rw [hstep]
    exact ih init (fun e1 h1 => h e1 (List.mem_cons_of_mem _ h1))

theorem foldl_regex_key_select (re : QRegularExpression) (key : String) (atTs fromTs : Int)
    (hm : re.hasMatch key = true) (hk : key.isEmpty = false)
    (m : UMap (List DataRecord)) (hn : (UMap.keys m).Nodup) (init : UMap DataRecord) :
    m.foldl
      (fun result entry =>
        if re.hasMatch entry.1 = false then result
        else if key.isEmpty = false ∧ entry.1 ≠ key then result
        else Collection.snapshotInsert result entry.1 entry.2 atTs fromTs) init =
      match UMap.find m key with
      | none => init
      | some records => Collection.snapshotInsert init key records atTs fromTs := by
  induction m generalizing init with
  | nil => rfl
  | cons e rest ih =>
    obtain ⟨k0, v0⟩ := e
    simp only [UMap.keys, List.map_cons, List.nodup_cons] at hn
    simp only [List.foldl_cons]
    by_cases h0 : k0 = key
    · subst h0
      have hskip := foldl_regex_key_skip re k0 atTs fromTs rest
        (Collection.snapshotInsert init k0 v0 atTs fromTs)
        (fun e1 h1 => Or.inr ⟨hk, fun h2 => hn.1 (by
          rw [← h2]; exact List.mem_map_of_mem Prod.fst h1)⟩)
      simp only [hm, Bool.true_eq_false, if_false, ne_eq, not_true_eq_false, and_false,
        UMap.find, if_true]
      exact hskip
    · have hstep : (if re.hasMatch k0 = false then init
          else if key.isEmpty = false ∧ k0 ≠ key then init
          else Collection.snapshotInsert init k0 v0 atTs fromTs) = init := by
        by_cases h1 : re.hasMatch k0 = false
        · rw [if_pos h1]
        · rw [if_neg h1, if_pos ⟨hk, h0⟩]
      simp only [hstep, UMap.find, h0, if_false]
      exact ih hn.2 init

theorem keys_snapshotInsert_nil (key : String) (records : List DataRecord)
    (atTs fromTs : Int) :
    ∀ k ∈ UMap.keys (Collection.snapshotInsert [] key records atTs fromTs), k = key := by
  rw [snapshotInsert_eq]
  generalize ((records.take (upperBound records atTs)).getLast?).filter
      (fun r => decide (fromTs = 0 ∨ r.timestamp ≥ fromTs)) = sel
  cases sel with
  | none => intro k hk; simp [UMap.keys] at hk
  | some r => intro k hk; simpa [UMap.keys, UMap.assign, UMap.find] using hk

theorem foldl_assign_filter (p : String → Bool) (m : UMap String) (hn : (UMap.keys m).Nodup)
    (init : UMap String) (hd : ∀ k ∈ UMap.keys m, k ∉ UMap.keys init) :
    m.foldl (fun result entry =>
        if p entry.1 = true then result else UMap.assign result entry.1 entry.2) init =
      init ++ m.filter (fun e => !p e.1) := by
  induction m generalizing init with
  | nil => simp
  | cons e rest ih =>
    obtain ⟨k0, v0⟩ := e
    simp only [UMap.keys, List.map_cons, List.nodup_cons] at hn
    simp only [List.foldl_cons]
    by_cases hp : p k0 = true
    · simp only [hp, if_true, Bool.not_true, Bool.false_eq_true, not_false_eq_true,
        List.filter_cons_of_neg]
      exact ih hn.2 init (fun k hk => hd k (by simp [UMap.keys] at hk ⊢; exact Or.inr hk))
    · have hnone : UMap.find init k0 = none :=
        (UMap.find_none_iff init k0).2 (hd k0 (by simp [UMap.keys]))
      have hp1 : p k0 = false := by simpa using hp
      simp only [hp1, Bool.false_eq_true, if_false, UMap.assign_of_none v0 hnone, Bool.not_false,
        List.filter_cons_of_pos]
      rw [ih hn.2 (init ++ [(k0, v0)])]
      · simp
      · intro k hk hmem
        simp only [UMap.keys, List.map_append, List.map_cons, List.map_nil, List.mem_append,
          List.mem_singleton] at hmem
        rcases hmem with hmem | hmem
        · exact hd k (by simp [UMap.keys] at hk ⊢; exact Or.inr hk) hmem
        · subst hmem; exact hn.1 hk

theorem getAllValues_none (c : Collection) (hn : (UMap.keys c.m_key_vaue).Nodup) :
    c.getAllValues none = c.m_key_vaue := by
  have h := foldl_assign_filter (fun _ => false) c.m_key_vaue hn [] (by simp [UMap.keys])
  simp only [Bool.false_eq_true, if_false, Bool.not_false, List.filter_true, List.nil_append]
    at h
  simpa [Collection.getAllValues] using h

theorem getAllValues_valid (c : Collection) (hn : (UMap.keys c.m_key_vaue).Nodup)
    (re : QRegularExpression) (hv : re.isValid = true) :
    c.getAllValues (some re) = c.m_key_vaue.filter (fun e => re.hasMatch e.1) := by
  have h := foldl_assign_filter (fun k => !re.hasMatch k) c.m_key_vaue hn []
    (by simp [UMap.keys])
  simp only [Bool.not_not, List.nil_append] at h
  rw [← h]
  simp [Collection.getAllValues, hv]

/-! ## Session data -/

theorem foldl_append_record (key : String) (l : List DataRecord)
    (res : UMap (List DataRecord)) :
    UMap.find (l.foldl
      (fun res r => UMap.assign res key ((UMap.find res key).getD [] ++ [r])) res) key =
      (if l = [] then UMap.find res key else some ((UMap.find res key).getD [] ++ l)) ∧
    (∀ k, k ≠ key → UMap.find (l.foldl
      (fun res r => UMap.assign res key ((UMap.find res key).getD [] ++ [r])) res) k =
      UMap.find res k) ∧
    ((UMap.keys res).Nodup → (UMap.keys (l.foldl
      (fun res r => UMap.assign res key ((UMap.find res key).getD [] ++ [r])) res)).Nodup) := by
  induction l generalizing res with
  | nil => simp
  | cons r rest ih =>
    simp only [List.foldl_cons]
    obtain ⟨h1, h2, h3⟩ := ih (UMap.assign res key ((UMap.find res key).getD [] ++ [r]))
    refine ⟨?_, ?_, ?_⟩
    · rw [h1, UMap.find_assign_self]
      by_cases hr : rest = []
      · simp [hr]
      · simp [hr]
    · intro k hk
      rw [h2 k hk, UMap.find_assign_of_ne _ _ hk]
    · intro hn
      exact h3 (UMap.keys_assign_nodup hn _ _)

theorem getSessionData_eq (c : Collection) (fromTs toTs : Int) :
    c.getSessionData fromTs toTs =
      c.m_data.foldl
        (fun result entry =>
          (if fromTs > toTs then []
            else (entry.2.take (upperBound entry.2 toTs)).drop
              (lowerBound entry.2 fromTs)).foldl
            (fun res r => UMap.assign res entry.1 ((UMap.find res entry.1).getD [] ++ [r]))
            result) [] := by
  unfold Collection.getSessionData
  congr 1
  funext result entry
  rw [← range_select entry.2 fromTs toTs]
  simp only []
  by_cases h0 : fromTs > toTs
  · simp [h0]
  · simp only [h0, if_false]
    by_cases h1 : getEarliestRecordIndex entry.2 fromTs = -1
    · simp [h1]
    · simp only [h1, if_false]
      by_cases h2 : getLatestRecordIndex entry.2 toTs = -1
      · simp [h2]
      · simp [h2]

theorem find_foldl_session (sel : List DataRecord → List DataRecord) (k : String)
    (m : UMap (List DataRecord)) (hn : (UMap.keys m).Nodup)
    (init : UMap (List DataRecord)) :
    UMap.find (m.foldl
      (fun result entry =>
        (sel entry.2).foldl
          (fun res r => UMap.assign res entry.1 ((UMap.find res entry.1).getD [] ++ [r]))
          result) init) k =
      match UMap.find m k with
      | some records =>
        if sel records = [] then UMap.find init k
        else some ((UMap.find init k).getD [] ++ sel records)
      | none => UMap.find init k := by
  induction m generalizing init with
  | nil => simp [UMap.find]
  | cons e rest ih =>
    obtain ⟨k0, v0⟩ := e
    simp only [UMap.keys, List.map_cons, List.nodup_cons] at hn
    simp only [List.foldl_cons]
    rw [ih hn.2]
    obtain ⟨h1, h2, _⟩ := foldl_append_record k0 (sel v0) init
    by_cases hk : k0 = k
    · subst hk
      have hnone : UMap.find rest k0 = none := (UMap.find_none_iff rest k0).2 hn.1
      simp only [hnone, UMap.find, if_true]
      exact h1
    · simp only [UMap.find, hk, if_false]
      rw [h2 k (fun h => hk h.symm)]

theorem keys_foldl_session_nodup (sel : List DataRecord → List DataRecord)
    (m : UMap (List DataRecord)) (init : UMap (List DataRecord))
    (hi : (UMap.keys init).Nodup) :
    (UMap.keys (m.foldl
      (fun result entry =>
        (sel entry.2).foldl
          (fun res r => UMap.assign res entry.1 ((UMap.find res entry.1).getD [] ++ [r]))
          result) init)).Nodup := by
  induction m generalizing init with
  | nil => exact hi
  | cons e rest ih =>
    simp only [List.foldl_cons]
    exact ih _ ((foldl_append_record e.1 (sel e.2) init).2.2 hi)

theorem filter_range_empty_of_gt (l : List DataRecord) {a b : Int} (h : a > b) :
    l.filter (fun r => decide (a ≤ r.timestamp ∧ r.timestamp ≤ b)) = [] := by
  rw [List.filter_eq_nil_iff]
  intro x _
  simp only [decide_eq_true_eq]
  omega

/-! ## Deletions -/

theorem range_guard_iff {l : List DataRecord} (hs : StrictAsc l) (a b : Int) :
    (lowerBound l a = l.length ∨ lowerBound l a ≥ upperBound l b) ↔
      l.filter (fun r => decide (a ≤ r.timestamp ∧ r.timestamp ≤ b)) = [] := by
  rw [← take_drop_bounds_eq_filter hs, ← List.length_eq_zero, List.length_drop,
    List.length_take]
  have h1 := upperBound_le_length l b
  have h2 := lowerBound_le_length l a
  omega

theorem take_lower_append_drop_upper {l : List DataRecord} (hs : StrictAsc l) (a b : Int)
    (hle : lowerBound l a ≤ upperBound l b) :
    l.take (lowerBound l a) ++ l.drop (upperBound l b) =
      l.filter (fun r => !decide (a ≤ r.timestamp ∧ r.timestamp ≤ b)) := by
  induction l with
  | nil => rfl
  | cons x rest ih =>
    have hs0 := hs
    rw [strictAsc_cons] at hs
    by_cases h : x.timestamp < a
    · have hx : ¬ (a ≤ x.timestamp ∧ x.timestamp ≤ b) := by omega
      by_cases h2 : b < x.timestamp
      · simp [lowerBound, upperBound, h, h2] at hle
      · simp only [lowerBound, upperBound, h, h2, if_true, if_false, Nat.add_le_add_iff_right]
          at hle
        simp only [lowerBound, upperBound, h, h2, if_true, if_false, List.take_succ_cons,
          List.drop_succ_cons, List.cons_append, List.filter_cons, hx, decide_False,
          Bool.not_false, ih hs.2 hle]
    · have hlb : lowerBound (x :: rest) a = 0 := by simp [lowerBound, h]
      rw [hlb, List.take_zero, List.nil_append, drop_upperBound_eq_filter hs0]
      apply List.filter_congr
      intro y hy
      have hy2 : a ≤ y.timestamp := by
        rcases List.mem_cons.1 hy with hy | hy
        · rw [hy]; omega
        · have := hs.1 y hy; omega
      by_cases h3 : b < y.timestamp
      · have : ¬ (a ≤ y.timestamp ∧ y.timestamp ≤ b) := by omega
        simp [h3, this]
      · have : a ≤ y.timestamp ∧ y.timestamp ≤ b := by omega
        simp [h3, this]

theorem filter_not_range_eq_self {l : List DataRecord} {a b : Int}
    (h : l.filter (fun r => decide (a ≤ r.timestamp ∧ r.timestamp ≤ b)) = []) :
    l.filter (fun r => !decide (a ≤ r.timestamp ∧ r.timestamp ≤ b)) = l := by
  rw [List.filter_eq_self]
  rw [List.filter_eq_nil_iff] at h
  intro x hx
  have := h x hx
  simp only [decide_eq_true_eq] at this
  simp only [Bool.not_eq_true', decide_eq_false_iff_not]
  exact this

theorem lowerBound_miss {l : List DataRecord} (hs : StrictAsc l) (t : Int)
    (h : ∀ r, l[lowerBound l t]? = some r → r.timestamp ≠ t) :
    ∀ x ∈ l, x.timestamp ≠ t := by
  induction l with
  | nil => intro x hx; simp at hx
  | cons a rest ih =>
    rw [strictAsc_cons] at hs
    by_cases h1 : a.timestamp < t
    · simp only [lowerBound, h1, if_true, List.getElem?_cons_succ] at h
      intro x hx
      rcases List.mem_cons.1 hx with hx | hx
      · rw [hx]; omega
      · exact ih hs.2 h x hx
    · simp only [lowerBound, h1, if_false, List.getElem?_cons_zero, Option.some.injEq,
        forall_eq'] at h
      intro x hx
      rcases List.mem_cons.1 hx with hx | hx
      · rw [hx]; exact h
      · have := hs.1 x hx
        omega

theorem lowerBound_hit {l : List DataRecord} (hs : StrictAsc l) (t : Int) {r : DataRecord}
    (h : l[lowerBound l t]? = some r) (hr : r.timestamp = t) :
    r ∈ l ∧ l.eraseIdx (lowerBound l t) = l.filter (fun x => decide (x.timestamp ≠ t)) := by
  induction l with
  | nil => simp at h
  | cons a rest ih =>
    rw [strictAsc_cons] at hs
    by_cases h1 : a.timestamp < t
    · simp only [lowerBound, h1, if_true, List.getElem?_cons_succ] at h
      have ha : a.timestamp ≠ t := by omega
      obtain ⟨hm, he⟩ := ih hs.2 h
      refine ⟨List.mem_cons_of_mem _ hm, ?_⟩
      simp only [lowerBound, h1, if_true, List.eraseIdx_cons_succ, he, List.filter_cons, ha,
        ne_eq, not_false_eq_true, decide_True]
    · simp only [lowerBound, h1, if_false, List.getElem?_cons_zero, Option.some.injEq] at h
      subst h
      refine ⟨List.mem_cons_self _ _, ?_⟩
      have hlb : lowerBound (a :: rest) t = 0 := by simp [lowerBound, h1]
      have hfa : (a :: rest).filter (fun x => decide (x.timestamp ≠ t)) =
          rest.filter (fun x => decide (x.timestamp ≠ t)) := by
        rw [List.filter_cons_of_neg]
        simp [hr]
      rw [hlb, List.eraseIdx_cons_zero, hfa]
      symm
      rw [List.filter_eq_self]
      intro x hx
      have := hs.1 x hx
      simp only [decide_eq_true_eq]
      omega

theorem filter_ne_eq_self {l : List DataRecord} {t : Int} (h : ∀ x ∈ l, x.timestamp ≠ t) :
    l.filter (fun x => decide (x.timestamp ≠ t)) = l := by
  rw [List.filter_eq_self]
  intro x hx
  simpa using h x hx

theorem document_of_data {c : Collection} (c1 : Collection) {key : String}
    {records : List DataRecord} (records1 : List DataRecord)
    (hf : UMap.find c.m_data key = some records)
    (hd : c1.m_data = if records1.isEmpty then UMap.erase c.m_data key
      else UMap.update c.m_data key records1) :
    c1.document key = records1 ∧
      (∀ key1, key1 ≠ key → UMap.find c1.m_data key1 = UMap.find c.m_data key1) := by
  by_cases hemp : records1.isEmpty = true
  · rw [if_pos hemp] at hd
    refine ⟨?_, ?_⟩
    · simp only [Collection.document, hd, UMap.find_erase_self, Option.getD_none]
      exact (List.isEmpty_iff.1 hemp).symm
    · intro key1 hk
      rw [hd, UMap.find_erase_of_ne _ hk]
  · rw [if_neg hemp] at hd
    refine ⟨?_, ?_⟩
    · simp only [Collection.document, hd, UMap.find_update_self _ hf, Option.getD_some]
    · intro key1 hk
      rw [hd, UMap.find_update_of_ne _ _ hk]

theorem deleteRecordsInRange_noop {c : Collection} (h : Inv c) (key : String) (a b : Int)
    (hnone : (c.document key).filter
      (fun r => decide (a ≤ r.timestamp ∧ r.timestamp ≤ b)) = []) :
    c.deleteRecordsInRange key a b = c := by
  unfold Collection.deleteRecordsInRange
  cases hf : UMap.find c.m_data key with
  | none => rfl
  | some records =>
    rw [document_of_find hf] at hnone
    simp only []
    rw [if_pos ((range_guard_iff (h.find_sorted hf) a b).2 hnone)]

theorem deleteRecordsInRange_effect {c : Collection} (h : Inv c) (key : String) (a b : Int)
    (hsome : (c.document key).filter
      (fun r => decide (a ≤ r.timestamp ∧ r.timestamp ≤ b)) ≠ []) :
    (c.deleteRecordsInRange key a b).document key =
      (c.document key).filter (fun r => !decide (a ≤ r.timestamp ∧ r.timestamp ≤ b)) ∧
    (∀ key1, key1 ≠ key →
      UMap.find (c.deleteRecordsInRange key a b).m_data key1 = UMap.find c.m_data key1) ∧
    (c.deleteRecordsInRange key a b).storeCalls =
      c.storeCalls ++ (if c.m_storage = true
        then [StoreCall.deleteRecordsInRange c.m_name key a b] else []) ∧
    (c.deleteRecordsInRange key a b).m_key_vaue = c.m_key_vaue ∧
    (c.deleteRecordsInRange key a b).m_hasNewRecords = c.m_hasNewRecords ∧
    (c.deleteRecordsInRange key a b).m_storage = c.m_storage ∧
    (c.deleteRecordsInRange key a b).m_name = c.m_name := by
  unfold Collection.deleteRecordsInRange
  cases hf : UMap.find c.m_data key with
  | none => rw [document_of_find_none hf] at hsome; exact absurd rfl hsome
  | some records =>
    rw [document_of_find hf] at hsome ⊢
    have hs := h.find_sorted hf
    have hguard : ¬ (lowerBound records a = records.length ∨
        lowerBound records a ≥ upperBound records b) :=
      fun hg => hsome ((range_guard_iff hs a b).1 hg)
    have hle : lowerBound records a ≤ upperBound records b := by
      simp only [not_or, not_le, ge_iff_le] at hguard
      omega
    simp only []
    rw [if_neg hguard, ← take_lower_append_drop_upper hs a b hle]
    have hdoc := document_of_data
      (if (records.take (lowerBound records a) ++
          records.drop (upperBound records b)).isEmpty = true
        then { c with m_data := UMap.erase c.m_data key,
                      storeCalls := if c.m_storage = true then
                        c.storeCalls ++ [StoreCall.deleteRecordsInRange c.m_name key a b]
                        else c.storeCalls }
        else { c with m_data := UMap.update c.m_data key
                        (records.take (lowerBound records a) ++
                          records.drop (upperBound records b)),
                      storeCalls := if c.m_storage = true then
                        c.storeCalls ++ [StoreCall.deleteRecordsInRange c.m_name key a b]
                        else c.storeCalls })
      (records.take (lowerBound records a) ++ records.drop (upperBound records b))
      hf (by split_ifs <;> rfl)
    refine ⟨hdoc.1, hdoc.2, ?_, ?_, ?_, ?_, ?_⟩
    · split_ifs <;> simp
    · split_ifs <;> rfl
    · split_ifs <;> rfl
    · split_ifs <;> rfl
    · split_ifs <;> rfl

theorem deleteRecord_noop {c : Collection} (h : Inv c) (key : String) (ts : Int)
    (hnone : ∀ r ∈ c.document key, r.timestamp ≠ ts) :
    c.deleteRecord key ts = c := by
  unfold Collection.deleteRecord
  cases hf : UMap.find c.m_data key with
  | none => rfl
  | some records =>
    rw [document_of_find hf] at hnone
    simp only []
    cases hget : records[lowerBound records ts]? with
    | none => rfl
    | some r =>
      simp only []
      by_cases hr : r.timestamp = ts
      · exact absurd hr (hnone r (lowerBound_hit (h.find_sorted hf) ts hget hr).1)
      · rw [if_pos hr]

theorem deleteRecord_effect {c : Collection} (h : Inv c) (key : String) (ts : Int)
    (hsome : ∃ r ∈ c.document key, r.timestamp = ts) :
    (c.deleteRecord key ts).document key =
      (c.document key).filter (fun x => decide (x.timestamp ≠ ts)) ∧
    (∀ key1, key1 ≠ key →
      UMap.find (c.deleteRecord key ts).m_data key1 = UMap.find c.m_data key1) ∧
    (c.deleteRecord key ts).storeCalls =
      c.storeCalls ++ (if c.m_storage = true
        then [StoreCall.deleteRecord c.m_name key ts] else []) ∧
    (c.deleteRecord key ts).m_key_vaue = c.m_key_vaue ∧
    (c.deleteRecord key ts).m_hasNewRecords = c.m_hasNewRecords ∧
    (c.deleteRecord key ts).m_storage = c.m_storage ∧
    (c.deleteRecord key ts).m_name = c.m_name := by
  unfold Collection.deleteRecord
  cases hf : UMap.find c.m_data key with
  | none =>
    rw [document_of_find_none hf] at hsome
    obtain ⟨r, hr, _⟩ := hsome
    cases hr
  | some records =>
    rw [document_of_find hf] at hsome ⊢
    have hs := h.find_sorted hf
    simp only []
    cases hget : records[lowerBound records ts]? with
    | none =>
      obtain ⟨r, hr, hrt⟩ := hsome
      exact absurd hrt (lowerBound_miss hs ts (by rw [hget]; intro r1 h1; cases h1) r hr)
    | some r =>
      simp only []
      by_cases hr : r.timestamp = ts
      · rw [if_neg (not_not.2 hr), ← (lowerBound_hit hs ts hget hr).2]
        have hdoc := document_of_data
          (if (records.eraseIdx (lowerBound records ts)).isEmpty = true
            then { c with m_data := UMap.erase c.m_data key,
                          storeCalls := if c.m_storage = true then
                            c.storeCalls ++ [StoreCall.deleteRecord c.m_name key ts]
                            else c.storeCalls }
            else { c with m_data := UMap.update c.m_data key
                            (records.eraseIdx (lowerBound records ts)),
                          storeCalls := if c.m_storage = true then
                            c.storeCalls ++ [StoreCall.deleteRecord c.m_name key ts]
                            else c.storeCalls })
          (records.eraseIdx (lowerBound records ts))
          hf (by split_ifs <;> rfl)
        refine ⟨hdoc.1, hdoc.2, ?_, ?_, ?_, ?_, ?_⟩
        · split_ifs <;> simp
        · split_ifs <;> rfl
        · split_ifs <;> rfl
        · split_ifs <;> rfl
        · split_ifs <;> rfl
      · obtain ⟨r1, hr1, hrt⟩ := hsome
        refine absurd hrt (lowerBound_miss hs ts ?_ r1 hr1)
        intro r2 h2
        rw [hget] at h2
        simp only [Option.some.injEq] at h2
        rw [← h2]
        exact hr

/-! ## `clearDocument` and the store -/

theorem UMap.erase_of_find_none {V : Type} {m : UMap V} {key : String}
    (h : UMap.find m key = none) : UMap.erase m key = m := by
  rw [UMap.find_none_iff] at h
  unfold UMap.erase
  rw [List.filter_eq_self]
  intro e he
  have : e.1 ≠ key := fun h1 => h (by rw [← h1]; exact List.mem_map_of_mem Prod.fst he)
  simpa using this

theorem clearDocument_fields (c : Collection) (key : String) :
    (c.clearDocument key).m_data = UMap.erase c.m_data key ∧
    (c.clearDocument key).storeCalls =
      c.storeCalls ++ (if c.m_storage = true
        then [StoreCall.deleteDocument c.m_name key] else []) ∧
    (c.clearDocument key).m_key_vaue = c.m_key_vaue ∧
    (c.clearDocument key).m_hasNewRecords = c.m_hasNewRecords ∧
    (c.clearDocument key).m_storage = c.m_storage ∧
    (c.clearDocument key).m_name = c.m_name := by
  unfold Collection.clearDocument
  cases hf : UMap.find c.m_data key with
  | none =>
    simp only []
    rw [UMap.erase_of_find_none hf]
    by_cases hst : c.m_storage = true
    · simp [hst]
    · simp [hst]
  | some records =>
    simp only []
    by_cases hst : c.m_storage = true
    · simp [hst]
    · simp [hst]

theorem SqliteStorage.apply_deleteDocument_twice (s : SqliteStorage)
    (collection document : String) :
    (s.apply (StoreCall.deleteDocument collection document)).apply
        (StoreCall.deleteDocument collection document) =
      s.apply (StoreCall.deleteDocument collection document) := by
  by_cases ho : s.m_isOpen = true
  · simp [SqliteStorage.apply, SqliteStorage.deleteDocument, ho, List.filter_filter]
  · simp [SqliteStorage.apply, SqliteStorage.deleteDocument, ho]

theorem SqliteStorage.applyAll_append (s : SqliteStorage) (l1 l2 : List StoreCall) :
    s.applyAll (l1 ++ l2) = (s.applyAll l1).applyAll l2 := by
  simp [SqliteStorage.applyAll, List.foldl_append]

/-! ## What a flush does to the records and which calls it issues -/

namespace Collection

theorem flushRecords_state (name doc : String) (ok : Nat → Bool)
    (records : List DataRecord) (st : FlushState) :
    (flushRecords name doc ok records st).2.upserts =
      st.upserts + (records.filter (fun r => r.isNew)).length ∧
    (flushRecords name doc ok records st).2.calls =
      st.calls ++ (records.filter (fun r => r.isNew)).map (fun r => upsertCall name (doc, r)) ∧
    ((flushRecords name doc ok records st).2.keepFlushing = true ↔
      (st.keepFlushing = true ∨
        ∃ i, i < (records.filter (fun r => r.isNew)).length ∧ ok (st.upserts + i) = false)) := by
  induction records generalizing st with
  | nil => simp [flushRecords]
  | cons r rest ih =>
    by_cases h1 : r.isNew = true
    · have hf : (r :: rest).filter (fun r => r.isNew) = r :: rest.filter (fun r => r.isNew) := by
        simp [List.filter_cons, h1]
      by_cases h2 : ok st.upserts = true
      · rw [flushRecords_cons_ok name doc ok rest st h1 h2, hf]
        obtain ⟨ha, hb, hc⟩ := ih
          { upserts := st.upserts + 1, keepFlushing := st.keepFlushing,
            calls := st.calls ++ [StoreCall.upsertRecord name doc r.timestamp r.data] }
        refine ⟨?_, ?_, ?_⟩
        · simp only [ha, List.length_cons]; omega
        · simp only [hb, List.map_cons, List.append_assoc, List.singleton_append, upsertCall]
        · rw [hc]
          simp only [List.length_cons]
          constructor
          · rintro (h | ⟨i, hi, hok⟩)
            · exact Or.inl h
            · exact Or.inr ⟨i + 1, by omega, by rw [← hok]; congr 1; omega⟩
          · rintro (h | ⟨i, hi, hok⟩)
            · exact Or.inl h
            · cases i with
              | zero => simp [h2] at hok
              | succ j => exact Or.inr ⟨j, by omega, by rw [← hok]; congr 1; omega⟩
      · have h2f : ok st.upserts = false := by simpa using h2
        rw [flushRecords_cons_fail name doc ok rest st h1 h2f, hf]
        obtain ⟨ha, hb, hc⟩ := ih
          { upserts := st.upserts + 1, keepFlushing := true,
            calls := st.calls ++ [StoreCall.upsertRecord name doc r.timestamp r.data] }
        refine ⟨?_, ?_, ?_⟩
        · simp only [ha, List.length_cons]; omega
        · simp only [hb, List.map_cons, List.append_assoc, List.singleton_append, upsertCall]
        · rw [hc]
          simp only [true_or, true_iff, List.length_cons]
          exact Or.inr ⟨0, by omega, by simpa using h2f⟩
    · have h1f : r.isNew = false := by simpa using h1
      have hf : (r :: rest).filter (fun r => r.isNew) = rest.filter (fun r => r.isNew) := by
        simp [List.filter_cons, h1f]
      rw [flushRecords_cons_clean name doc ok rest st h1f, hf]
      exact ih st

theorem flushRecords_output (name doc : String) (ok : Nat → Bool)
    (records : List DataRecord) (st : FlushState) :
    (flushRecords name doc ok records st).1.map (fun r => (r.timestamp, r.data)) =
      records.map (fun r => (r.timestamp, r.data)) ∧
    (∀ r ∈ records, r.isNew = false → r ∈ (flushRecords name doc ok records st).1) ∧
    (∀ (i : Nat) (r : DataRecord), (records.filter (fun r => r.isNew))[i]? = some r →
      ({ r with isNew := !ok (st.upserts + i) } : DataRecord) ∈
        (flushRecords name doc ok records st).1) := by
  induction records generalizing st with
  | nil => simp [flushRecords]
  | cons r rest ih =>
    by_cases h1 : r.isNew = true
    · have hf : (r :: rest).filter (fun r => r.isNew) = r :: rest.filter (fun r => r.isNew) := by
        simp [List.filter_cons, h1]
      by_cases h2 : ok st.upserts = true
      · rw [flushRecords_cons_ok name doc ok rest st h1 h2, hf]
        obtain ⟨ha, hb, hc⟩ := ih
          { upserts := st.upserts + 1, keepFlushing := st.keepFlushing,
            calls := st.calls ++ [StoreCall.upsertRecord name doc r.timestamp r.data] }
        refine ⟨?_, ?_, ?_⟩
        · simp only [List.map_cons, ha]
        · intro x hx hxn
          rcases List.mem_cons.1 hx with hx | hx
          · rw [hx, h1] at hxn; cases hxn
          · exact List.mem_cons_of_mem _ (hb x hx hxn)
        · intro i x hx
          cases i with
          | zero =>
            simp only [List.getElem?_cons_zero, Option.some.injEq] at hx
            subst hx
            simp [h2]
          | succ j =>
            simp only [List.getElem?_cons_succ] at hx
            have := hc j x hx
            simp only at this
            have e : st.upserts + (j + 1) = st.upserts + 1 + j := by omega
            rw [e]
            exact List.mem_cons_of_mem _ this
      · have h2f : ok st.upserts = false := by simpa using h2
        rw [flushRecords_cons_fail name doc ok rest st h1 h2f, hf]
        obtain ⟨ha, hb, hc⟩ := ih
          { upserts := st.upserts + 1, keepFlushing := true,
            calls := st.calls ++ [StoreCall.upsertRecord name doc r.timestamp r.data] }
        refine ⟨?_, ?_, ?_⟩
        · simp only [List.map_cons, ha]
        · intro x hx hxn
          rcases List.mem_cons.1 hx with hx | hx
          · rw [hx, h1] at hxn; cases hxn
          · exact List.mem_cons_of_mem _ (hb x hx hxn)
        · intro i x hx
          cases i with
          | zero =>
            simp only [List.getElem?_cons_zero, Option.some.injEq] at hx
            subst hx
            have : ({ r with isNew := !ok (st.upserts + 0) } : DataRecord) = r := by
              cases r
              simp only [Nat.add_zero, h2f, Bool.not_false] at h1 ⊢
              simp [h1]
            rw [this]
            exact List.mem_cons_self _ _
          | succ j =>
            simp only [List.getElem?_cons_succ] at hx
            have := hc j x hx
            simp only at this
            have e : st.upserts + (j + 1) = st.upserts + 1 + j := by omega
            rw [e]
            exact List.mem_cons_of_mem _ this
    · have h1f : r.isNew = false := by simpa using h1
      have hf : (r :: rest).filter (fun r => r.isNew) = rest.filter (fun r => r.isNew) := by
        simp [List.filter_cons, h1f]
      rw [flushRecords_cons_clean name doc ok rest st h1f, hf]
      obtain ⟨ha, hb, hc⟩ := ih st
      refine ⟨?_, ?_, ?_⟩
      · simp only [List.map_cons, ha]
      · intro x hx hxn
        rcases List.mem_cons.1 hx with hx | hx
        · rw [hx]; exact List.mem_cons_self _ _
        · exact List.mem_cons_of_mem _ (hb x hx hxn)
      · intro i x hx
        exact List.mem_cons_of_mem _ (hc i x hx)

theorem flushDocs_state (name : String) (ok : Nat → Bool) (m : UMap (List DataRecord))
    (st : FlushState) :
    (flushDocs name ok m st).2.upserts = st.upserts + (dirtyRecords m).length ∧
    (flushDocs name ok m st).2.calls = st.calls ++ (dirtyRecords m).map (upsertCall name) ∧
    ((flushDocs name ok m st).2.keepFlushing = true ↔
      (st.keepFlushing = true ∨
        ∃ i, i < (dirtyRecords m).length ∧ ok (st.upserts + i) = false)) := by
  induction m generalizing st with
  | nil => simp [flushDocs, dirtyRecords]
  | cons e rest ih =>
    obtain ⟨doc, records⟩ := e
    obtain ⟨ha, hb, hc⟩ := flushRecords_state name doc ok records st
    obtain ⟨ha2, hb2, hc2⟩ := ih (flushRecords name doc ok records st).2
    simp only [flushDocs, dirtyRecords, List.length_append, List.length_map, List.map_append,
      List.map_map]
    refine ⟨?_, ?_, ?_⟩
    · rw [ha2, ha]; omega
    · rw [hb2, hb, List.append_assoc]
      rfl
    · rw [hc2, hc, ha]
      constructor
      · rintro ((h | ⟨i, hi, hok⟩) | ⟨i, hi, hok⟩)
        · exact Or.inl h
        · exact Or.inr ⟨i, by omega, hok⟩
        · exact Or.inr ⟨(records.filter (fun r => r.isNew)).length + i, by omega,
            by rw [← hok]; congr 1; omega⟩
      · rintro (h | ⟨i, hi, hok⟩)
        · exact Or.inl (Or.inl h)
        · by_cases hlt : i < (records.filter (fun r => r.isNew)).length
          · exact Or.inl (Or.inr ⟨i, hlt, hok⟩)
          · exact Or.inr ⟨i - (records.filter (fun r => r.isNew)).length, by omega,
              by rw [← hok]; congr 1; omega⟩

theorem flushDocs_output (name : String) (ok : Nat → Bool) (m : UMap (List DataRecord))
    (st : FlushState) :
    (∀ e ∈ m, ∃ records1, (e.1, records1) ∈ (flushDocs name ok m st).1 ∧
      records1.map (fun r => (r.timestamp, r.data)) =
        e.2.map (fun r => (r.timestamp, r.data)) ∧
      (∀ r ∈ e.2, r.isNew = false → r ∈ records1)) ∧
    (∀ (i : Nat) (p : String × DataRecord), (dirtyRecords m)[i]? = some p →
      ∃ records1, (p.1, records1) ∈ (flushDocs name ok m st).1 ∧
        ({ p.2 with isNew := !ok (st.upserts + i) } : DataRecord) ∈ records1) := by
  induction m generalizing st with
  | nil => simp [flushDocs, dirtyRecords]
  | cons e rest ih =>
    obtain ⟨doc, records⟩ := e
    obtain ⟨ha, hb, hc⟩ := flushRecords_output name doc ok records st
    obtain ⟨hup, _, _⟩ := flushRecords_state name doc ok records st
    obtain ⟨h1, h2⟩ := ih (flushRecords name doc ok records st).2
    simp only [flushDocs, dirtyRecords]
    refine ⟨?_, ?_⟩
    · intro e1 he1
      rcases List.mem_cons.1 he1 with he1 | he1
      · subst he1
        exact ⟨_, List.mem_cons_self _ _, ha, hb⟩
      · obtain ⟨records1, hm, hx⟩ := h1 e1 he1
        exact ⟨records1, List.mem_cons_of_mem _ hm, hx⟩
    · intro i p hp
      by_cases hlt : i < ((records.filter (fun r => r.isNew)).map (fun r => (doc, r))).length
      · rw [List.getElem?_append_left hlt, List.getElem?_map] at hp
        cases hget : (records.filter (fun r => r.isNew))[i]? with
        | none => rw [hget] at hp; cases hp
        | some r =>
          rw [hget] at hp
          simp only [Option.map_some', Option.some.injEq] at hp
          subst hp
          exact ⟨_, List.mem_cons_self _ _, hc i r hget⟩
      · rw [List.getElem?_append_right (by omega)] at hp
        obtain ⟨records1, hm, hx⟩ := h2 _ p hp
        refine ⟨records1, List.mem_cons_of_mem _ hm, ?_⟩
        rw [hup] at hx
        simp only [List.length_map] at hlt hx
        have e : st.upserts + i = st.upserts + (records.filter (fun r => r.isNew)).length +
            (i - (records.filter (fun r => r.isNew)).length) := by omega
        rw [e]
        exact hx

theorem flushRecords_all_ok (name doc : String) (ok : Nat → Bool) (hok : ∀ n, ok n = true)
    (records : List DataRecord) (st : FlushState) :
    (flushRecords name doc ok records st).1 =
      records.map (fun r => ({ r with isNew := false } : DataRecord)) := by
  induction records generalizing st with
  | nil => rfl
  | cons r rest ih =>
    by_cases h1 : r.isNew = true
    · rw [flushRecords_cons_ok name doc ok rest st h1 (hok _)]
      simp only [List.map_cons, ih]
    · have h1f : r.isNew = false := by simpa using h1
      rw [flushRecords_cons_clean name doc ok rest st h1f]
      simp only [List.map_cons, ih]
      congr 1
      cases r
      simp only at h1f
      simp [h1f]

theorem flushDocs_all_ok (name : String) (ok : Nat → Bool) (hok : ∀ n, ok n = true)
    (m : UMap (List DataRecord)) (st : FlushState) :
    (flushDocs name ok m st).1 =
      m.map (fun e => (e.1, e.2.map (fun r => ({ r with isNew := false } : DataRecord)))) := by
  induction m generalizing st with
  | nil => rfl
  | cons e rest ih =>
    obtain ⟨doc, records⟩ := e
    simp only [flushDocs, List.map_cons, ih, flushRecords_all_ok name doc ok hok]

end Collection

theorem UMap.find_map_values {V W : Type} (f : V → W) (m : UMap V) (k : String) :
    UMap.find (m.map (fun e => (e.1, f e.2))) k = (UMap.find m k).map f := by
  induction m with
  | nil => rfl
  | cons e rest ih =>
    obtain ⟨k0, v0⟩ := e
    by_cases hk : k0 = k
    · simp [UMap.find, hk]
    · simp only [List.map_cons, UMap.find, hk, if_false]
      exact ih

theorem mem_dirtyRecords (m : UMap (List DataRecord)) (p : String × DataRecord) :
    p ∈ dirtyRecords m ↔ ∃ records, (p.1, records) ∈ m ∧ p.2 ∈ records ∧ p.2.isNew = true := by
  induction m with
  | nil => simp [dirtyRecords]
  | cons e rest ih =>
    obtain ⟨doc, records⟩ := e
    obtain ⟨k, r⟩ := p
    simp only [dirtyRecords, List.mem_append, List.mem_map, List.mem_filter, ih, List.mem_cons,
      Prod.mk.injEq]
    constructor
    · rintro (⟨r1, ⟨h1, h2⟩, h3, h4⟩ | ⟨recs, h1, h2, h3⟩)
      · subst h3; subst h4
        exact ⟨records, Or.inl ⟨rfl, rfl⟩, h1, h2⟩
      · exact ⟨recs, Or.inr h1, h2, h3⟩
    · rintro ⟨recs, (⟨h0, h1⟩ | h1), h2, h3⟩
      · subst h0; subst h1
        exact Or.inl ⟨r, ⟨h2, h3⟩, rfl, rfl⟩
      · exact Or.inr ⟨recs, h1, h2, h3⟩

theorem Inv.dirtyRecords_mem {c : Collection} (h : Inv c) (p : String × DataRecord) :
    p ∈ dirtyRecords c.m_data ↔ (p.2 ∈ c.document p.1 ∧ p.2.isNew = true) := by
  rw [FluxionDB.mem_dirtyRecords]
  constructor
  · rintro ⟨records, h1, h2, h3⟩
    rw [document_of_find (UMap.mem_find h.nodup h1)]
    exact ⟨h2, h3⟩
  · rintro ⟨h1, h2⟩
    cases hf : UMap.find c.m_data p.1 with
    | none => rw [document_of_find_none hf] at h1; cases h1
    | some records =>
      rw [document_of_find hf] at h1
      exact ⟨records, UMap.find_some_mem hf, h1, h2⟩

/-! ## `flushToDisk` on the whole collection -/

theorem flushToDisk_noop {c : Collection} (beginOk : Bool) (ok : Nat → Bool) (commitOk : Bool)
    (h : c.m_storage = false ∨ c.m_hasNewRecords = false) :
    c.flushToDisk beginOk ok commitOk = c := by
  unfold Collection.flushToDisk
  rcases h with h | h
  · simp [h]
  · by_cases hst : c.m_storage = true
    · simp [hst, h]
    · simp [hst]

theorem flushToDisk_begin_failed {c : Collection} (ok : Nat → Bool) (commitOk : Bool)
    (hst : c.m_storage = true) (hn : c.m_hasNewRecords = true) :
    c.flushToDisk false ok commitOk =
      { c with storeCalls := c.storeCalls ++ [StoreCall.beginTransaction] } := by
  simp [Collection.flushToDisk, hst, hn]

theorem flushToDisk_main {c : Collection} (ok : Nat → Bool) (commitOk : Bool)
    (hst : c.m_storage = true) (hn : c.m_hasNewRecords = true) :
    (c.flushToDisk true ok commitOk).m_data =
      (Collection.flushDocs c.m_name ok c.m_data
        { upserts := 0, keepFlushing := false, calls := [] }).1 ∧
    (c.flushToDisk true ok commitOk).m_hasNewRecords =
      (if (Collection.flushDocs c.m_name ok c.m_data
          { upserts := 0, keepFlushing := false, calls := [] }).2.keepFlushing = true
        then Collection.anyNew (Collection.flushDocs c.m_name ok c.m_data
          { upserts := 0, keepFlushing := false, calls := [] }).1
        else false) ∧
    (c.flushToDisk true ok commitOk).storeCalls =
      c.storeCalls ++ (StoreCall.beginTransaction ::
        (dirtyRecords c.m_data).map (upsertCall c.m_name) ++
        (if commitOk = true then [StoreCall.commitTransaction]
          else [StoreCall.commitTransaction, StoreCall.rollbackTransaction])) ∧
    (c.flushToDisk true ok commitOk).m_key_vaue = c.m_key_vaue ∧
    (c.flushToDisk true ok commitOk).m_storage = c.m_storage ∧
    (c.flushToDisk true ok commitOk).m_name = c.m_name := by
  have hcalls := (Collection.flushDocs_state c.m_name ok c.m_data
    { upserts := 0, keepFlushing := false, calls := [] }).2.1
  simp only [List.nil_append] at hcalls
  refine ⟨?_, ?_, ?_, ?_, ?_, ?_⟩
  · simp [Collection.flushToDisk, hst, hn]
  · simp only [Collection.flushToDisk, hst, hn, not_true_eq_false, if_false,
      Bool.not_eq_true]
    by_cases hk : (Collection.flushDocs c.m_name ok c.m_data
        { upserts := 0, keepFlushing := false, calls := [] }).2.keepFlushing = true
    · simp [hk]
    · simp [hk]
  · simp only [Collection.flushToDisk, hst, hn, not_true_eq_false, if_false, hcalls]
    by_cases hc : commitOk = true
    · simp [hc]
    · simp [hc]
  · simp [Collection.flushToDisk, hst, hn]
  · simp [Collection.flushToDisk, hst, hn]
  · simp [Collection.flushToDisk, hst, hn]

theorem Inv.dirtyRecords_nil {c : Collection} (h : Inv c) (hn : c.m_hasNewRecords = false) :
    dirtyRecords c.m_data = [] := by
  apply List.eq_nil_iff_forall_not_mem.2
  intro p hp
  obtain ⟨records, h1, h2, h3⟩ := (FluxionDB.mem_dirtyRecords c.m_data p).1 hp
  have := (h.dirty _ h1 _ h2 h3).1
  rw [hn] at this
  cases this

theorem map_flushed_of_clean {l : List DataRecord} (h : ∀ r ∈ l, r.isNew = false) :
    l.map (fun r => ({ r with isNew := false } : DataRecord)) = l := by
  induction l with
  | nil => rfl
  | cons a rest ih =>
    simp only [List.map_cons]
    rw [ih (fun r hr => h r (List.mem_cons_of_mem _ hr))]
    congr 1
    have ha := h a (List.mem_cons_self _ _)
    cases a
    simp only at ha
    simp [ha]

theorem Inv.document_clean {c : Collection} (h : Inv c) (hn : c.m_hasNewRecords = false)
    (key : String) : ∀ r ∈ c.document key, r.isNew = false := by
  intro r hr
  cases hf : UMap.find c.m_data key with
  | none => rw [document_of_find_none hf] at hr; cases hr
  | some records =>
    rw [document_of_find hf] at hr
    cases hnew : r.isNew with
    | false => rfl
    | true =>
      have := (h.dirty _ (UMap.find_some_mem hf) r hr hnew).1
      rw [hn] at this
      cases this

theorem flushToDisk_all_ok {c : Collection} (h : Inv c) (hst : c.m_storage = true)
    (ok : Nat → Bool) (hok : ∀ n, ok n = true) (commitOk : Bool) :
    (∀ key, (c.flushToDisk true ok commitOk).document key =
      (c.document key).map (fun r => ({ r with isNew := false } : DataRecord))) ∧
    ¬ hasDirtyRecord (c.flushToDisk true ok commitOk) ∧
    (c.flushToDisk true ok commitOk).m_hasNewRecords = false := by
  by_cases hn : c.m_hasNewRecords = true
  · obtain ⟨hd, hh, _⟩ := flushToDisk_main ok commitOk hst hn
    rw [Collection.flushDocs_all_ok c.m_name ok hok] at hd
    have hkeep : ¬ (Collection.flushDocs c.m_name ok c.m_data
        { upserts := 0, keepFlushing := false, calls := [] }).2.keepFlushing = true := by
      rw [(Collection.flushDocs_state c.m_name ok c.m_data _).2.2]
      rintro (h1 | ⟨i, _, hi⟩)
      · cases h1
      · rw [hok] at hi; cases hi
    rw [if_neg hkeep] at hh
    refine ⟨?_, ?_, hh⟩
    · intro key
      simp only [Collection.document, hd, UMap.find_map_values]
      cases UMap.find c.m_data key <;> rfl
    · rintro ⟨e, he, r, hr, hnew⟩
      rw [hd] at he
      obtain ⟨e0, _, rfl⟩ := List.mem_map.1 he
      obtain ⟨r0, _, rfl⟩ := List.mem_map.1 hr
      cases hnew
  · have hn1 : c.m_hasNewRecords = false := by simpa using hn
    rw [flushToDisk_noop true ok commitOk (Or.inr hn1)]
    refine ⟨?_, ?_, hn1⟩
    · intro key
      rw [map_flushed_of_clean (h.document_clean hn1 key)]
    · rintro ⟨e, he, r, hr, hnew⟩
      have := (h.dirty e he r hr hnew).1
      rw [hn1] at this
      cases this

theorem flushToDisk_calls {c : Collection} (hst : c.m_storage = true)
    (ok : Nat → Bool) (commitOk : Bool) :
    (c.flushToDisk true ok commitOk).storeCalls =
      c.storeCalls ++ (if c.m_hasNewRecords = true then
        StoreCall.beginTransaction ::
          (dirtyRecords c.m_data).map (upsertCall c.m_name) ++
          (if commitOk = true then [StoreCall.commitTransaction]
            else [StoreCall.commitTransaction, StoreCall.rollbackTransaction])
        else []) := by
  by_cases hn : c.m_hasNewRecords = true
  · rw [if_pos hn]
    exact (flushToDisk_main ok commitOk hst hn).2.2.1
  · have hn1 : c.m_hasNewRecords = false := by simpa using hn
    rw [flushToDisk_noop true ok commitOk (Or.inr hn1), if_neg hn]
    simp

theorem nodup_upsertCalls (name : String) (m : UMap (List DataRecord))
    (hn : (UMap.keys m).Nodup) (hs : ∀ e ∈ m, StrictAsc e.2) :
    ((dirtyRecords m).map (upsertCall name)).Nodup := by
  induction m with
  | nil => simp [dirtyRecords]
  | cons e rest ih =>
    obtain ⟨doc, records⟩ := e
    simp only [UMap.keys, List.map_cons, List.nodup_cons] at hn
    simp only [dirtyRecords, List.map_append, List.map_map]
    rw [List.nodup_append]
    refine ⟨?_, ih hn.2 (fun e he => hs e (List.mem_cons_of_mem _ he)), ?_⟩
    · have hsr : StrictAsc records := hs (doc, records) (List.mem_cons_self _ _)
      have hsf : StrictAsc (records.filter (fun r => r.isNew)) :=
        strictAsc_of_sublist (List.filter_sublist _) hsr
      unfold List.Nodup
      rw [List.pairwise_map]
      refine List.Pairwise.imp ?_ hsf
      intro a b hab heq
      simp only [Function.comp, upsertCall, StoreCall.upsertRecord.injEq] at heq
      omega
    · intro x hx1 hx2
      obtain ⟨r, _, rfl⟩ := List.mem_map.1 hx1
      obtain ⟨p, hp, hpe⟩ := List.mem_map.1 hx2
      obtain ⟨recs, hmem, _, _⟩ := (mem_dirtyRecords rest p).1 hp
      simp only [Function.comp, upsertCall, StoreCall.upsertRecord.injEq] at hpe
      apply hn.1
      rw [← hpe.2.1]
      exact List.mem_map_of_mem Prod.fst hmem

theorem flushToDisk_documents {c : Collection} (h : Inv c) (hst : c.m_storage = true)
    (ok : Nat → Bool) (commitOk : Bool) :
    (∀ key, ((c.flushToDisk true ok commitOk).document key).map
        (fun r => (r.timestamp, r.data)) =
      (c.document key).map (fun r => (r.timestamp, r.data))) ∧
    (∀ key r, r ∈ c.document key → r.isNew = false →
      r ∈ (c.flushToDisk true ok commitOk).document key) ∧
    (∀ (i : Nat) (p : String × DataRecord), (dirtyRecords c.m_data)[i]? = some p →
      ({ p.2 with isNew := !ok i } : DataRecord) ∈
        (c.flushToDisk true ok commitOk).document p.1) ∧
    ((c.flushToDisk true ok commitOk).m_hasNewRecords = true ↔
      ∃ i, i < (dirtyRecords c.m_data).length ∧ ok i = false) := by
  by_cases hn : c.m_hasNewRecords = true
  · obtain ⟨hd, hh, _⟩ := flushToDisk_main ok commitOk hst hn
    obtain ⟨ho1, ho2⟩ := Collection.flushDocs_output c.m_name ok c.m_data
      { upserts := 0, keepFlushing := false, calls := [] }
    have hkeep := (Collection.flushDocs_state c.m_name ok c.m_data
      { upserts := 0, keepFlushing := false, calls := [] }).2.2
    simp only [Bool.false_eq_true, false_or, Nat.zero_add] at hkeep
    simp only [Nat.zero_add] at ho2
    have hnodup : (UMap.keys (c.flushToDisk true ok commitOk).m_data).Nodup := by
      rw [hd, Collection.flushDocs_keys]; exact h.nodup
    have hdocOf : ∀ key records1,
        (key, records1) ∈ (Collection.flushDocs c.m_name ok c.m_data
          { upserts := 0, keepFlushing := false, calls := [] }).1 →
        (c.flushToDisk true ok commitOk).document key = records1 := by
      intro key records1 hm
      rw [← hd] at hm
      exact document_of_find (UMap.mem_find hnodup hm)
    have hnoneOf : ∀ key, UMap.find c.m_data key = none →
        (c.flushToDisk true ok commitOk).document key = [] := by
      intro key hf
      apply document_of_find_none
      rw [UMap.find_none_iff] at hf ⊢
      rw [hd, Collection.flushDocs_keys]
      exact hf
    refine ⟨?_, ?_, ?_, ?_⟩
    · intro key
      cases hf : UMap.find c.m_data key with
      | none => rw [hnoneOf key hf, document_of_find_none hf]
      | some records =>
        obtain ⟨records1, hm, hmap, _⟩ := ho1 (key, records) (UMap.find_some_mem hf)
        rw [hdocOf key records1 hm, document_of_find hf]
        exact hmap
    · intro key r hr hclean
      cases hf : UMap.find c.m_data key with
      | none => rw [document_of_find_none hf] at hr; cases hr
      | some records =>
        rw [document_of_find hf] at hr
        obtain ⟨records1, hm, _, hkeepr⟩ := ho1 (key, records) (UMap.find_some_mem hf)
        rw [hdocOf key records1 hm]
        exact hkeepr r hr hclean
    · intro i p hp
      obtain ⟨records1, hm, hx⟩ := ho2 i p hp
      rw [hdocOf p.1 records1 hm]
      exact hx
    · rw [hh]
      constructor
      · intro h1
        by_cases hk : (Collection.flushDocs c.m_name ok c.m_data
            { upserts := 0, keepFlushing := false, calls := [] }).2.keepFlushing = true
        · exact hkeep.1 hk
        · rw [if_neg hk] at h1; cases h1
      · rintro ⟨i, hi, hfail⟩
        rw [if_pos (hkeep.2 ⟨i, hi, hfail⟩), Collection.anyNew_iff]
        obtain ⟨p, hp⟩ : ∃ p, (dirtyRecords c.m_data)[i]? = some p :=
          ⟨(dirtyRecords c.m_data)[i], List.getElem?_eq_getElem hi⟩
        obtain ⟨records1, hm, hx⟩ := ho2 i p hp
        exact ⟨_, hm, _, hx, by simp [hfail]⟩
  · have hn1 : c.m_hasNewRecords = false := by simpa using hn
    rw [flushToDisk_noop true ok commitOk (Or.inr hn1)]
    have hD := h.dirtyRecords_nil hn1
    refine ⟨fun _ => rfl, fun _ _ hr _ => hr, ?_, ?_⟩
    · intro i p hp
      rw [hD] at hp
      simp at hp
    · rw [hD, hn1]
      simp

/-! ## The key/value side-table has unique keys -/

theorem deleteRecord_keyValues (c : Collection) (key : String) (ts : Int) :
    (c.deleteRecord key ts).m_key_vaue = c.m_key_vaue := by
  unfold Collection.deleteRecord
  cases UMap.find c.m_data key with
  | none => rfl
  | some records =>
    simp only []
    cases records[lowerBound records ts]? with
    | none => rfl
    | some r => simp only []; split_ifs <;> rfl

theorem deleteRecordsInRange_keyValues (c : Collection) (key : String) (a b : Int) :
    (c.deleteRecordsInRange key a b).m_key_vaue = c.m_key_vaue := by
  unfold Collection.deleteRecordsInRange
  cases UMap.find c.m_data key with
  | none => rfl
  | some records => simp only []; split_ifs <;> rfl

theorem flushToDisk_keyValues (c : Collection) (beginOk : Bool) (ok : Nat → Bool)
    (commitOk : Bool) : (c.flushToDisk beginOk ok commitOk).m_key_vaue = c.m_key_vaue := by
  by_cases hst : c.m_storage = true
  · by_cases hn : c.m_hasNewRecords = true
    · by_cases hb : beginOk = true
      · simp [Collection.flushToDisk, hst, hn, hb]
      · simp [Collection.flushToDisk, hst, hn, hb]
    · rw [flushToDisk_noop beginOk ok commitOk (Or.inr (by simpa using hn))]
  · rw [flushToDisk_noop beginOk ok commitOk (Or.inl (by simpa using hst))]

theorem foldl_insertInternal_keyValues (rows : List StoredRecord) (c : Collection) :
    (rows.foldl
      (fun acc record =>
        Collection.insertInternal acc record.timestamp record.document record.data false)
      c).m_key_vaue = c.m_key_vaue := by
  induction rows generalizing c with
  | nil => rfl
  | cons row rest ih =>
    simp only [List.foldl_cons]
    rw [ih, insertInternal_keyValues]

theorem keys_foldl_assign_nodup (keyValues : List StoredKeyValue) (m : UMap String)
    (h : (UMap.keys m).Nodup) :
    (UMap.keys (keyValues.foldl (fun m kv => UMap.assign m kv.key kv.value) m)).Nodup := by
  induction keyValues generalizing m with
  | nil => exact h
  | cons kv rest ih =>
    simp only [List.foldl_cons]
    exact ih _ (UMap.keys_assign_nodup h _ _)

theorem keyValues_nodup_step {c : Collection} (h : (UMap.keys c.m_key_vaue).Nodup) (op : Op) :
    (UMap.keys (step c op).m_key_vaue).Nodup := by
  cases op with
  | insert timestamp key data =>
    simp only [step, Collection.insert, insertInternal_keyValues]; exact h
  | deleteRecord key ts => simp only [step, deleteRecord_keyValues]; exact h
  | deleteRecordsInRange key fromTs toTs =>
    simp only [step, deleteRecordsInRange_keyValues]; exact h
  | clearDocument key => simp only [step, (clearDocument_fields c key).2.2.1]; exact h
  | flushToDisk beginOk upsertOk commitOk => simp only [step, flushToDisk_keyValues]; exact h
  | loadFromDisk rows keyValues =>
    simp only [step]
    unfold Collection.loadFromDisk
    by_cases hst : c.m_storage = true
    · rw [if_neg (not_not.2 hst)]
      simp only [foldl_insertInternal_keyValues]
      exact keys_foldl_assign_nodup keyValues [] List.nodup_nil
    · rw [if_pos hst]; exact h
  | setValueForKey key value =>
    simp only [step, Collection.setValueForKey]
    split_ifs <;> exact UMap.keys_assign_nodup h _ _
  | removeValueForKey key =>
    simp only [step, Collection.removeValueForKey]
    split_ifs <;> exact UMap.keys_erase_nodup h _

theorem keyValues_nodup_of_reachable {c : Collection} (h : Reachable c) :
    (UMap.keys c.m_key_vaue).Nodup := by
  obtain ⟨name, storage, ops, rfl⟩ := h
  have hgen : ∀ (ops : List Op) (c : Collection), (UMap.keys c.m_key_vaue).Nodup →
      (UMap.keys (run c ops).m_key_vaue).Nodup := by
    intro ops
    induction ops with
    | nil => intro c hc; exact hc
    | cons op rest ih =>
      intro c hc
      simp only [run, List.foldl_cons]
      exact ih _ (keyValues_nodup_step hc op)
  exact hgen ops _ (by simp [Collection.new, UMap.keys])

/-! ## Flush and reload through the store -/

theorem strictAsc_ext {l1 l2 : List DataRecord} (h1 : StrictAsc l1) (h2 : StrictAsc l2)
    (h : ∀ x, x ∈ l1 ↔ x ∈ l2) : l1 = l2 := by
  induction l1 generalizing l2 with
  | nil =>
    cases l2 with
    | nil => rfl
    | cons b rest => exact absurd ((h b).2 (List.mem_cons_self _ _)) (List.not_mem_nil _)
  | cons a rest1 ih =>
    cases l2 with
    | nil => exact absurd ((h a).1 (List.mem_cons_self _ _)) (List.not_mem_nil _)
    | cons b rest2 =>
      rw [strictAsc_cons] at h1 h2
      have hab : a = b := by
        have ha := (h a).1 (List.mem_cons_self _ _)
        have hb := (h b).2 (List.mem_cons_self _ _)
        rcases List.mem_cons.1 ha with ha | ha
        · exact ha
        · rcases List.mem_cons.1 hb with hb | hb
          · exact hb.symm
          · have := h1.1 b hb
            have := h2.1 a ha
            omega
      subst hab
      congr 1
      apply ih h1.2 h2.2
      intro x
      constructor
      · intro hx
        have hlt := h1.1 x hx
        rcases List.mem_cons.1 ((h x).1 (List.mem_cons_of_mem _ hx)) with hx2 | hx2
        · rw [hx2] at hlt; omega
        · exact hx2
      · intro hx
        have hlt := h2.1 x hx
        rcases List.mem_cons.1 ((h x).2 (List.mem_cons_of_mem _ hx)) with hx2 | hx2
        · rw [hx2] at hlt; omega
        · exact hx2

theorem strictAsc_map_flushed {l : List DataRecord} (h : StrictAsc l) :
    StrictAsc (l.map (fun r => ({ r with isNew := false } : DataRecord))) := by
  unfold StrictAsc at h ⊢
  rw [List.pairwise_map]
  exact h

namespace SqliteStorage

theorem apply_isOpen (s : SqliteStorage) (call : StoreCall) :
    (s.apply call).m_isOpen = s.m_isOpen := by
  by_cases ho : s.m_isOpen = true
  · cases call with
    | rollbackTransaction =>
      simp only [apply, rollbackTransaction, ho, not_true_eq_false, if_false]
      cases s.pending <;> simp [ho]
    | beginTransaction =>
      simp only [apply, beginTransaction, ho, not_true_eq_false, if_false]
      cases s.pending <;> simp [ho]
    | commitTransaction =>
      simp only [apply, commitTransaction, ho, not_true_eq_false, if_false]
      cases s.pending <;> simp [ho]
    | _ =>
      simp [apply, upsertRecord, deleteRecord, deleteRecordsInRange, deleteDocument,
        upsertKeyValue, removeKeyValue, ho]
  · cases call <;>
      simp [apply, upsertRecord, deleteRecord, deleteRecordsInRange, deleteDocument,
        upsertKeyValue, removeKeyValue, beginTransaction, commitTransaction,
        rollbackTransaction, ho]

theorem applyAll_isOpen (s : SqliteStorage) (calls : List StoreCall) :
    (s.applyAll calls).m_isOpen = s.m_isOpen := by
  induction calls generalizing s with
  | nil => rfl
  | cons call rest ih =>
    simp only [applyAll, List.foldl_cons] at ih ⊢
    rw [ih, apply_isOpen]

theorem beginTransaction_fst (s : SqliteStorage) (hp : s.pending = none) :
    s.beginTransaction.1 = s.m_isOpen := by
  unfold beginTransaction
  rw [hp]
  cases s.m_isOpen <;> rfl

theorem beginTransaction_pending (s : SqliteStorage) (saved : List RecordRow × List KeyValueRow)
    (hp : s.pending = some saved) : s.beginTransaction = (false, s) := by
  unfold beginTransaction
  rw [hp]
  cases s.m_isOpen <;> rfl

theorem commitTransaction_fst (s : SqliteStorage) (saved : List RecordRow × List KeyValueRow)
    (hp : s.pending = some saved) : s.commitTransaction.1 = s.m_isOpen := by
  unfold commitTransaction
  rw [hp]
  cases s.m_isOpen <;> rfl

theorem upsertRecord_fst (s : SqliteStorage) (collection document : String) (timestamp : Int)
    (data : String) : (s.upsertRecord collection document timestamp data).1 = s.m_isOpen := by
  unfold upsertRecord
  cases s.m_isOpen <;> rfl

theorem mem_apply_upsert (s : SqliteStorage) (ho : s.m_isOpen = true) (name : String)
    (p : String × DataRecord) (row : RecordRow) :
    row ∈ (s.apply (upsertCall name p)).records ↔
      (row = ⟨name, p.1, p.2.timestamp, p.2.data⟩ ∨
        (row ∈ s.records ∧
          ¬ (row.ts = p.2.timestamp ∧ row.collection = name ∧ row.doc = p.1))) := by
  simp only [upsertCall, apply, upsertRecord, ho, not_true_eq_false, if_false, List.mem_append,
    List.mem_filter, List.mem_singleton, Bool.not_eq_true', decide_eq_false_iff_not]
  constructor
  · rintro (h | h)
    · exact Or.inr h
    · exact Or.inl h
  · rintro (h | h)
    · exact Or.inr h
    · exact Or.inl h

theorem mem_applyAll_upserts (name : String) (P : List (String × DataRecord))
    (hfun : ∀ p ∈ P, ∀ q ∈ P, p.1 = q.1 → p.2.timestamp = q.2.timestamp → p.2.data = q.2.data)
    (s : SqliteStorage) (ho : s.m_isOpen = true) (row : RecordRow) :
    row ∈ (s.applyAll (P.map (upsertCall name))).records ↔
      ((∃ p ∈ P, row = ⟨name, p.1, p.2.timestamp, p.2.data⟩) ∨
        (row ∈ s.records ∧
          ∀ p ∈ P, ¬ (row.ts = p.2.timestamp ∧ row.collection = name ∧ row.doc = p.1))) := by
  induction P generalizing s with
  | nil => simp [applyAll]
  | cons p rest ih =>
    have hfun1 : ∀ a ∈ rest, ∀ b ∈ rest, a.1 = b.1 → a.2.timestamp = b.2.timestamp →
        a.2.data = b.2.data :=
      fun a ha b hb => hfun a (List.mem_cons_of_mem _ ha) b (List.mem_cons_of_mem _ hb)
    have hstep := ih hfun1 (s.apply (upsertCall name p)) (by rw [apply_isOpen]; exact ho)
    simp only [applyAll, List.map_cons, List.foldl_cons] at hstep ⊢
    rw [hstep, mem_apply_upsert s ho]
    constructor
    · rintro (⟨q, hq, hrow⟩ | ⟨(hrow | ⟨hmem, hnp⟩), hall⟩)
      · exact Or.inl ⟨q, List.mem_cons_of_mem _ hq, hrow⟩
      · exact Or.inl ⟨p, List.mem_cons_self _ _, hrow⟩
      · refine Or.inr ⟨hmem, ?_⟩
        intro q hq
        rcases List.mem_cons.1 hq with hq | hq
        · rw [hq]; exact hnp
        · exact hall q hq
    · rintro (⟨q, hq, hrow⟩ | ⟨hmem, hall⟩)
      · rcases List.mem_cons.1 hq with hq | hq
        · subst hq
          by_cases hex : ∃ q1 ∈ rest, q1.1 = q.1 ∧ q1.2.timestamp = q.2.timestamp
          · obtain ⟨q1, hq1, h1, h2⟩ := hex
            have hd := hfun q1 (List.mem_cons_of_mem _ hq1) q (List.mem_cons_self _ _) h1 h2
            refine Or.inl ⟨q1, hq1, ?_⟩
            rw [hrow, h1, h2, hd]
          · refine Or.inr ⟨Or.inl hrow, ?_⟩
            intro q1 hq1 hsame
            apply hex
            refine ⟨q1, hq1, ?_, ?_⟩
            · rw [hrow] at hsame; exact hsame.2.2.symm
            · rw [hrow] at hsame; exact hsame.1.symm
        · exact Or.inl ⟨q, hq, hrow⟩
      · refine Or.inr ⟨Or.inr ⟨hmem, hall p (List.mem_cons_self _ _)⟩, ?_⟩
        intro q hq
        exact hall q (List.mem_cons_of_mem _ hq)

theorem mem_fetchRecords (s : SqliteStorage) (ho : s.m_isOpen = true) (collection : String)
    (x : StoredRecord) :
    x ∈ s.fetchRecords collection ↔
      ∃ row ∈ s.records, row.collection = collection ∧ x = ⟨row.doc, row.ts, row.data⟩ := by
  simp only [fetchRecords, ho, not_true_eq_false, if_false, List.mem_map,
    List.mem_insertionSort, List.mem_filter, decide_eq_true_eq]
  constructor
  · rintro ⟨row, ⟨h1, h2⟩, h3⟩
    exact ⟨row, h1, h2, h3.symm⟩
  · rintro ⟨row, h1, h2, h3⟩
    exact ⟨row, ⟨h1, h2⟩, h3.symm⟩

end SqliteStorage

theorem Inv.dirtyRecords_functional {c : Collection} (h : Inv c) :
    ∀ p ∈ dirtyRecords c.m_data, ∀ q ∈ dirtyRecords c.m_data,
      p.1 = q.1 → p.2.timestamp = q.2.timestamp → p.2.data = q.2.data := by
  intro p hp q hq h1 h2
  have hp1 := (h.dirtyRecords_mem p).1 hp
  have hq1 := (h.dirtyRecords_mem q).1 hq
  rw [h1] at hp1
  rw [strictAsc_eq_of_timestamp (h.document_sorted q.1) hp1.1 hq1.1 h2]

theorem flushOn_store {c : Collection} (h : Inv c) (hst : c.m_storage = true)
    (s : SqliteStorage) (ho : s.m_isOpen = true) (hp : s.pending = none) (row : RecordRow) :
    (c.flushOn s).1 = c.flushToDisk true (fun _ => true) true ∧
    (c.flushOn s).2.m_isOpen = true ∧
    (row ∈ (c.flushOn s).2.records ↔
      ((∃ p ∈ dirtyRecords c.m_data, row = ⟨c.m_name, p.1, p.2.timestamp, p.2.data⟩) ∨
        (row ∈ s.records ∧ ∀ p ∈ dirtyRecords c.m_data,
          ¬ (row.ts = p.2.timestamp ∧ row.collection = c.m_name ∧ row.doc = p.1)))) := by
  have hb : s.beginTransaction.1 = true := by
    rw [SqliteStorage.beginTransaction_fst s hp]; exact ho
  have h1 : (c.flushOn s).1 = c.flushToDisk true (fun _ => true) true := by
    simp only [Collection.flushOn, hb, ho]
  have h2 : (c.flushOn s).2 = s.applyAll
      (if c.m_hasNewRecords = true then
        StoreCall.beginTransaction ::
          (dirtyRecords c.m_data).map (upsertCall c.m_name) ++ [StoreCall.commitTransaction]
        else []) := by
    simp only [Collection.flushOn, hb, ho]
    rw [flushToDisk_calls hst (fun _ => true) true, List.drop_left]
    simp
  refine ⟨h1, by rw [h2, SqliteStorage.applyAll_isOpen]; exact ho, ?_⟩
  rw [h2]
  by_cases hn : c.m_hasNewRecords = true
  · simp only [hn, if_true]
    have hsplit : (StoreCall.beginTransaction ::
        (dirtyRecords c.m_data).map (upsertCall c.m_name) ++ [StoreCall.commitTransaction]) =
        [StoreCall.beginTransaction] ++
          ((dirtyRecords c.m_data).map (upsertCall c.m_name) ++
            [StoreCall.commitTransaction]) := rfl
    rw [hsplit, SqliteStorage.applyAll_append, SqliteStorage.applyAll_append]
    have hopen1 : (s.applyAll [StoreCall.beginTransaction]).m_isOpen = true := by
      rw [SqliteStorage.applyAll_isOpen]; exact ho
    have hcommit : ∀ s1 : SqliteStorage,
        (s1.applyAll [StoreCall.commitTransaction]).records = s1.records := by
      intro s1
      simp only [SqliteStorage.applyAll, List.foldl_cons, List.foldl_nil, SqliteStorage.apply,
        SqliteStorage.commitTransaction]
      by_cases ho1 : s1.m_isOpen = true
      · rw [if_neg (not_not.2 ho1)]
        cases s1.pending <;> rfl
      · rw [if_pos ho1]
    have hbegin : (s.applyAll [StoreCall.beginTransaction]).records = s.records := by
      simp only [SqliteStorage.applyAll, List.foldl_cons, List.foldl_nil, SqliteStorage.apply,
        SqliteStorage.beginTransaction, ho, hp, not_true_eq_false, if_false]
    rw [hcommit, SqliteStorage.mem_applyAll_upserts c.m_name _ h.dirtyRecords_functional _ hopen1,
      hbegin]
  · have hn1 : c.m_hasNewRecords = false := by simpa using hn
    simp [hn1, h.dirtyRecords_nil hn1, SqliteStorage.applyAll]

theorem insertInternal_document_other (c : Collection) (timestamp : Int) (key data : String)
    (persist : Bool) {key1 : String} (hk : key1 ≠ key) :
    (c.insertInternal timestamp key data persist).document key1 = c.document key1 := by
  simp only [Collection.document, insertInternal_find_other c timestamp key data persist hk]

theorem mem_foldl_insertInternal (rows : List StoredRecord)
    (hfun : ∀ x ∈ rows, ∀ y ∈ rows, x.document = y.document → x.timestamp = y.timestamp →
      x.data = y.data)
    {c : Collection} (h : Inv c) (key : String) (r : DataRecord) :
    r ∈ (rows.foldl
      (fun acc record =>
        Collection.insertInternal acc record.timestamp record.document record.data false)
      c).document key ↔
      ((r.isNew = false ∧ (⟨key, r.timestamp, r.data⟩ : StoredRecord) ∈ rows) ∨
        (r ∈ c.document key ∧
          ∀ x ∈ rows, ¬ (x.document = key ∧ x.timestamp = r.timestamp))) := by
  induction rows generalizing c with
  | nil => simp
  | cons x rest ih =>
    have hfun1 : ∀ a ∈ rest, ∀ b ∈ rest, a.document = b.document →
        a.timestamp = b.timestamp → a.data = b.data :=
      fun a ha b hb => hfun a (List.mem_cons_of_mem _ ha) b (List.mem_cons_of_mem _ hb)
    have hinv1 := Inv.insertInternal h x.timestamp x.document x.data false (by simp)
    simp only [List.foldl_cons]
    rw [ih hfun1 hinv1]
    have hstep : r ∈ (c.insertInternal x.timestamp x.document x.data false).document key ↔
        ((x.document = key ∧ r = ⟨x.timestamp, x.data, false⟩) ∨
          (r ∈ c.document key ∧ ¬ (x.document = key ∧ x.timestamp = r.timestamp))) := by
      by_cases hk : x.document = key
      · subst hk
        rw [insertInternal_document_self h,
          Collection.mem_upsertSorted (h.document_sorted x.document)]
        constructor
        · rintro (h1 | ⟨h1, h2⟩)
          · exact Or.inl ⟨rfl, h1⟩
          · exact Or.inr ⟨h1, fun hh => h2 hh.2.symm⟩
        · rintro (⟨_, h1⟩ | ⟨h1, h2⟩)
          · exact Or.inl h1
          · exact Or.inr ⟨h1, fun hh => h2 ⟨rfl, hh.symm⟩⟩
      · rw [insertInternal_document_other c _ _ _ _ (fun hh => hk hh.symm)]
        constructor
        · intro h1; exact Or.inr ⟨h1, fun hh => hk hh.1⟩
        · rintro (⟨h1, _⟩ | ⟨h1, _⟩)
          · exact absurd h1 hk
          · exact h1
    rw [hstep]
    constructor
    · rintro (⟨h1, h2⟩ | ⟨(⟨h1, h2⟩ | ⟨h1, h2⟩), h3⟩)
      · exact Or.inl ⟨h1, List.mem_cons_of_mem _ h2⟩
      · refine Or.inl ⟨by rw [h2], ?_⟩
        rw [h2, ← h1]
        exact List.mem_cons_self _ _
      · refine Or.inr ⟨h1, ?_⟩
        intro y hy
        rcases List.mem_cons.1 hy with hy | hy
        · rw [hy]; exact h2
        · exact h3 y hy
    · rintro (⟨h1, h2⟩ | ⟨h1, h2⟩)
      · rcases List.mem_cons.1 h2 with h2 | h2
        · by_cases hex : ∃ y ∈ rest, y.document = key ∧ y.timestamp = r.timestamp
          · obtain ⟨y, hy, hy1, hy2⟩ := hex
            have hd := hfun y (List.mem_cons_of_mem _ hy) x (List.mem_cons_self _ _)
              (by rw [hy1, ← h2]) (by rw [hy2, ← h2])
            refine Or.inl ⟨h1, ?_⟩
            have hye : y = ⟨key, r.timestamp, r.data⟩ := by
              cases y
              simp only at hy1 hy2 hd
              rw [hy1, hy2, hd, ← h2]
            rw [← hye]
            exact hy
          · refine Or.inr ⟨Or.inl ⟨by rw [← h2], ?_⟩, ?_⟩
            · cases r
              simp only at h1
              simp only [← h2, h1]
            · intro y hy hh
              exact hex ⟨y, hy, hh⟩
        · exact Or.inl ⟨h1, h2⟩
      · exact Or.inr ⟨Or.inr ⟨h1, h2 x (List.mem_cons_self _ _)⟩,
          fun y hy => h2 y (List.mem_cons_of_mem _ hy)⟩

theorem loadFromDisk_document {c : Collection} (hst : c.m_storage = true)
    (rows : List StoredRecord) (keyValues : List StoredKeyValue) (key : String) :
    (c.loadFromDisk rows keyValues).document key =
      (rows.foldl
        (fun acc record =>
          Collection.insertInternal acc record.timestamp record.document record.data false)
        ({ c with
            m_data := []
            m_key_vaue := []
            m_hasNewRecords := false
            storeCalls := c.storeCalls ++ [StoreCall.fetchRecords c.m_name] } :
          Collection)).document key := by
  simp [Collection.loadFromDisk, hst, Collection.document]

theorem allDirty_run_inserts (name : String) (ops : List Op)
    (hops : ∀ op ∈ ops, op.isInsert = true) :
    (run (Collection.new name true) ops).m_storage = true ∧
    (run (Collection.new name true) ops).m_name = name ∧
    ∀ key, ∀ r ∈ (run (Collection.new name true) ops).document key, r.isNew = true := by
  have hgen : ∀ (ops : List Op) (c : Collection), Inv c → c.m_storage = true →
      c.m_name = name → (∀ key, ∀ r ∈ c.document key, r.isNew = true) →
      (∀ op ∈ ops, op.isInsert = true) →
      (run c ops).m_storage = true ∧ (run c ops).m_name = name ∧
        ∀ key, ∀ r ∈ (run c ops).document key, r.isNew = true := by
    intro ops
    induction ops with
    | nil => intro c _ h1 h2 h3 _; exact ⟨h1, h2, h3⟩
    | cons op rest ih =>
      intro c hinv h1 h2 h3 hall
      simp only [run, List.foldl_cons]
      have hop := hall op (List.mem_cons_self _ _)
      cases op with
      | insert timestamp key data =>
        refine ih (step c (Op.insert timestamp key data)) (Inv.step hinv _) ?_ ?_ ?_
          (fun op1 h => hall op1 (List.mem_cons_of_mem _ h))
        · simp only [step, Collection.insert, insertInternal_storage]; exact h1
        · simp only [step, Collection.insert]
          unfold Collection.insertInternal
          cases UMap.find c.m_data key with
          | none => exact h2
          | some records => simp only []; split_ifs <;> exact h2
        · intro key1 r hr
          simp only [step, Collection.insert] at hr
          by_cases hk : key1 = key
          · subst hk
            rw [insertInternal_document_self hinv,
              Collection.mem_upsertSorted (hinv.document_sorted key1)] at hr
            rcases hr with hr | hr
            · rw [hr]; exact h1
            · exact h3 key1 r hr.1
          · rw [insertInternal_document_other c _ _ _ _ hk] at hr
            exact h3 key1 r hr
      | deleteRecord key ts => simp [Op.isInsert] at hop
      | deleteRecordsInRange key fromTs toTs => simp [Op.isInsert] at hop
      | clearDocument key => simp [Op.isInsert] at hop
      | loadFromDisk rows keyValues => simp [Op.isInsert] at hop
      | flushToDisk beginOk upsertOk commitOk => simp [Op.isInsert] at hop
      | setValueForKey key value => simp [Op.isInsert] at hop
      | removeValueForKey key => simp [Op.isInsert] at hop
  exact hgen ops (Collection.new name true) (Inv.new name true) rfl rfl
    (by intro key r hr; simp [Collection.document, Collection.new, UMap.find] at hr) hops

/-! ## The store pointer never changes -/

theorem deleteRecord_storage (c : Collection) (key : String) (ts : Int) :
    (c.deleteRecord key ts).m_storage = c.m_storage := by
  unfold Collection.deleteRecord
  cases UMap.find c.m_data key with
  | none => rfl
  | some records =>
    simp only []
    cases records[lowerBound records ts]? with
    | none => rfl
    | some r => simp only []; split_ifs <;> rfl

theorem deleteRecord_hasNew (c : Collection) (key : String) (ts : Int) :
    (c.deleteRecord key ts).m_hasNewRecords = c.m_hasNewRecords := by
  unfold Collection.deleteRecord
  cases UMap.find c.m_data key with
  | none => rfl
  | some records =>
    simp only []
    cases records[lowerBound records ts]? with
    | none => rfl
    | some r => simp only []; split_ifs <;> rfl

theorem deleteRecordsInRange_storage (c : Collection) (key : String) (a b : Int) :
    (c.deleteRecordsInRange key a b).m_storage = c.m_storage := by
  unfold Collection.deleteRecordsInRange
  cases UMap.find c.m_data key with
  | none => rfl
  | some records => simp only []; split_ifs <;> rfl

theorem deleteRecordsInRange_hasNew (c : Collection) (key : String) (a b : Int) :
    (c.deleteRecordsInRange key a b).m_hasNewRecords = c.m_hasNewRecords := by
  unfold Collection.deleteRecordsInRange
  cases UMap.find c.m_data key with
  | none => rfl
  | some records => simp only []; split_ifs <;> rfl

theorem foldl_insertInternal_storage (rows : List StoredRecord) (c : Collection) :
    (rows.foldl
      (fun acc record =>
        Collection.insertInternal acc record.timestamp record.document record.data false)
      c).m_storage = c.m_storage := by
  induction rows generalizing c with
  | nil => rfl
  | cons row rest ih =>
    simp only [List.foldl_cons]
    rw [ih, insertInternal_storage]

theorem loadFromDisk_no_store {c : Collection} (hst : c.m_storage = false)
    (rows : List StoredRecord) (keyValues : List StoredKeyValue) :
    c.loadFromDisk rows keyValues = c := by
  unfold Collection.loadFromDisk
  rw [if_pos (by simp [hst])]

theorem loadFromDisk_storage (c : Collection) (rows : List StoredRecord)
    (keyValues : List StoredKeyValue) :
    (c.loadFromDisk rows keyValues).m_storage = c.m_storage := by
  by_cases hst : c.m_storage = true
  · unfold Collection.loadFromDisk
    rw [if_neg (not_not.2 hst)]
    simp only [foldl_insertInternal_storage]
  · rw [loadFromDisk_no_store (by simpa using hst)]

theorem flushToDisk_storage (c : Collection) (beginOk : Bool) (ok : Nat → Bool)
    (commitOk : Bool) : (c.flushToDisk beginOk ok commitOk).m_storage = c.m_storage := by
  by_cases hst : c.m_storage = true
  · by_cases hn : c.m_hasNewRecords = true
    · by_cases hb : beginOk = true
      · simp [Collection.flushToDisk, hst, hn, hb]
      · simp [Collection.flushToDisk, hst, hn, hb]
    · rw [flushToDisk_noop beginOk ok commitOk (Or.inr (by simpa using hn))]
  · rw [flushToDisk_noop beginOk ok commitOk (Or.inl (by simpa using hst))]

theorem step_storage (c : Collection) (op : Op) : (step c op).m_storage = c.m_storage := by
  cases op with
  | insert timestamp key data => simp only [step, Collection.insert, insertInternal_storage]
  | deleteRecord key ts => simp only [step, deleteRecord_storage]
  | deleteRecordsInRange key fromTs toTs => simp only [step, deleteRecordsInRange_storage]
  | clearDocument key => simp only [step, (clearDocument_fields c key).2.2.2.2.1]
  | flushToDisk beginOk upsertOk commitOk => simp only [step, flushToDisk_storage]
  | loadFromDisk rows keyValues => simp only [step, loadFromDisk_storage]
  | setValueForKey key value =>
    simp only [step, Collection.setValueForKey]
    split_ifs <;> rfl
  | removeValueForKey key =>
    simp only [step, Collection.removeValueForKey]
    split_ifs <;> rfl

theorem run_storage (c : Collection) (ops : List Op) : (run c ops).m_storage = c.m_storage := by
  induction ops generalizing c with
  | nil => rfl
  | cons op rest ih =>
    simp only [run, List.foldl_cons]
    exact (ih (step c op)).trans (step_storage c op)

theorem run_new_storage (name : String) (storage : Bool) (ops : List Op) :
    (run (Collection.new name storage) ops).m_storage = storage :=
  run_storage _ ops

/-! ## Without a store the aggregate marker stays false -/

theorem insertInternal_hasNew_clean (c : Collection) (timestamp : Int) (key data : String) :
    (c.insertInternal timestamp key data false).m_hasNewRecords = c.m_hasNewRecords := by
  unfold Collection.insertInternal
  cases UMap.find c.m_data key with
  | none => simp
  | some records =>
    simp only []
    by_cases he : records.isEmpty = true
    · rw [if_pos he]
    · rw [if_neg he]; simp

theorem step_hasNew_no_store {c : Collection} (hst : c.m_storage = false) (op : Op) :
    (step c op).m_hasNewRecords = c.m_hasNewRecords := by
  cases op with
  | insert timestamp key data =>
    simp only [step, Collection.insert, hst, insertInternal_hasNew_clean]
  | deleteRecord key ts => simp only [step, deleteRecord_hasNew]
  | deleteRecordsInRange key fromTs toTs => simp only [step, deleteRecordsInRange_hasNew]
  | clearDocument key => simp only [step, (clearDocument_fields c key).2.2.2.1]
  | flushToDisk beginOk upsertOk commitOk =>
    simp only [step, flushToDisk_noop beginOk upsertOk commitOk (Or.inl hst)]
  | loadFromDisk rows keyValues => simp only [step, loadFromDisk_no_store hst]
  | setValueForKey key value =>
    simp only [step, Collection.setValueForKey]
    split_ifs <;> rfl
  | removeValueForKey key =>
    simp only [step, Collection.removeValueForKey]
    split_ifs <;> rfl

theorem run_hasNew_no_store {c : Collection} (hst : c.m_storage = false) (ops : List Op) :
    (run c ops).m_hasNewRecords = c.m_hasNewRecords := by
  induction ops generalizing c with
  | nil => rfl
  | cons op rest ih =>
    simp only [run, List.foldl_cons]
    exact (ih ((step_storage c op).trans hst)).trans (step_hasNew_no_store hst op)

theorem flushToDisk_data_of_begin_failed (c : Collection) (ok : Nat → Bool) (commitOk : Bool) :
    (c.flushToDisk false ok commitOk).m_data = c.m_data ∧
    (c.flushToDisk false ok commitOk).m_hasNewRecords = c.m_hasNewRecords ∧
    (c.flushToDisk false ok commitOk).storeCalls = c.storeCalls ++
      (if c.m_storage = true ∧ c.m_hasNewRecords = true then [StoreCall.beginTransaction]
        else []) := by
  by_cases hst : c.m_storage = true
  · by_cases hn : c.m_hasNewRecords = true
    · rw [flushToDisk_begin_failed ok commitOk hst hn]
      simp [hst, hn]
    · rw [flushToDisk_noop false ok commitOk (Or.inr (by simpa using hn))]
      simp [hn]
  · rw [flushToDisk_noop false ok commitOk (Or.inl (by simpa using hst))]
    simp [hst]

/-! ## The key/value side-table -/

theorem foldl_append_key (m : UMap String) (init : List String) :
    m.foldl (fun result entry => result ++ [entry.1]) init = init ++ UMap.keys m := by
  induction m generalizing init with
  | nil => simp [UMap.keys]
  | cons e rest ih =>
    simp only [List.foldl_cons]
    rw [ih]
    simp [UMap.keys]

theorem getAllKeys_eq_keys (c : Collection) : c.getAllKeys = UMap.keys c.m_key_vaue := by
  unfold Collection.getAllKeys
  rw [foldl_append_key]
  rfl

theorem setValueForKey_keyValues (c : Collection) (k v : String) :
    (c.setValueForKey k v).m_key_vaue = UMap.assign c.m_key_vaue k v := by
  unfold Collection.setValueForKey
  simp only []
  split_ifs <;> rfl

theorem removeValueForKey_keyValues (c : Collection) (k : String) :
    (c.removeValueForKey k).m_key_vaue = UMap.erase c.m_key_vaue k := by
  unfold Collection.removeValueForKey
  simp only []
  split_ifs <;> rfl

theorem setValueForKey_data (c : Collection) (k v : String) :
    (c.setValueForKey k v).m_data = c.m_data := by
  unfold Collection.setValueForKey
  simp only []
  split_ifs <;> rfl

theorem removeValueForKey_data (c : Collection) (k : String) :
    (c.removeValueForKey k).m_data = c.m_data := by
  unfold Collection.removeValueForKey
  simp only []
  split_ifs <;> rfl

/-- Loading key/values with `m[kv.key] = kv.value`: the last fetched value of a key wins. -/
theorem find_foldl_assign (keyValues : List StoredKeyValue) (m : UMap String) (k : String) :
    UMap.find (keyValues.foldl (fun m kv => UMap.assign m kv.key kv.value) m) k =
      match keyValues.reverse.find? (fun kv => decide (kv.key = k)) with
      | some kv => some kv.value
      | none => UMap.find m k := by
  induction keyValues using List.reverseRecOn with
  | nil => simp
  | append_singleton init last ih =>
    rw [List.foldl_append, List.reverse_append]
    simp only [List.foldl_cons, List.foldl_nil, List.reverse_cons, List.reverse_nil,
      List.nil_append, List.singleton_append, List.find?_cons]
    by_cases hk : last.key = k
    · simp only [hk, decide_True]
      exact UMap.find_assign_self _ _ _
    · simp only [hk, decide_False]
      rw [UMap.find_assign_of_ne _ _ (fun h => hk h.symm)]
      exact ih

theorem loadFromDisk_keyValues {c : Collection} (hst : c.m_storage = true)
    (rows : List StoredRecord) (keyValues : List StoredKeyValue) :
    (c.loadFromDisk rows keyValues).m_key_vaue =
      keyValues.foldl (fun m kv => UMap.assign m kv.key kv.value) [] := by
  unfold Collection.loadFromDisk
  rw [if_neg (not_not.2 hst)]
  simp only [foldl_insertInternal_keyValues]

theorem step_keyValue_none {c : Collection} {k : String}
    (h : UMap.find c.m_key_vaue k = none) (op : Op) (hop : op.setsKey k = false) :
    UMap.find (step c op).m_key_vaue k = none := by
  cases op with
  | insert timestamp key data =>
    simp only [step, Collection.insert, insertInternal_keyValues]; exact h
  | deleteRecord key ts => simp only [step, deleteRecord_keyValues]; exact h
  | deleteRecordsInRange key fromTs toTs =>
    simp only [step, deleteRecordsInRange_keyValues]; exact h
  | clearDocument key => simp only [step, (clearDocument_fields c key).2.2.1]; exact h
  | flushToDisk beginOk upsertOk commitOk => simp only [step, flushToDisk_keyValues]; exact h
  | loadFromDisk rows keyValues =>
    simp only [step]
    by_cases hst : c.m_storage = true
    · rw [loadFromDisk_keyValues hst, find_foldl_assign]
      have hnone : keyValues.reverse.find? (fun kv => decide (kv.key = k)) = none := by
        rw [List.find?_eq_none]
        intro x hx
        simp only [Op.setsKey, List.any_eq_false] at hop
        exact hop x (List.mem_reverse.1 hx)
      rw [hnone]
      rfl
    · rw [loadFromDisk_no_store (by simpa using hst)]; exact h
  | setValueForKey key value =>
    simp only [step, setValueForKey_keyValues]
    have hne : k ≠ key := by
      intro hk
      simp [Op.setsKey, hk] at hop
    rw [UMap.find_assign_of_ne _ _ hne]
    exact h
  | removeValueForKey key =>
    simp only [step, removeValueForKey_keyValues]
    by_cases hk : k = key
    · rw [hk]; exact UMap.find_erase_self _ _
    · rw [UMap.find_erase_of_ne _ hk]; exact h

theorem run_keyValue_none {c : Collection} {k : String}
    (h : UMap.find c.m_key_vaue k = none) (ops : List Op)
    (hops : ∀ op ∈ ops, op.setsKey k = false) :
    UMap.find (run c ops).m_key_vaue k = none := by
  induction ops generalizing c with
  | nil => exact h
  | cons op rest ih =>
    simp only [run, List.foldl_cons]
    exact ih (step_keyValue_none h op (hops op (List.mem_cons_self _ _)))
      (fun op1 h1 => hops op1 (List.mem_cons_of_mem _ h1))

theorem getValueForKey_of_find (c : Collection) (k : String) :
    c.getValueForKey k = (UMap.find c.m_key_vaue k).getD "" := by
  unfold Collection.getValueForKey
  cases UMap.find c.m_key_vaue k <;> rfl

/-! ## Replacing a record -/

theorem upsertSorted_filter {l : List DataRecord} (hs : StrictAsc l) (r : DataRecord) :
    Collection.upsertSorted (l.filter (fun x => decide (x.timestamp ≠ r.timestamp))) r =
      Collection.upsertSorted l r := by
  have hs1 : StrictAsc (l.filter (fun x => decide (x.timestamp ≠ r.timestamp))) :=
    strictAsc_of_sublist (List.filter_sublist l) hs
  apply strictAsc_ext (Collection.strictAsc_upsertSorted hs1 r)
    (Collection.strictAsc_upsertSorted hs r)
  intro x
  rw [Collection.mem_upsertSorted hs1, Collection.mem_upsertSorted hs, List.mem_filter]
  simp only [decide_eq_true_eq]
  tauto

theorem length_upsertSorted_hit {l : List DataRecord} (hs : StrictAsc l) (r : DataRecord)
    (h : ∃ x ∈ l, x.timestamp = r.timestamp) :
    (Collection.upsertSorted l r).length = l.length := by
  have hhit : ∃ y, l[lowerBound l r.timestamp]? = some y ∧ y.timestamp = r.timestamp := by
    by_contra hno
    obtain ⟨x, hx, hxt⟩ := h
    exact lowerBound_miss hs r.timestamp
      (fun y hy ht => hno ⟨y, hy, ht⟩) x hx hxt
  obtain ⟨y, hy, hyt⟩ := hhit
  unfold Collection.upsertSorted
  simp only [hy]
  rw [if_pos hyt, List.length_set]

/-! ## Loading rows in any order: the last row of a `(document, timestamp)` wins -/

theorem mem_foldl_insertInternal_last (rows : List StoredRecord) {c : Collection} (h : Inv c)
    (hc : c.m_data = []) (key : String) (r : DataRecord) :
    r ∈ (rows.foldl
      (fun acc record =>
        Collection.insertInternal acc record.timestamp record.document record.data false)
      c).document key ↔
      (r.isNew = false ∧
        rows.reverse.find?
            (fun row => decide (row.document = key ∧ row.timestamp = r.timestamp)) =
          some ⟨key, r.timestamp, r.data⟩) := by
  induction rows using List.reverseRecOn with
  | nil => simp [Collection.document, hc, UMap.find]
  | append_singleton init last ih =>
    have hS := Inv.foldl_insertInternal init h
    rw [List.foldl_append, List.reverse_append]
    simp only [List.foldl_cons, List.foldl_nil, List.reverse_cons, List.reverse_nil,
      List.nil_append, List.singleton_append]
    by_cases hk : last.document = key
    · subst hk
      rw [insertInternal_document_self hS, Collection.mem_upsertSorted (hS.document_sorted _)]
      by_cases ht : last.timestamp = r.timestamp
      · rw [List.find?_cons_of_pos _ (by simp [ht])]
        constructor
        · rintro (h1 | h1)
          · rw [h1]
            exact ⟨rfl, rfl⟩
          · exact absurd ht.symm h1.2
        · rintro ⟨h1, h2⟩
          left
          obtain ⟨rt, rd, rn⟩ := r
          obtain ⟨ld, lt, ldat⟩ := last
          simp only [Option.some.injEq, StoredRecord.mk.injEq] at h2
          simp only at h1
          simp only [DataRecord.mk.injEq]
          exact ⟨h2.2.1.symm, h2.2.2.symm, h1⟩
      · rw [List.find?_cons_of_neg _ (by simp [ht]), ← ih]
        constructor
        · rintro (h1 | h1)
          · rw [h1] at ht
            exact absurd rfl ht
          · exact h1.1
        · intro h1
          exact Or.inr ⟨h1, fun h2 => ht h2.symm⟩
    · rw [List.find?_cons_of_neg _ (by simp [hk]),
        insertInternal_document_other _ _ _ _ _ (fun h1 => hk h1.symm)]
      exact ih

theorem loadFromDisk_data {c : Collection} (hst : c.m_storage = true)
    (rows : List StoredRecord) (keyValues : List StoredKeyValue) :
    (c.loadFromDisk rows keyValues).m_data =
      (rows.foldl
        (fun acc record =>
          Collection.insertInternal acc record.timestamp record.document record.data false)
        ({ c with
            m_data := []
            m_key_vaue := []
            m_hasNewRecords := false
            storeCalls := c.storeCalls ++ [StoreCall.fetchRecords c.m_name] } :
          Collection)).m_data := by
  simp [Collection.loadFromDisk, hst]

theorem Inv.of_data_nil {c : Collection} (hc : c.m_data = []) : Inv c :=
  ⟨by simp [hc, UMap.keys], by simp [hc], by simp [hc], by simp [hc]⟩

theorem Inv.key_present_iff {c : Collection} (h : Inv c) (key : String) :
    (UMap.find c.m_data key).isSome ↔ ∃ r, r ∈ c.document key := by
  unfold Collection.document
  cases hf : UMap.find c.m_data key with
  | none => simp
  | some records =>
    simp only [Option.isSome_some, Option.getD_some, true_iff]
    exact List.exists_mem_of_ne_nil _ (h.find_ne_nil hf)

/-- Membership after a load: the records of document `key` are the clean copies of the
last fetched rows of each `(key, timestamp)`. -/
theorem mem_loadFromDisk {c : Collection} (hst : c.m_storage = true)
    (rows : List StoredRecord) (keyValues : List StoredKeyValue) (key : String)
    (r : DataRecord) :
    r ∈ (c.loadFromDisk rows keyValues).document key ↔
      (r.isNew = false ∧
        rows.reverse.find?
            (fun row => decide (row.document = key ∧ row.timestamp = r.timestamp)) =
          some ⟨key, r.timestamp, r.data⟩) := by
  rw [loadFromDisk_document hst]
  exact mem_foldl_insertInternal_last rows (Inv.of_data_nil rfl) rfl key r

/-- Some record of the loaded document has timestamp `t` exactly when some fetched row of
that document has. -/
theorem timestamp_mem_loadFromDisk {c : Collection} (hst : c.m_storage = true)
    (rows : List StoredRecord) (keyValues : List StoredKeyValue) (key : String) (t : Int) :
    (∃ r ∈ (c.loadFromDisk rows keyValues).document key, r.timestamp = t) ↔
      ∃ row ∈ rows, row.document = key ∧ row.timestamp = t := by
  constructor
  · rintro ⟨r, hr, ht⟩
    have h1 := ((mem_loadFromDisk hst rows keyValues key r).1 hr).2
    have h2 := List.mem_of_find?_eq_some h1
    exact ⟨_, List.mem_reverse.1 h2, rfl, ht⟩
  · rintro ⟨row, hrow, hd, ht⟩
    cases hf : rows.reverse.find?
        (fun x => decide (x.document = key ∧ x.timestamp = t)) with
    | none =>
      rw [List.find?_eq_none] at hf
      have := hf row (List.mem_reverse.2 hrow)
      simp [hd, ht] at this
    | some x =>
      have hx := List.find?_some hf
      simp only [decide_eq_true_eq] at hx
      refine ⟨⟨t, x.data, false⟩, ?_, rfl⟩
      rw [mem_loadFromDisk hst]
      refine ⟨rfl, ?_⟩
      simp only
      rw [hf]
      obtain ⟨xd, xt, xdat⟩ := x
      simp only at hx
      rw [hx.1, hx.2]

/-! ## When the aggregate marker is exact again -/

theorem hasNew_exact_reset {c : Collection} (h : Inv c)
    (hns : c.m_storage = false → c.m_hasNewRecords = false) (op : Op)
    (hop : op.recomputesMarker = true) :
    (step c op).m_hasNewRecords = true → hasDirtyRecord (step c op) := by
  cases op with
  | deleteRecord key ts => simp [Op.recomputesMarker] at hop
  | deleteRecordsInRange key fromTs toTs => simp [Op.recomputesMarker] at hop
  | clearDocument key => simp [Op.recomputesMarker] at hop
  | setValueForKey key value => simp [Op.recomputesMarker] at hop
  | removeValueForKey key => simp [Op.recomputesMarker] at hop
  | insert timestamp key data =>
    intro hnew
    simp only [step, Collection.insert] at hnew ⊢
    by_cases hst : c.m_storage = true
    · have hfind := insertInternal_find_self h timestamp key data c.m_storage
      refine ⟨_, UMap.find_some_mem hfind, ⟨timestamp, data, c.m_storage⟩, ?_, hst⟩
      exact (Collection.mem_upsertSorted (h.document_sorted key) _ _).2 (Or.inl rfl)
    · have hst1 : c.m_storage = false := by simpa using hst
      rw [insertInternal_hasNew h, hst1, hns hst1] at hnew
      cases hnew
  | loadFromDisk rows keyValues =>
    intro hnew
    simp only [step] at hnew
    by_cases hst : c.m_storage = true
    · rw [loadFromDisk_hasNew hst] at hnew
      cases hnew
    · have hst1 : c.m_storage = false := by simpa using hst
      rw [loadFromDisk_no_store hst1, hns hst1] at hnew
      cases hnew
  | flushToDisk beginOk upsertOk commitOk =>
    have hb : beginOk = true := by simpa [Op.recomputesMarker] using hop
    subst hb
    intro hnew
    simp only [step] at hnew ⊢
    by_cases hst : c.m_storage = true
    · by_cases hn : c.m_hasNewRecords = true
      · rw [(flushToDisk_main upsertOk commitOk hst hn).2.1] at hnew
        by_cases hk : (Collection.flushDocs c.m_name upsertOk c.m_data
            { upserts := 0, keepFlushing := false, calls := [] }).2.keepFlushing = true
        · rw [if_pos hk] at hnew
          obtain ⟨e, he, r, hr, hd⟩ := (Collection.anyNew_iff _).1 hnew
          refine ⟨e, ?_, r, hr, hd⟩
          rw [(flushToDisk_main upsertOk commitOk hst hn).1]
          exact he
        · rw [if_neg hk] at hnew
          cases hnew
      · have hn1 : c.m_hasNewRecords = false := by simpa using hn
        rw [flushToDisk_noop true upsertOk commitOk (Or.inr hn1), hn1] at hnew
        cases hnew
    · have hst1 : c.m_storage = false := by simpa using hst
      rw [flushToDisk_noop true upsertOk commitOk (Or.inl hst1), hns hst1] at hnew
      cases hnew

theorem step_hasNew_deletion (c : Collection) (op : Op) (hop : op.isDeletion = true) :
    (step c op).m_hasNewRecords = c.m_hasNewRecords := by
  cases op with
  | deleteRecord key ts => simp only [step, deleteRecord_hasNew]
  | deleteRecordsInRange key fromTs toTs => simp only [step, deleteRecordsInRange_hasNew]
  | clearDocument key => simp only [step, (clearDocument_fields c key).2.2.2.1]
  | insert timestamp key data => simp [Op.isDeletion] at hop
  | loadFromDisk rows keyValues => simp [Op.isDeletion] at hop
  | flushToDisk beginOk upsertOk commitOk => simp [Op.isDeletion] at hop
  | setValueForKey key value => simp [Op.isDeletion] at hop
  | removeValueForKey key => simp [Op.isDeletion] at hop

theorem run_new_hasNew_no_store (name : String) (ops : List Op) :
    (run (Collection.new name false) ops).m_hasNewRecords = false :=
  run_hasNew_no_store (c := Collection.new name false) rfl ops

/-- A flush on a store with a transaction pending writes nothing: `beginTransaction` is
refused and the store is left as it was. -/
theorem flushOn_pending (c : Collection) (s : SqliteStorage)
    (saved : List RecordRow × List KeyValueRow) (hp : s.pending = some saved) :
    (c.flushOn s).1.m_data = c.m_data ∧ (c.flushOn s).2 = s := by
  have hb := SqliteStorage.beginTransaction_pending s saved hp
  have hcalls := (flushToDisk_data_of_begin_failed c (fun _ => s.m_isOpen) s.m_isOpen)
  unfold Collection.flushOn
  simp only [hb]
  refine ⟨hcalls.1, ?_⟩
  rw [hcalls.2.2, List.drop_left]
  split_ifs
  · simp only [SqliteStorage.applyAll, List.foldl_cons, List.foldl_nil, SqliteStorage.apply, hb]
  · rfl

/-! ## Claims -/

/-- Claim C1: in every state reachable from the empty collection by public operations,
every document's record sequence is strictly ascending by timestamp, hence no two of its
records share a timestamp. -/
theorem sortedness_invariant (c : Collection) (h : Reachable c) (key : String) :
    StrictAsc (c.document key) ∧
      ((c.document key).map (fun r => r.timestamp)).Nodup ∧
      ∀ e ∈ c.m_data, StrictAsc e.2 :=
  ⟨(Inv.of_reachable h).document_sorted key,
   strictAsc_timestamps_nodup ((Inv.of_reachable h).document_sorted key),
   (Inv.of_reachable h).sorted⟩

theorem sortedness_invariant_witness :
    Reachable (run (Collection.new "c" true)
      [Op.insert 20 "a" "v2", Op.insert 10 "a" "v1", Op.insert 30 "a" "v3",
       Op.deleteRecord "a" 20, Op.flushToDisk true (fun _ => true) true,
       Op.insert 15 "a" "w", Op.loadFromDisk [⟨"a", 7, "x"⟩, ⟨"a", 3, "y"⟩] [],
       Op.deleteRecordsInRange "a" 0 1]) ∧
    (StrictAsc ((run (Collection.new "c" true)
      [Op.insert 20 "a" "v2", Op.insert 10 "a" "v1", Op.insert 30 "a" "v3",
       Op.deleteRecord "a" 20, Op.flushToDisk true (fun _ => true) true,
       Op.insert 15 "a" "w", Op.loadFromDisk [⟨"a", 7, "x"⟩, ⟨"a", 3, "y"⟩] [],
       Op.deleteRecordsInRange "a" 0 1]).document "a") ∧
     (((run (Collection.new "c" true)
      [Op.insert 20 "a" "v2", Op.insert 10 "a" "v1", Op.insert 30 "a" "v3",
       Op.deleteRecord "a" 20, Op.flushToDisk true (fun _ => true) true,
       Op.insert 15 "a" "w", Op.loadFromDisk [⟨"a", 7, "x"⟩, ⟨"a", 3, "y"⟩] [],
       Op.deleteRecordsInRange "a" 0 1]).document "a").map (fun r => r.timestamp)).Nodup ∧
     ∀ e ∈ (run (Collection.new "c" true)
      [Op.insert 20 "a" "v2", Op.insert 10 "a" "v1", Op.insert 30 "a" "v3",
       Op.deleteRecord "a" 20, Op.flushToDisk true (fun _ => true) true,
       Op.insert 15 "a" "w", Op.loadFromDisk [⟨"a", 7, "x"⟩, ⟨"a", 3, "y"⟩] [],
       Op.deleteRecordsInRange "a" 0 1]).m_data, StrictAsc e.2) :=
  ⟨reachable_run _ _ _, sortedness_invariant _ (reachable_run _ _ _) "a"⟩

/-- Claim C2: in every reachable state `getLatestRecordForDocument(key, t)` returns the
record of document `key` with the largest timestamp `≤ t`, and returns absent exactly when
the document does not exist or has no record with timestamp `≤ t`. -/
theorem getLatestRecordForDocument_correct (c : Collection) (h : Reachable c) (key : String)
    (t : Int) :
    (∀ r, c.getLatestRecordForDocument key t = some r ↔
      (r ∈ c.document key ∧ r.timestamp ≤ t ∧
        ∀ x ∈ c.document key, x.timestamp ≤ t → x.timestamp ≤ r.timestamp)) ∧
    (c.getLatestRecordForDocument key t = none ↔
      (UMap.find c.m_data key = none ∨ ∀ x ∈ c.document key, ¬ x.timestamp ≤ t)) := by
  have hs := (Inv.of_reachable h).document_sorted key
  rw [getLatest_eq]
  refine ⟨fun r => latest_spec hs t r, ?_⟩
  rw [latest_none hs]
  constructor
  · intro h1; exact Or.inr h1
  · rintro (h1 | h1)
    · rw [document_of_find_none h1]; simp
    · exact h1

theorem getLatestRecordForDocument_correct_witness :
    Reachable (run (Collection.new "c" false)
      [Op.insert 1 "a" "x1", Op.insert 5 "a" "x2", Op.insert 10 "a" "x3"]) ∧
    (run (Collection.new "c" false)
      [Op.insert 1 "a" "x1", Op.insert 5 "a" "x2", Op.insert 10 "a" "x3"]).getLatestRecordForDocument
        "a" 6 = some ⟨5, "x2", false⟩ ∧
    ((⟨5, "x2", false⟩ : DataRecord) ∈ (run (Collection.new "c" false)
      [Op.insert 1 "a" "x1", Op.insert 5 "a" "x2", Op.insert 10 "a" "x3"]).document "a" ∧
     (5 : Int) ≤ 6 ∧
     ∀ x ∈ (run (Collection.new "c" false)
      [Op.insert 1 "a" "x1", Op.insert 5 "a" "x2", Op.insert 10 "a" "x3"]).document "a",
       x.timestamp ≤ 6 → x.timestamp ≤ 5) :=
  ⟨reachable_run _ _ _, by decide,
   ((getLatestRecordForDocument_correct _ (reachable_run _ _ _) "a" 6).1 ⟨5, "x2", false⟩).1
     (by decide)⟩

/-- Claim C3: in every reachable state `getEarliestRecordForDocument(key, t)` returns the
record of document `key` with the smallest timestamp `≥ t`, and returns absent exactly when
no such record exists (in particular when the document does not exist). -/
theorem getEarliestRecordForDocument_correct (c : Collection) (h : Reachable c) (key : String)
    (t : Int) :
    (∀ r, c.getEarliestRecordForDocument key t = some r ↔
      (r ∈ c.document key ∧ t ≤ r.timestamp ∧
        ∀ x ∈ c.document key, t ≤ x.timestamp → r.timestamp ≤ x.timestamp)) ∧
    (c.getEarliestRecordForDocument key t = none ↔ ∀ x ∈ c.document key, ¬ t ≤ x.timestamp) ∧
    (UMap.find c.m_data key = none → c.getEarliestRecordForDocument key t = none) := by
  have hs := (Inv.of_reachable h).document_sorted key
  rw [getEarliest_eq]
  refine ⟨fun r => earliest_spec hs t r, earliest_none hs t, ?_⟩
  intro h1
  rw [document_of_find_none h1]
  rfl

theorem getEarliestRecordForDocument_correct_witness :
    Reachable (run (Collection.new "c" false)
      [Op.insert 1 "a" "x1", Op.insert 5 "a" "x2", Op.insert 10 "a" "x3"]) ∧
    (run (Collection.new "c" false)
      [Op.insert 1 "a" "x1", Op.insert 5 "a" "x2", Op.insert 10 "a" "x3"]).getEarliestRecordForDocument
        "a" 6 = some ⟨10, "x3", false⟩ ∧
    ((⟨10, "x3", false⟩ : DataRecord) ∈ (run (Collection.new "c" false)
      [Op.insert 1 "a" "x1", Op.insert 5 "a" "x2", Op.insert 10 "a" "x3"]).document "a" ∧
     (6 : Int) ≤ 10 ∧
     ∀ x ∈ (run (Collection.new "c" false)
      [Op.insert 1 "a" "x1", Op.insert 5 "a" "x2", Op.insert 10 "a" "x3"]).document "a",
       6 ≤ x.timestamp → 10 ≤ x.timestamp) ∧
    (run (Collection.new "c" false)
      [Op.insert 1 "a" "x1", Op.insert 5 "a" "x2", Op.insert 10 "a" "x3"]).getEarliestRecordForDocument
        "b" 6 = none :=
  ⟨reachable_run _ _ _, by decide,
   ((getEarliestRecordForDocument_correct _ (reachable_run _ _ _) "a" 6).1 ⟨10, "x3", false⟩).1
     (by decide),
   (getEarliestRecordForDocument_correct _ (reachable_run _ _ _) "b" 6).2.2 (by decide)⟩

/-- Claim C4: upsert postcondition. In every reachable state, after
`insert(t, key, payload)` document `key` contains a record with timestamp `t` and payload
`payload`, its set of timestamps is the old set plus `t`, its records with another
timestamp are unchanged, and every other document is unchanged. -/
theorem insert_upsert_postcondition (c : Collection) (h : Reachable c) (t : Int)
    (key payload : String) :
    (⟨t, payload, c.m_storage⟩ : DataRecord) ∈ (c.insert t key payload).document key ∧
    (∀ r ∈ (c.insert t key payload).document key, r.timestamp = t → r.data = payload) ∧
    (∀ x, x ∈ ((c.insert t key payload).document key).map (fun r => r.timestamp) ↔
      (x = t ∨ x ∈ (c.document key).map (fun r => r.timestamp))) ∧
    (∀ r, r.timestamp ≠ t →
      (r ∈ (c.insert t key payload).document key ↔ r ∈ c.document key)) ∧
    (∀ key1, key1 ≠ key →
      UMap.find (c.insert t key payload).m_data key1 = UMap.find c.m_data key1) := by
  have hinv := Inv.of_reachable h
  have hs := hinv.document_sorted key
  have hdoc : (c.insert t key payload).document key =
      Collection.upsertSorted (c.document key) ⟨t, payload, c.m_storage⟩ :=
    insertInternal_document_self hinv t key payload c.m_storage
  rw [hdoc]
  refine ⟨?_, ?_, ?_, ?_, ?_⟩
  · exact (Collection.mem_upsertSorted hs _ _).2 (Or.inl rfl)
  · intro r hr hrt
    rcases (Collection.mem_upsertSorted hs _ r).1 hr with h1 | h1
    · rw [h1]
    · exact absurd hrt h1.2
  · intro x
    simp only [List.mem_map, Collection.mem_upsertSorted hs]
    constructor
    · rintro ⟨r, h1 | h1, rfl⟩
      · left; rw [h1]
      · right; exact ⟨r, h1.1, rfl⟩
    · rintro (h1 | ⟨r, h1, rfl⟩)
      · exact ⟨⟨t, payload, c.m_storage⟩, Or.inl rfl, h1.symm⟩
      · by_cases h2 : r.timestamp = t
        · exact ⟨⟨t, payload, c.m_storage⟩, Or.inl rfl, h2.symm⟩
        · exact ⟨r, Or.inr ⟨h1, h2⟩, rfl⟩
  · intro r hr
    rw [Collection.mem_upsertSorted hs]
    constructor
    · rintro (h1 | h1)
      · rw [h1] at hr; exact absurd rfl hr
      · exact h1.1
    · intro h1
      exact Or.inr ⟨h1, hr⟩
  · intro key1 hk
    exact insertInternal_find_other c t key payload c.m_storage hk

theorem insert_upsert_postcondition_witness :
    Reachable (run (Collection.new "c" false) [Op.insert 10 "a" "v1", Op.insert 20 "a" "v2"]) ∧
    ((run (Collection.new "c" false)
        [Op.insert 10 "a" "v1", Op.insert 20 "a" "v2"]).insert 10 "a" "v1b").document "a" =
      [⟨10, "v1b", false⟩, ⟨20, "v2", false⟩] ∧
    (⟨10, "v1b", false⟩ : DataRecord) ∈ ((run (Collection.new "c" false)
        [Op.insert 10 "a" "v1", Op.insert 20 "a" "v2"]).insert 10 "a" "v1b").document "a" ∧
    ((⟨20, "v2", false⟩ : DataRecord) ∈ ((run (Collection.new "c" false)
        [Op.insert 10 "a" "v1", Op.insert 20 "a" "v2"]).insert 10 "a" "v1b").document "a" ↔
      (⟨20, "v2", false⟩ : DataRecord) ∈ (run (Collection.new "c" false)
        [Op.insert 10 "a" "v1", Op.insert 20 "a" "v2"]).document "a") ∧
    UMap.find ((run (Collection.new "c" false)
        [Op.insert 10 "a" "v1", Op.insert 20 "a" "v2"]).insert 10 "a" "v1b").m_data "b" =
      UMap.find (run (Collection.new "c" false)
        [Op.insert 10 "a" "v1", Op.insert 20 "a" "v2"]).m_data "b" :=
  ⟨reachable_run _ _ _, by decide,
   (insert_upsert_postcondition _ (reachable_run _ _ _) 10 "a" "v1b").1,
   (insert_upsert_postcondition _ (reachable_run _ _ _) 10 "a" "v1b").2.2.2.1
     ⟨20, "v2", false⟩ (by decide),
   (insert_upsert_postcondition _ (reachable_run _ _ _) 10 "a" "v1b").2.2.2.2 "b" (by decide)⟩

/-- Counterexample to claim C5 as stated: with a store attached, `insert(1, "a", "x")`
followed by `deleteRecord("a", 1)` reaches a state holding no record at all in which
`has_dirty` is still true. -/
theorem has_dirty_iff_counterexample :
    Reachable (run (Collection.new "c" true) [Op.insert 1 "a" "x", Op.deleteRecord "a" 1]) ∧
    (run (Collection.new "c" true)
      [Op.insert 1 "a" "x", Op.deleteRecord "a" 1]).m_data = [] ∧
    ¬ ((run (Collection.new "c" true)
        [Op.insert 1 "a" "x", Op.deleteRecord "a" 1]).m_hasNewRecords = true ↔
      hasDirtyRecord (run (Collection.new "c" true)
        [Op.insert 1 "a" "x", Op.deleteRecord "a" 1])) := by
  refine ⟨reachable_run _ _ _, by decide, ?_⟩
  intro hiff
  obtain ⟨e, he, _⟩ := hiff.1 (by decide)
  have hd : (run (Collection.new "c" true)
      [Op.insert 1 "a" "x", Op.deleteRecord "a" 1]).m_data = [] := by decide
  rw [hd] at he
  cases he

/-- Claim C5 (as amended): in every reachable state, if at least one record is dirty then
`has_dirty` is true. The converse holds in every state of a collection without a store,
and in every state in which no `deleteRecord`, `deleteRecordsInRange` or `clearDocument`
has been executed since construction or since the last `insert`, `loadFromDisk` or
`flushToDisk` whose `beginTransaction` succeeded (whatever was executed before that
operation, deletions included). The three deletions never change `has_dirty`, which is
how a deletion of the last dirty record leaves the marker true. -/
theorem has_dirty_invariant (name : String) (storage : Bool) (ops1 ops2 : List Op) :
    (hasDirtyRecord (run (Collection.new name storage) (ops1 ++ ops2)) →
      (run (Collection.new name storage) (ops1 ++ ops2)).m_hasNewRecords = true) ∧
    ((∀ op ∈ ops2, op.isDeletion = false) →
      (ops1 = [] ∨ storage = false ∨
        ∃ ops0 op, ops1 = ops0 ++ [op] ∧ op.recomputesMarker = true) →
      ((run (Collection.new name storage) (ops1 ++ ops2)).m_hasNewRecords = true ↔
        hasDirtyRecord (run (Collection.new name storage) (ops1 ++ ops2)))) ∧
    (∀ op, op.isDeletion = true →
      (step (run (Collection.new name storage) (ops1 ++ ops2)) op).m_hasNewRecords =
        (run (Collection.new name storage) (ops1 ++ ops2)).m_hasNewRecords) := by
  have hinv := Inv.run (Inv.new name storage) (ops1 ++ ops2)
  have hdirty : hasDirtyRecord (run (Collection.new name storage) (ops1 ++ ops2)) →
      (run (Collection.new name storage) (ops1 ++ ops2)).m_hasNewRecords = true := by
    rintro ⟨e, he, r, hr, hd⟩
    exact (hinv.dirty e he r hr hd).1
  refine ⟨hdirty, fun hops hreset => ⟨?_, hdirty⟩, fun op hop => step_hasNew_deletion _ op hop⟩
  rcases hreset with h1 | h1 | ⟨ops0, op, h1, hop⟩
  · subst h1
    rw [List.nil_append]
    refine hasNew_exact_run (Inv.new name storage) ?_ ops2 hops
    intro h
    simp [Collection.new] at h
  · subst h1
    intro h
    rw [run_new_hasNew_no_store] at h
    cases h
  · subst h1
    rw [run_append, run_append]
    have hstep : run (run (Collection.new name storage) ops0) [op] =
        step (run (Collection.new name storage) ops0) op := rfl
    rw [hstep]
    refine hasNew_exact_run (Inv.step (Inv.run (Inv.new name storage) ops0) op) ?_ ops2 hops
    refine hasNew_exact_reset (Inv.run (Inv.new name storage) ops0) ?_ op hop
    intro hst
    rw [run_new_storage] at hst
    subst hst
    exact run_new_hasNew_no_store name ops0

theorem has_dirty_invariant_witness :
    (∀ op ∈ [Op.setValueForKey "k" "v", Op.flushToDisk false (fun _ => true) true],
      op.isDeletion = false) ∧
    (∃ ops0 op, [Op.insert 1 "a" "x", Op.insert 2 "b" "y", Op.deleteRecord "a" 1,
        Op.flushToDisk true (fun _ => false) true] = ops0 ++ [op] ∧
      op.recomputesMarker = true) ∧
    hasDirtyRecord (run (Collection.new "c" true)
      ([Op.insert 1 "a" "x", Op.insert 2 "b" "y", Op.deleteRecord "a" 1,
        Op.flushToDisk true (fun _ => false) true] ++
       [Op.setValueForKey "k" "v", Op.flushToDisk false (fun _ => true) true])) ∧
    ((run (Collection.new "c" true)
      ([Op.insert 1 "a" "x", Op.insert 2 "b" "y", Op.deleteRecord "a" 1,
        Op.flushToDisk true (fun _ => false) true] ++
       [Op.setValueForKey "k" "v", Op.flushToDisk false (fun _ => true) true])).m_hasNewRecords
        = true ↔
     hasDirtyRecord (run (Collection.new "c" true)
      ([Op.insert 1 "a" "x", Op.insert 2 "b" "y", Op.deleteRecord "a" 1,
        Op.flushToDisk true (fun _ => false) true] ++
       [Op.setValueForKey "k" "v", Op.flushToDisk false (fun _ => true) true]))) :=
  ⟨by simp [Op.isDeletion],
   ⟨[Op.insert 1 "a" "x", Op.insert 2 "b" "y", Op.deleteRecord "a" 1],
    Op.flushToDisk true (fun _ => false) true, rfl, rfl⟩,
   ⟨("b", [⟨2, "y", true⟩]), by decide, ⟨2, "y", true⟩, by decide, rfl⟩,
   (has_dirty_invariant "c" true
      [Op.insert 1 "a" "x", Op.insert 2 "b" "y", Op.deleteRecord "a" 1,
        Op.flushToDisk true (fun _ => false) true]
      [Op.setValueForKey "k" "v", Op.flushToDisk false (fun _ => true) true]).2.1
     (by simp [Op.isDeletion])
     (Or.inr (Or.inr ⟨[Op.insert 1 "a" "x", Op.insert 2 "b" "y", Op.deleteRecord "a" 1],
        Op.flushToDisk true (fun _ => false) true, rfl, rfl⟩))⟩

/-- Claim C6: in every reachable state a document key is present in the document map
exactly when its record sequence is non-empty; no entry of the map holds an empty
sequence, and deleting the only record of a document removes its key. -/
theorem nonempty_document_invariant (c : Collection) (h : Reachable c) (key : String) :
    ((UMap.find c.m_data key).isSome ↔ c.document key ≠ []) ∧
    (∀ e ∈ c.m_data, e.2 ≠ []) ∧
    (∀ r, c.document key = [r] →
      UMap.find (c.deleteRecord key r.timestamp).m_data key = none) := by
  have hinv := Inv.of_reachable h
  refine ⟨?_, hinv.nonempty, ?_⟩
  · cases hf : UMap.find c.m_data key with
    | none => simp [document_of_find_none hf]
    | some records => simpa [document_of_find hf] using hinv.find_ne_nil hf
  · intro r hr
    cases hf : UMap.find c.m_data key with
    | none => rw [document_of_find_none hf] at hr; cases hr
    | some records =>
      rw [document_of_find hf] at hr
      subst hr
      simp [Collection.deleteRecord, hf, lowerBound, UMap.find_erase_self]

theorem nonempty_document_invariant_witness :
    Reachable (run (Collection.new "c" true)
      [Op.insert 1 "a" "x", Op.insert 2 "b" "y", Op.deleteRecord "a" 1]) ∧
    ((UMap.find (run (Collection.new "c" true)
      [Op.insert 1 "a" "x", Op.insert 2 "b" "y", Op.deleteRecord "a" 1]).m_data "b").isSome ↔
      (run (Collection.new "c" true)
        [Op.insert 1 "a" "x", Op.insert 2 "b" "y", Op.deleteRecord "a" 1]).document "b" ≠ []) ∧
    ((UMap.find (run (Collection.new "c" true)
      [Op.insert 1 "a" "x", Op.insert 2 "b" "y", Op.deleteRecord "a" 1]).m_data "a").isSome ↔
      (run (Collection.new "c" true)
        [Op.insert 1 "a" "x", Op.insert 2 "b" "y", Op.deleteRecord "a" 1]).document "a" ≠ []) ∧
    (run (Collection.new "c" true)
      [Op.insert 1 "a" "x", Op.insert 2 "b" "y", Op.deleteRecord "a" 1]).m_data =
      [("b", [⟨2, "y", true⟩])] ∧
    UMap.find ((run (Collection.new "c" true)
      [Op.insert 1 "a" "x", Op.insert 2 "b" "y", Op.deleteRecord "a" 1]).deleteRecord
        "b" 2).m_data "b" = none :=
  ⟨reachable_run _ _ _,
   (nonempty_document_invariant _ (reachable_run _ _ _) "b").1,
   (nonempty_document_invariant _ (reachable_run _ _ _) "a").1,
   by decide,
   (nonempty_document_invariant _ (reachable_run _ _ _) "b").2.2 ⟨2, "y", true⟩ (by decide)⟩

/-- Claim C7: in every reachable state, for `a ≤ b`,
`getAllRecordsForDocument(key, a, b, false, 0)` is exactly the list of the records of
document `key` with timestamp in `[a, b]`, in ascending timestamp order; it is empty when
`a > b` and when the document does not exist. -/
theorem getAllRecordsForDocument_range (c : Collection) (h : Reachable c) (key : String)
    (a b : Int) :
    (a ≤ b → c.getAllRecordsForDocument key a b false 0 =
      (c.document key).filter (fun r => decide (a ≤ r.timestamp ∧ r.timestamp ≤ b))) ∧
    StrictAsc (c.getAllRecordsForDocument key a b false 0) ∧
    (∀ r, r ∈ c.getAllRecordsForDocument key a b false 0 ↔
      (r ∈ c.document key ∧ a ≤ r.timestamp ∧ r.timestamp ≤ b)) ∧
    (a > b → c.getAllRecordsForDocument key a b false 0 = []) ∧
    (UMap.find c.m_data key = none → c.getAllRecordsForDocument key a b false 0 = []) := by
  have hinv := Inv.of_reachable h
  have hf := getAllRecordsForDocument_filter hinv key a b
  refine ⟨fun _ => hf, ?_, ?_, ?_, ?_⟩
  · rw [hf]
    exact strictAsc_of_sublist (List.filter_sublist _) (hinv.document_sorted key)
  · intro r
    rw [hf, List.mem_filter]
    simp
  · intro h0
    rw [getAllRecordsForDocument_base, if_pos h0]
  · intro h1
    simp [Collection.getAllRecordsForDocument, h1]

theorem getAllRecordsForDocument_range_witness :
    Reachable (run (Collection.new "c" false)
      [Op.insert 3 "a" "r", Op.insert 1 "a" "p", Op.insert 4 "a" "s", Op.insert 2 "a" "q"]) ∧
    (2 : Int) ≤ 3 ∧
    (run (Collection.new "c" false)
      [Op.insert 3 "a" "r", Op.insert 1 "a" "p", Op.insert 4 "a" "s",
       Op.insert 2 "a" "q"]).getAllRecordsForDocument "a" 2 3 false 0 =
      ((run (Collection.new "c" false)
        [Op.insert 3 "a" "r", Op.insert 1 "a" "p", Op.insert 4 "a" "s",
         Op.insert 2 "a" "q"]).document "a").filter
        (fun r => decide (2 ≤ r.timestamp ∧ r.timestamp ≤ 3)) ∧
    (run (Collection.new "c" false)
      [Op.insert 3 "a" "r", Op.insert 1 "a" "p", Op.insert 4 "a" "s",
       Op.insert 2 "a" "q"]).getAllRecordsForDocument "a" 2 3 false 0 =
      [⟨2, "q", false⟩, ⟨3, "r", false⟩] ∧
    (run (Collection.new "c" false)
      [Op.insert 3 "a" "r", Op.insert 1 "a" "p", Op.insert 4 "a" "s",
       Op.insert 2 "a" "q"]).getAllRecordsForDocument "a" 3 2 false 0 = [] ∧
    (run (Collection.new "c" false)
      [Op.insert 3 "a" "r", Op.insert 1 "a" "p", Op.insert 4 "a" "s",
       Op.insert 2 "a" "q"]).getAllRecordsForDocument "b" 2 3 false 0 = [] :=
  ⟨reachable_run _ _ _, by decide,
   (getAllRecordsForDocument_range _ (reachable_run _ _ _) "a" 2 3).1 (by decide),
   by decide,
   (getAllRecordsForDocument_range _ (reachable_run _ _ _) "a" 3 2).2.2.2.1 (by decide),
   (getAllRecordsForDocument_range _ (reachable_run _ _ _) "b" 2 3).2.2.2.2 (by decide)⟩

/-- Claim C8 (as amended): in every reachable state, for a limit `n > 0`,
`getAllRecordsForDocument(key, a, b, true, n)` is the last `min(n, count)` records of the
range `[a, b]` in descending timestamp order, `count` being the number of records of the
document in the range; for `n ≤ 0` it is the whole range in descending order. -/
theorem getAllRecordsForDocument_reverse_limit (c : Collection) (h : Reachable c)
    (key : String) (a b n : Int) :
    (0 < n → c.getAllRecordsForDocument key a b true n =
      (((c.document key).filter (fun r => decide (a ≤ r.timestamp ∧ r.timestamp ≤ b))).drop
        (((c.document key).filter
            (fun r => decide (a ≤ r.timestamp ∧ r.timestamp ≤ b))).length -
          min n.toNat ((c.document key).filter
            (fun r => decide (a ≤ r.timestamp ∧ r.timestamp ≤ b))).length)).reverse) ∧
    (0 < n → (c.getAllRecordsForDocument key a b true n).length =
      min n.toNat ((c.document key).filter
        (fun r => decide (a ≤ r.timestamp ∧ r.timestamp ≤ b))).length) ∧
    (n ≤ 0 → c.getAllRecordsForDocument key a b true n =
      ((c.document key).filter
        (fun r => decide (a ≤ r.timestamp ∧ r.timestamp ≤ b))).reverse) := by
  have hinv := Inv.of_reachable h
  have hf := getAllRecordsForDocument_filter hinv key a b
  rw [getAllRecordsForDocument_post, hf]
  simp only [if_true]
  generalize (c.document key).filter
    (fun r => decide (a ≤ r.timestamp ∧ r.timestamp ≤ b)) = range
  have key1 : 0 < n →
      (if n > 0 ∧ ((range.reverse.length : Nat) : Int) > n then range.reverse.take n.toNat
        else range.reverse) = (range.drop (range.length - min n.toNat range.length)).reverse := by
    intro hn
    by_cases hlen : ((range.reverse.length : Nat) : Int) > n
    · rw [if_pos ⟨hn, hlen⟩, List.take_reverse]
      rw [List.length_reverse] at hlen
      have : range.length - n.toNat = range.length - min n.toNat range.length := by omega
      rw [this]
    · have hnot : ¬ (n > 0 ∧ ((range.reverse.length : Nat) : Int) > n) := fun hh => hlen hh.2
      rw [if_neg hnot]
      rw [List.length_reverse] at hlen
      have : range.length - min n.toNat range.length = 0 := by omega
      rw [this, List.drop_zero]
  refine ⟨key1, ?_, ?_⟩
  · intro hn
    rw [key1 hn, List.length_reverse, List.length_drop]
    omega
  · intro hn
    have hnot : ¬ (n > 0 ∧ ((range.reverse.length : Nat) : Int) > n) := fun hh => by omega
    rw [if_neg hnot]

theorem getAllRecordsForDocument_reverse_limit_witness :
    Reachable (run (Collection.new "c" false)
      [Op.insert 1 "a" "p", Op.insert 2 "a" "q", Op.insert 3 "a" "r", Op.insert 4 "a" "s"]) ∧
    (0 : Int) < 2 ∧
    (run (Collection.new "c" false)
      [Op.insert 1 "a" "p", Op.insert 2 "a" "q", Op.insert 3 "a" "r",
       Op.insert 4 "a" "s"]).document "a" =
      [⟨1, "p", false⟩, ⟨2, "q", false⟩, ⟨3, "r", false⟩, ⟨4, "s", false⟩] ∧
    (run (Collection.new "c" false)
      [Op.insert 1 "a" "p", Op.insert 2 "a" "q", Op.insert 3 "a" "r",
       Op.insert 4 "a" "s"]).getAllRecordsForDocument "a" 1 4 true 2 =
      [⟨4, "s", false⟩, ⟨3, "r", false⟩] ∧
    (run (Collection.new "c" false)
      [Op.insert 1 "a" "p", Op.insert 2 "a" "q", Op.insert 3 "a" "r",
       Op.insert 4 "a" "s"]).getAllRecordsForDocument "a" 1 4 true 2 =
      ((((run (Collection.new "c" false)
        [Op.insert 1 "a" "p", Op.insert 2 "a" "q", Op.insert 3 "a" "r",
         Op.insert 4 "a" "s"]).document "a").filter
          (fun r => decide (1 ≤ r.timestamp ∧ r.timestamp ≤ 4))).drop
        ((((run (Collection.new "c" false)
          [Op.insert 1 "a" "p", Op.insert 2 "a" "q", Op.insert 3 "a" "r",
           Op.insert 4 "a" "s"]).document "a").filter
            (fun r => decide (1 ≤ r.timestamp ∧ r.timestamp ≤ 4))).length -
          min (2 : Int).toNat (((run (Collection.new "c" false)
            [Op.insert 1 "a" "p", Op.insert 2 "a" "q", Op.insert 3 "a" "r",
             Op.insert 4 "a" "s"]).document "a").filter
              (fun r => decide (1 ≤ r.timestamp ∧ r.timestamp ≤ 4))).length)).reverse ∧
    ((run (Collection.new "c" false)
      [Op.insert 1 "a" "p", Op.insert 2 "a" "q", Op.insert 3 "a" "r",
       Op.insert 4 "a" "s"]).getAllRecordsForDocument "a" 1 4 true 2).length =
      min (2 : Int).toNat (((run (Collection.new "c" false)
        [Op.insert 1 "a" "p", Op.insert 2 "a" "q", Op.insert 3 "a" "r",
         Op.insert 4 "a" "s"]).document "a").filter
          (fun r => decide (1 ≤ r.timestamp ∧ r.timestamp ≤ 4))).length ∧
    (run (Collection.new "c" false)
      [Op.insert 1 "a" "p", Op.insert 2 "a" "q", Op.insert 3 "a" "r",
       Op.insert 4 "a" "s"]).getAllRecordsForDocument "a" 1 4 true 0 =
      (((run (Collection.new "c" false)
        [Op.insert 1 "a" "p", Op.insert 2 "a" "q", Op.insert 3 "a" "r",
         Op.insert 4 "a" "s"]).document "a").filter
          (fun r => decide (1 ≤ r.timestamp ∧ r.timestamp ≤ 4))).reverse :=
  ⟨reachable_run _ _ _, by decide, by decide, by decide,
   (getAllRecordsForDocument_reverse_limit _ (reachable_run _ _ _) "a" 1 4 2).1 (by decide),
   (getAllRecordsForDocument_reverse_limit _ (reachable_run _ _ _) "a" 1 4 2).2.1 (by decide),
   (getAllRecordsForDocument_reverse_limit _ (reachable_run _ _ _) "a" 1 4 0).2.2 (by decide)⟩

/-- Counterexample to claim C8 as stated (every limit `n`): with document "a" holding
timestamps 1..4 and limit `n = 0`, the call returns all four records of the range, not
the last `min(0, 4) = 0` of them. -/
theorem getAllRecordsForDocument_limit_zero_counterexample :
    Reachable (run (Collection.new "c" false)
      [Op.insert 1 "a" "p", Op.insert 2 "a" "q", Op.insert 3 "a" "r", Op.insert 4 "a" "s"]) ∧
    (run (Collection.new "c" false)
      [Op.insert 1 "a" "p", Op.insert 2 "a" "q", Op.insert 3 "a" "r",
       Op.insert 4 "a" "s"]).getAllRecordsForDocument "a" 1 4 true 0 =
      [⟨4, "s", false⟩, ⟨3, "r", false⟩, ⟨2, "q", false⟩, ⟨1, "p", false⟩] ∧
    (((run (Collection.new "c" false)
      [Op.insert 1 "a" "p", Op.insert 2 "a" "q", Op.insert 3 "a" "r",
       Op.insert 4 "a" "s"]).document "a").filter
        (fun r => decide (1 ≤ r.timestamp ∧ r.timestamp ≤ 4))).length = 4 ∧
    ((run (Collection.new "c" false)
      [Op.insert 1 "a" "p", Op.insert 2 "a" "q", Op.insert 3 "a" "r",
       Op.insert 4 "a" "s"]).getAllRecordsForDocument "a" 1 4 true 0).length ≠
      (min (0 : Int) 4).toNat :=
  ⟨reachable_run _ _ _, by decide, by decide, by decide⟩

/-- Claim C9: limit and reverse compose as select, then reverse, then truncate. For every
state and all arguments, the result equals the `limit = 0` result for the same reverse
flag, truncated to its first `limit` elements when `limit > 0` and unchanged when
`limit ≤ 0`; and the `reverse = true`, `limit = 0` result is the list reversal of the
`reverse = false`, `limit = 0` result. -/
theorem getAllRecordsForDocument_limit_reverse (c : Collection) (key : String)
    (fromTs toTs : Int) (reverse : Bool) (limit : Int) :
    c.getAllRecordsForDocument key fromTs toTs reverse limit =
      (if limit > 0 then (c.getAllRecordsForDocument key fromTs toTs reverse 0).take limit.toNat
        else c.getAllRecordsForDocument key fromTs toTs reverse 0) ∧
    c.getAllRecordsForDocument key fromTs toTs true 0 =
      (c.getAllRecordsForDocument key fromTs toTs false 0).reverse := by
  have h0 : ∀ rev : Bool, c.getAllRecordsForDocument key fromTs toTs rev 0 =
      if rev then (c.getAllRecordsForDocument key fromTs toTs false 0).reverse
      else c.getAllRecordsForDocument key fromTs toTs false 0 := by
    intro rev
    rw [getAllRecordsForDocument_post c key fromTs toTs rev 0]
    simp
  refine ⟨?_, by rw [h0 true]; simp⟩
  rw [h0 reverse, getAllRecordsForDocument_post c key fromTs toTs reverse limit]
  generalize (if reverse then (c.getAllRecordsForDocument key fromTs toTs false 0).reverse
      else c.getAllRecordsForDocument key fromTs toTs false 0) = res
  by_cases hl : limit > 0
  · rw [if_pos hl]
    by_cases hlen : ((res.length : Nat) : Int) > limit
    · rw [if_pos ⟨hl, hlen⟩]
    · have hnot : ¬ (limit > 0 ∧ ((res.length : Nat) : Int) > limit) := fun hh => hlen hh.2
      rw [if_neg hnot]
      symm
      apply List.take_of_length_le
      omega
  · have hnot : ¬ (limit > 0 ∧ ((res.length : Nat) : Int) > limit) := fun hh => hl hh.1
    rw [if_neg hnot, if_neg hl]

/-- Claim C10: point-in-time snapshot. In every reachable state,
`getAllRecords(at, "", from, absent)` maps key `k` to record `r` exactly when `r` is the
record of document `k` with the largest timestamp `≤ at` and `from == 0` or
`r.timestamp ≥ from`; every key occurs at most once in the result. -/
theorem getAllRecords_snapshot (c : Collection) (h : Reachable c) (atTs fromTs : Int)
    (k : String) (r : DataRecord) :
    (UMap.find (c.getAllRecords atTs "" fromTs none) k = some r ↔
      (r ∈ c.document k ∧ r.timestamp ≤ atTs ∧
        (∀ x ∈ c.document k, x.timestamp ≤ atTs → x.timestamp ≤ r.timestamp) ∧
        (fromTs = 0 ∨ r.timestamp ≥ fromTs))) ∧
    (UMap.keys (c.getAllRecords atTs "" fromTs none)).Nodup := by
  have hinv := Inv.of_reachable h
  rw [getAllRecords_all]
  refine ⟨?_, keys_foldl_snapshotInsert_nodup atTs fromTs _ _ List.nodup_nil⟩
  rw [find_foldl_snapshotInsert atTs fromTs k c.m_data hinv.nodup []]
  have hspec := latest_spec (hinv.document_sorted k) atTs
  cases hf : UMap.find c.m_data k with
  | none =>
    simp [document_of_find_none hf, UMap.find]
  | some records =>
    rw [document_of_find hf] at hspec
    rw [document_of_find hf]
    simp only [Option.some_bind, UMap.find]
    cases hlast : (records.take (upperBound records atTs)).getLast? with
    | none =>
      simp only [Option.filter]
      constructor
      · intro h1; cases h1
      · rintro ⟨h1, h2, h3, _⟩
        have := (hspec r).2 ⟨h1, h2, h3⟩
        rw [hlast] at this
        cases this
    | some r1 =>
      by_cases hfrom : fromTs = 0 ∨ r1.timestamp ≥ fromTs
      · simp only [Option.filter, hfrom, decide_True, if_true]
        constructor
        · intro h1
          simp only [Option.some.injEq] at h1
          subst h1
          obtain ⟨h1, h2, h3⟩ := (hspec r1).1 hlast
          exact ⟨h1, h2, h3, hfrom⟩
        · rintro ⟨h1, h2, h3, _⟩
          have := (hspec r).2 ⟨h1, h2, h3⟩
          rw [hlast] at this
          exact this
      · simp only [Option.filter, hfrom, decide_False, Bool.false_eq_true, if_false]
        constructor
        · intro h1; cases h1
        · rintro ⟨h1, h2, h3, h4⟩
          have := (hspec r).2 ⟨h1, h2, h3⟩
          rw [hlast] at this
          simp only [Option.some.injEq] at this
          subst this
          exact absurd h4 hfrom

theorem getAllRecords_snapshot_witness :
    Reachable (run (Collection.new "c" false)
      [Op.insert 1 "a" "x1", Op.insert 5 "a" "x2", Op.insert 10 "a" "x3",
       Op.insert 2 "b" "y1", Op.insert 8 "b" "y2"]) ∧
    (run (Collection.new "c" false)
      [Op.insert 1 "a" "x1", Op.insert 5 "a" "x2", Op.insert 10 "a" "x3",
       Op.insert 2 "b" "y1", Op.insert 8 "b" "y2"]).getAllRecords 6 "" 0 none =
      [("a", ⟨5, "x2", false⟩), ("b", ⟨2, "y1", false⟩)] ∧
    ((⟨5, "x2", false⟩ : DataRecord) ∈ (run (Collection.new "c" false)
      [Op.insert 1 "a" "x1", Op.insert 5 "a" "x2", Op.insert 10 "a" "x3",
       Op.insert 2 "b" "y1", Op.insert 8 "b" "y2"]).document "a" ∧
     (5 : Int) ≤ 6 ∧
     (∀ x ∈ (run (Collection.new "c" false)
      [Op.insert 1 "a" "x1", Op.insert 5 "a" "x2", Op.insert 10 "a" "x3",
       Op.insert 2 "b" "y1", Op.insert 8 "b" "y2"]).document "a",
       x.timestamp ≤ 6 → x.timestamp ≤ 5) ∧
     ((0 : Int) = 0 ∨ (5 : Int) ≥ 0)) :=
  ⟨reachable_run _ _ _, by decide,
   ((getAllRecords_snapshot _ (reachable_run _ _ _) 6 0 "a" ⟨5, "x2", false⟩).1).1
     (by decide)⟩

/-- Claim C11: conjunctive filter in `getAllRecords`. In every state (the document map
having unique keys), when the regex is valid and `key_filter` is non-empty, the result
equals `getAllRecords(at, key_filter, from, absent)` if `key_filter` matches the regex and
is empty otherwise, so a key `k` occurs in it only if `k == key_filter` and `k` matches;
with an absent regex and a non-empty `key_filter` only that exact key can occur. -/
theorem getAllRecords_conjunctive_filter (c : Collection) (hn : (UMap.keys c.m_data).Nodup)
    (atTs : Int) (key : String) (fromTs : Int) (re : QRegularExpression)
    (hv : re.isValid = true) (hk : key.isEmpty = false) :
    (c.getAllRecords atTs key fromTs (some re) =
      if re.hasMatch key = true then c.getAllRecords atTs key fromTs none else []) ∧
    (∀ k ∈ UMap.keys (c.getAllRecords atTs key fromTs (some re)),
      k = key ∧ re.hasMatch k = true) ∧
    (∀ k ∈ UMap.keys (c.getAllRecords atTs key fromTs none), k = key) := by
  have hnone : ∀ k ∈ UMap.keys (c.getAllRecords atTs key fromTs none), k = key := by
    rw [getAllRecords_key_only c atTs key fromTs hk]
    cases hf : UMap.find c.m_data key with
    | none => intro k h1; simp [UMap.keys] at h1
    | some records => exact keys_snapshotInsert_nil key records atTs fromTs
  have heq : c.getAllRecords atTs key fromTs (some re) =
      if re.hasMatch key = true then c.getAllRecords atTs key fromTs none else [] := by
    rw [getAllRecords_valid_regex c atTs key fromTs re hv]
    by_cases hm : re.hasMatch key = true
    · rw [if_pos hm, foldl_regex_key_select re key atTs fromTs hm hk c.m_data hn [],
        getAllRecords_key_only c atTs key fromTs hk]
    · rw [if_neg hm]
      apply foldl_regex_key_skip
      intro e _
      by_cases h1 : re.hasMatch e.1 = false
      · exact Or.inl h1
      · refine Or.inr ⟨hk, fun h2 => hm ?_⟩
        rw [← h2]
        simpa using h1
  refine ⟨heq, ?_, hnone⟩
  intro k hmem
  rw [heq] at hmem
  by_cases hm : re.hasMatch key = true
  · rw [if_pos hm] at hmem
    have := hnone k hmem
    exact ⟨this, by rw [this]; exact hm⟩
  · rw [if_neg hm] at hmem
    simp [UMap.keys] at hmem

theorem getAllRecords_conjunctive_filter_witness :
    (UMap.keys (run (Collection.new "c" false)
      [Op.insert 1 "a" "x1", Op.insert 5 "a" "x2", Op.insert 2 "b" "y1"]).m_data).Nodup ∧
    (run (Collection.new "c" false)
      [Op.insert 1 "a" "x1", Op.insert 5 "a" "x2", Op.insert 2 "b" "y1"]).getAllRecords
        6 "a" 0 (some ⟨true, fun s => decide (s = "a")⟩) =
      [("a", ⟨5, "x2", false⟩)] ∧
    (run (Collection.new "c" false)
      [Op.insert 1 "a" "x1", Op.insert 5 "a" "x2", Op.insert 2 "b" "y1"]).getAllRecords
        6 "a" 0 (some ⟨true, fun s => decide (s = "b")⟩) = [] ∧
    (run (Collection.new "c" false)
      [Op.insert 1 "a" "x1", Op.insert 5 "a" "x2", Op.insert 2 "b" "y1"]).getAllRecords
        6 "a" 0 (some ⟨true, fun s => decide (s = "a")⟩) =
      (if (decide ("a" = "a")) = true then
        (run (Collection.new "c" false)
          [Op.insert 1 "a" "x1", Op.insert 5 "a" "x2", Op.insert 2 "b" "y1"]).getAllRecords
            6 "a" 0 none
       else []) :=
  ⟨by decide, by decide, by decide,
   (getAllRecords_conjunctive_filter _ (by decide) 6 "a" 0
     ⟨true, fun s => decide (s = "a")⟩ rfl (by decide)).1⟩

/-- Claim C12: an invalid regex is treated as absent. For every state and all other
arguments, `getAllRecords` and `getAllValues` with a supplied but invalid regex return
what they return with an absent regex; `getAllValues(absent)` is the whole side-table and
`getAllValues` with a valid regex is exactly the pairs whose key matches (the side-table
having unique keys). -/
theorem invalid_regex_is_absent (c : Collection) (atTs : Int) (key : String) (fromTs : Int)
    (re : QRegularExpression) :
    (re.isValid = false →
      c.getAllRecords atTs key fromTs (some re) = c.getAllRecords atTs key fromTs none) ∧
    (re.isValid = false → c.getAllValues (some re) = c.getAllValues none) ∧
    ((UMap.keys c.m_key_vaue).Nodup → c.getAllValues none = c.m_key_vaue) ∧
    ((UMap.keys c.m_key_vaue).Nodup → re.isValid = true →
      c.getAllValues (some re) = c.m_key_vaue.filter (fun e => re.hasMatch e.1)) :=
  ⟨getAllRecords_invalid_regex c atTs key fromTs re, getAllValues_invalid_regex c re,
   getAllValues_none c, fun hn hv => getAllValues_valid c hn re hv⟩

theorem invalid_regex_is_absent_witness :
    (run (Collection.new "c" false)
      [Op.insert 1 "a" "x1", Op.insert 2 "b" "y1", Op.setValueForKey "k1" "v1",
       Op.setValueForKey "k2" "v2"]).getAllRecords 6 "" 0 (some ⟨false, fun _ => false⟩) =
      (run (Collection.new "c" false)
        [Op.insert 1 "a" "x1", Op.insert 2 "b" "y1", Op.setValueForKey "k1" "v1",
         Op.setValueForKey "k2" "v2"]).getAllRecords 6 "" 0 none ∧
    (run (Collection.new "c" false)
      [Op.insert 1 "a" "x1", Op.insert 2 "b" "y1", Op.setValueForKey "k1" "v1",
       Op.setValueForKey "k2" "v2"]).getAllValues (some ⟨false, fun _ => false⟩) =
      (run (Collection.new "c" false)
        [Op.insert 1 "a" "x1", Op.insert 2 "b" "y1", Op.setValueForKey "k1" "v1",
         Op.setValueForKey "k2" "v2"]).getAllValues none ∧
    (run (Collection.new "c" false)
      [Op.insert 1 "a" "x1", Op.insert 2 "b" "y1", Op.setValueForKey "k1" "v1",
       Op.setValueForKey "k2" "v2"]).getAllValues none = [("k1", "v1"), ("k2", "v2")] ∧
    (run (Collection.new "c" false)
      [Op.insert 1 "a" "x1", Op.insert 2 "b" "y1", Op.setValueForKey "k1" "v1",
       Op.setValueForKey "k2" "v2"]).getAllValues (some ⟨true, fun s => decide (s = "k2")⟩) =
      [("k2", "v2")] ∧
    (run (Collection.new "c" false)
      [Op.insert 1 "a" "x1", Op.insert 2 "b" "y1", Op.setValueForKey "k1" "v1",
       Op.setValueForKey "k2" "v2"]).getAllValues (some ⟨true, fun s => decide (s = "k2")⟩) =
      (run (Collection.new "c" false)
        [Op.insert 1 "a" "x1", Op.insert 2 "b" "y1", Op.setValueForKey "k1" "v1",
         Op.setValueForKey "k2" "v2"]).m_key_vaue.filter
        (fun e => (fun s => decide (s = "k2")) e.1) :=
  ⟨(invalid_regex_is_absent _ 6 "" 0 ⟨false, fun _ => false⟩).1 rfl,
   (invalid_regex_is_absent _ 6 "" 0 ⟨false, fun _ => false⟩).2.1 rfl,
   ((invalid_regex_is_absent (run (Collection.new "c" false)
        [Op.insert 1 "a" "x1", Op.insert 2 "b" "y1", Op.setValueForKey "k1" "v1",
         Op.setValueForKey "k2" "v2"]) 6 "" 0 ⟨false, fun _ => false⟩).2.2.1
      (by decide)).trans (by decide),
   by decide,
   (invalid_regex_is_absent _ 6 "" 0 ⟨true, fun s => decide (s = "k2")⟩).2.2.2
     (by decide) rfl⟩

/-- Claim C13: in every reachable state `getSessionData(from, to)` maps key `k` to a list
`l` exactly when `l` is the non-empty ascending list of the records of document `k` with
timestamp in `[from, to]`; a document with no record in the interval is not a key of the
result, no key occurs twice, and the result is empty when `from > to`. -/
theorem getSessionData_correct (c : Collection) (h : Reachable c) (fromTs toTs : Int) :
    (∀ k l, UMap.find (c.getSessionData fromTs toTs) k = some l ↔
      (l = (c.document k).filter
          (fun r => decide (fromTs ≤ r.timestamp ∧ r.timestamp ≤ toTs)) ∧ l ≠ [])) ∧
    (∀ k l, UMap.find (c.getSessionData fromTs toTs) k = some l → StrictAsc l) ∧
    (UMap.keys (c.getSessionData fromTs toTs)).Nodup ∧
    (fromTs > toTs → c.getSessionData fromTs toTs = []) := by
  have hinv := Inv.of_reachable h
  have hfind : ∀ k l, UMap.find (c.getSessionData fromTs toTs) k = some l ↔
      (l = (c.document k).filter
          (fun r => decide (fromTs ≤ r.timestamp ∧ r.timestamp ≤ toTs)) ∧ l ≠ []) := by
    intro k l
    rw [getSessionData_eq, find_foldl_session
      (fun records => if fromTs > toTs then []
        else (records.take (upperBound records toTs)).drop (lowerBound records fromTs))
      k c.m_data hinv.nodup []]
    cases hf : UMap.find c.m_data k with
    | none =>
      simp only [UMap.find, document_of_find_none hf, List.filter_nil]
      constructor
      · intro h1; cases h1
      · rintro ⟨h1, h2⟩; exact absurd h1 h2
    | some records =>
      have hsel : (if fromTs > toTs then []
          else (records.take (upperBound records toTs)).drop (lowerBound records fromTs)) =
          records.filter (fun r => decide (fromTs ≤ r.timestamp ∧ r.timestamp ≤ toTs)) := by
        rw [take_drop_bounds_eq_filter (hinv.find_sorted hf)]
        by_cases h0 : fromTs > toTs
        · rw [if_pos h0, filter_range_empty_of_gt records h0]
        · rw [if_neg h0]
      simp only [hsel, UMap.find, document_of_find hf, Option.getD_none, List.nil_append]
      by_cases he : records.filter
          (fun r => decide (fromTs ≤ r.timestamp ∧ r.timestamp ≤ toTs)) = []
      · rw [if_pos he]
        constructor
        · intro h1; cases h1
        · rintro ⟨h1, h2⟩; rw [h1] at h2; exact absurd he h2
      · rw [if_neg he]
        constructor
        · intro h1
          simp only [Option.some.injEq] at h1
          rw [← h1]
          exact ⟨rfl, he⟩
        · rintro ⟨h1, _⟩
          rw [h1]
  refine ⟨hfind, ?_, ?_, ?_⟩
  · intro k l hl
    rw [((hfind k l).1 hl).1]
    exact strictAsc_of_sublist (List.filter_sublist _) (hinv.document_sorted k)
  · rw [getSessionData_eq]
    exact keys_foldl_session_nodup
      (fun records => if fromTs > toTs then []
        else (records.take (upperBound records toTs)).drop (lowerBound records fromTs))
      c.m_data [] List.nodup_nil
  · intro h0
    rw [getSessionData_eq]
    simp only [h0, if_true, List.foldl_nil]
    induction c.m_data with
    | nil => rfl
    | cons e rest ih => simp [ih]

theorem getSessionData_correct_witness :
    Reachable (run (Collection.new "c" false)
      [Op.insert 1 "a" "p", Op.insert 2 "a" "q", Op.insert 3 "a" "r", Op.insert 9 "b" "z"]) ∧
    (run (Collection.new "c" false)
      [Op.insert 1 "a" "p", Op.insert 2 "a" "q", Op.insert 3 "a" "r",
       Op.insert 9 "b" "z"]).getSessionData 2 3 =
      [("a", [⟨2, "q", false⟩, ⟨3, "r", false⟩])] ∧
    ([⟨2, "q", false⟩, ⟨3, "r", false⟩] =
      ((run (Collection.new "c" false)
        [Op.insert 1 "a" "p", Op.insert 2 "a" "q", Op.insert 3 "a" "r",
         Op.insert 9 "b" "z"]).document "a").filter
        (fun r => decide (2 ≤ r.timestamp ∧ r.timestamp ≤ 3)) ∧
      ([⟨2, "q", false⟩, ⟨3, "r", false⟩] : List DataRecord) ≠ []) ∧
    StrictAsc [⟨2, "q", false⟩, ⟨3, "r", false⟩] ∧
    (run (Collection.new "c" false)
      [Op.insert 1 "a" "p", Op.insert 2 "a" "q", Op.insert 3 "a" "r",
       Op.insert 9 "b" "z"]).getSessionData 3 2 = [] :=
  ⟨reachable_run _ _ _, by decide,
   ((getSessionData_correct _ (reachable_run _ _ _) 2 3).1 "a" _).1 (by decide),
   (getSessionData_correct (run (Collection.new "c" false)
      [Op.insert 1 "a" "p", Op.insert 2 "a" "q", Op.insert 3 "a" "r", Op.insert 9 "b" "z"])
      (reachable_run _ _ _) 2 3).2.1 "a" _ (by decide),
   (getSessionData_correct _ (reachable_run _ _ _) 3 2).2.2.2 (by decide)⟩

/-- Claim C14: in every reachable state, after `deleteRecordsInRange(key, from, to)`
document `key` holds exactly its former records with timestamp outside `[from, to]`, in
the same order and unchanged; its key is dropped if none remain; every other document is
unchanged; if no record of the document lies in `[from, to]` (in particular when
`from > to` or the document is missing) the whole state is unchanged and the store is
not called; otherwise the store's `deleteRecordsInRange` is called once. -/
theorem deleteRecordsInRange_correct (c : Collection) (h : Reachable c) (key : String)
    (fromTs toTs : Int) :
    (c.deleteRecordsInRange key fromTs toTs).document key =
      (c.document key).filter
        (fun r => !decide (fromTs ≤ r.timestamp ∧ r.timestamp ≤ toTs)) ∧
    ((c.document key).filter
        (fun r => !decide (fromTs ≤ r.timestamp ∧ r.timestamp ≤ toTs)) = [] →
      UMap.find (c.deleteRecordsInRange key fromTs toTs).m_data key = none) ∧
    (∀ key1, key1 ≠ key →
      UMap.find (c.deleteRecordsInRange key fromTs toTs).m_data key1 =
        UMap.find c.m_data key1) ∧
    ((c.document key).filter
        (fun r => decide (fromTs ≤ r.timestamp ∧ r.timestamp ≤ toTs)) = [] →
      c.deleteRecordsInRange key fromTs toTs = c) ∧
    (fromTs > toTs → c.deleteRecordsInRange key fromTs toTs = c) ∧
    (UMap.find c.m_data key = none → c.deleteRecordsInRange key fromTs toTs = c) ∧
    ((c.document key).filter
        (fun r => decide (fromTs ≤ r.timestamp ∧ r.timestamp ≤ toTs)) ≠ [] →
      (c.deleteRecordsInRange key fromTs toTs).storeCalls =
        c.storeCalls ++ (if c.m_storage = true
          then [StoreCall.deleteRecordsInRange c.m_name key fromTs toTs] else [])) ∧
    (c.deleteRecordsInRange key fromTs toTs).m_key_vaue = c.m_key_vaue := by
  have hinv := Inv.of_reachable h
  have hinv1 := Inv.deleteRecordsInRange hinv key fromTs toTs
  have hnoop := deleteRecordsInRange_noop hinv key fromTs toTs
  have hdoc : (c.deleteRecordsInRange key fromTs toTs).document key =
      (c.document key).filter
        (fun r => !decide (fromTs ≤ r.timestamp ∧ r.timestamp ≤ toTs)) := by
    by_cases he : (c.document key).filter
        (fun r => decide (fromTs ≤ r.timestamp ∧ r.timestamp ≤ toTs)) = []
    · rw [hnoop he, filter_not_range_eq_self he]
    · exact (deleteRecordsInRange_effect hinv key fromTs toTs he).1
  refine ⟨hdoc, ?_, ?_, hnoop, ?_, ?_, ?_, ?_⟩
  · intro he
    cases hf : UMap.find (c.deleteRecordsInRange key fromTs toTs).m_data key with
    | none => rfl
    | some records =>
      rw [document_of_find hf] at hdoc
      rw [he] at hdoc
      exact absurd hdoc (hinv1.find_ne_nil hf)
  · intro key1 hk
    by_cases he : (c.document key).filter
        (fun r => decide (fromTs ≤ r.timestamp ∧ r.timestamp ≤ toTs)) = []
    · rw [hnoop he]
    · exact (deleteRecordsInRange_effect hinv key fromTs toTs he).2.1 key1 hk
  · intro hgt
    exact hnoop (filter_range_empty_of_gt _ hgt)
  · intro hf
    exact hnoop (by rw [document_of_find_none hf]; rfl)
  · intro he
    exact (deleteRecordsInRange_effect hinv key fromTs toTs he).2.2.1
  · by_cases he : (c.document key).filter
        (fun r => decide (fromTs ≤ r.timestamp ∧ r.timestamp ≤ toTs)) = []
    · rw [hnoop he]
    · exact (deleteRecordsInRange_effect hinv key fromTs toTs he).2.2.2.1

theorem deleteRecordsInRange_correct_witness :
    Reachable (run (Collection.new "c" true)
      [Op.insert 1 "a" "p", Op.insert 2 "a" "q", Op.insert 3 "a" "r", Op.insert 4 "a" "s",
       Op.insert 5 "a" "t"]) ∧
    ((run (Collection.new "c" true)
      [Op.insert 1 "a" "p", Op.insert 2 "a" "q", Op.insert 3 "a" "r", Op.insert 4 "a" "s",
       Op.insert 5 "a" "t"]).deleteRecordsInRange "a" 2 4).document "a" =
      [⟨1, "p", true⟩, ⟨5, "t", true⟩] ∧
    ((run (Collection.new "c" true)
      [Op.insert 1 "a" "p", Op.insert 2 "a" "q", Op.insert 3 "a" "r", Op.insert 4 "a" "s",
       Op.insert 5 "a" "t"]).deleteRecordsInRange "a" 2 4).document "a" =
      ((run (Collection.new "c" true)
        [Op.insert 1 "a" "p", Op.insert 2 "a" "q", Op.insert 3 "a" "r", Op.insert 4 "a" "s",
         Op.insert 5 "a" "t"]).document "a").filter
        (fun r => !decide (2 ≤ r.timestamp ∧ r.timestamp ≤ 4)) ∧
    ((run (Collection.new "c" true)
      [Op.insert 1 "a" "p", Op.insert 2 "a" "q", Op.insert 3 "a" "r", Op.insert 4 "a" "s",
       Op.insert 5 "a" "t"]).deleteRecordsInRange "a" 2 4).storeCalls =
      (run (Collection.new "c" true)
        [Op.insert 1 "a" "p", Op.insert 2 "a" "q", Op.insert 3 "a" "r", Op.insert 4 "a" "s",
         Op.insert 5 "a" "t"]).storeCalls ++
        (if (run (Collection.new "c" true)
          [Op.insert 1 "a" "p", Op.insert 2 "a" "q", Op.insert 3 "a" "r", Op.insert 4 "a" "s",
           Op.insert 5 "a" "t"]).m_storage = true
         then [StoreCall.deleteRecordsInRange (run (Collection.new "c" true)
          [Op.insert 1 "a" "p", Op.insert 2 "a" "q", Op.insert 3 "a" "r", Op.insert 4 "a" "s",
           Op.insert 5 "a" "t"]).m_name "a" 2 4] else []) ∧
    (run (Collection.new "c" true)
      [Op.insert 1 "a" "p", Op.insert 2 "a" "q", Op.insert 3 "a" "r", Op.insert 4 "a" "s",
       Op.insert 5 "a" "t"]).deleteRecordsInRange "a" 6 9 =
      run (Collection.new "c" true)
        [Op.insert 1 "a" "p", Op.insert 2 "a" "q", Op.insert 3 "a" "r", Op.insert 4 "a" "s",
         Op.insert 5 "a" "t"] ∧
    (run (Collection.new "c" true)
      [Op.insert 1 "a" "p", Op.insert 2 "a" "q", Op.insert 3 "a" "r", Op.insert 4 "a" "s",
       Op.insert 5 "a" "t"]).deleteRecordsInRange "a" 4 2 =
      run (Collection.new "c" true)
        [Op.insert 1 "a" "p", Op.insert 2 "a" "q", Op.insert 3 "a" "r", Op.insert 4 "a" "s",
         Op.insert 5 "a" "t"] ∧
    UMap.find ((run (Collection.new "c" true)
      [Op.insert 1 "a" "p", Op.insert 2 "a" "q", Op.insert 3 "a" "r", Op.insert 4 "a" "s",
       Op.insert 5 "a" "t"]).deleteRecordsInRange "a" 0 9).m_data "a" = none :=
  ⟨reachable_run _ _ _, by decide,
   (deleteRecordsInRange_correct _ (reachable_run _ _ _) "a" 2 4).1,
   (deleteRecordsInRange_correct _ (reachable_run _ _ _) "a" 2 4).2.2.2.2.2.2.1 (by decide),
   (deleteRecordsInRange_correct _ (reachable_run _ _ _) "a" 6 9).2.2.2.1 (by decide),
   (deleteRecordsInRange_correct _ (reachable_run _ _ _) "a" 4 2).2.2.2.2.1 (by decide),
   (deleteRecordsInRange_correct _ (reachable_run _ _ _) "a" 0 9).2.1 (by decide)⟩

/-- Claim C15: in every reachable state `deleteRecord(key, ts)` removes exactly the record
of document `key` with timestamp `ts` and leaves every other record and every other
document unchanged; if the document or that timestamp is absent the whole state is
unchanged and the store is not called; if a record was removed the store's
`deleteRecord(name, key, ts)` is called exactly once, whether or not the document becomes
empty (in which case its key is dropped). -/
theorem deleteRecord_correct (c : Collection) (h : Reachable c) (key : String) (ts : Int) :
    (c.deleteRecord key ts).document key =
      (c.document key).filter (fun x => decide (x.timestamp ≠ ts)) ∧
    (∀ key1, key1 ≠ key →
      UMap.find (c.deleteRecord key ts).m_data key1 = UMap.find c.m_data key1) ∧
    ((∀ r ∈ c.document key, r.timestamp ≠ ts) → c.deleteRecord key ts = c) ∧
    (UMap.find c.m_data key = none → c.deleteRecord key ts = c) ∧
    ((∃ r ∈ c.document key, r.timestamp = ts) →
      (c.deleteRecord key ts).storeCalls =
        c.storeCalls ++ (if c.m_storage = true
          then [StoreCall.deleteRecord c.m_name key ts] else [])) ∧
    ((c.document key).filter (fun x => decide (x.timestamp ≠ ts)) = [] →
      UMap.find (c.deleteRecord key ts).m_data key = none) ∧
    (c.deleteRecord key ts).m_key_vaue = c.m_key_vaue := by
  have hinv := Inv.of_reachable h
  have hinv1 := Inv.deleteRecord hinv key ts
  have hnoop := deleteRecord_noop hinv key ts
  have hdoc : (c.deleteRecord key ts).document key =
      (c.document key).filter (fun x => decide (x.timestamp ≠ ts)) := by
    by_cases he : ∃ r ∈ c.document key, r.timestamp = ts
    · exact (deleteRecord_effect hinv key ts he).1
    · have hall : ∀ r ∈ c.document key, r.timestamp ≠ ts :=
        fun r hr hrt => he ⟨r, hr, hrt⟩
      rw [hnoop hall, filter_ne_eq_self hall]
  refine ⟨hdoc, ?_, hnoop, ?_, ?_, ?_, ?_⟩
  · intro key1 hk
    by_cases he : ∃ r ∈ c.document key, r.timestamp = ts
    · exact (deleteRecord_effect hinv key ts he).2.1 key1 hk
    · rw [hnoop (fun r hr hrt => he ⟨r, hr, hrt⟩)]
  · intro hf
    exact hnoop (by rw [document_of_find_none hf]; intro r hr; cases hr)
  · intro he
    exact (deleteRecord_effect hinv key ts he).2.2.1
  · intro he
    cases hf : UMap.find (c.deleteRecord key ts).m_data key with
    | none => rfl
    | some records =>
      rw [document_of_find hf] at hdoc
      rw [he] at hdoc
      exact absurd hdoc (hinv1.find_ne_nil hf)
  · by_cases he : ∃ r ∈ c.document key, r.timestamp = ts
    · exact (deleteRecord_effect hinv key ts he).2.2.2.1
    · rw [hnoop (fun r hr hrt => he ⟨r, hr, hrt⟩)]

theorem deleteRecord_correct_witness :
    Reachable (run (Collection.new "c" true)
      [Op.insert 1 "a" "p", Op.insert 2 "a" "q", Op.insert 7 "b" "z"]) ∧
    ((run (Collection.new "c" true)
      [Op.insert 1 "a" "p", Op.insert 2 "a" "q", Op.insert 7 "b" "z"]).deleteRecord
        "a" 1).document "a" = [⟨2, "q", true⟩] ∧
    ((run (Collection.new "c" true)
      [Op.insert 1 "a" "p", Op.insert 2 "a" "q", Op.insert 7 "b" "z"]).deleteRecord
        "a" 1).storeCalls =
      (run (Collection.new "c" true)
        [Op.insert 1 "a" "p", Op.insert 2 "a" "q", Op.insert 7 "b" "z"]).storeCalls ++
        (if (run (Collection.new "c" true)
          [Op.insert 1 "a" "p", Op.insert 2 "a" "q", Op.insert 7 "b" "z"]).m_storage = true
         then [StoreCall.deleteRecord (run (Collection.new "c" true)
          [Op.insert 1 "a" "p", Op.insert 2 "a" "q", Op.insert 7 "b" "z"]).m_name "a" 1]
         else []) ∧
    ((run (Collection.new "c" true)
      [Op.insert 1 "a" "p", Op.insert 2 "a" "q", Op.insert 7 "b" "z"]).deleteRecord
        "b" 7).storeCalls = [StoreCall.deleteRecord "c" "b" 7] ∧
    UMap.find ((run (Collection.new "c" true)
      [Op.insert 1 "a" "p", Op.insert 2 "a" "q", Op.insert 7 "b" "z"]).deleteRecord
        "b" 7).m_data "b" = none ∧
    (run (Collection.new "c" true)
      [Op.insert 1 "a" "p", Op.insert 2 "a" "q", Op.insert 7 "b" "z"]).deleteRecord "a" 3 =
      run (Collection.new "c" true)
        [Op.insert 1 "a" "p", Op.insert 2 "a" "q", Op.insert 7 "b" "z"] ∧
    (run (Collection.new "c" true)
      [Op.insert 1 "a" "p", Op.insert 2 "a" "q", Op.insert 7 "b" "z"]).deleteRecord "zz" 1 =
      run (Collection.new "c" true)
        [Op.insert 1 "a" "p", Op.insert 2 "a" "q", Op.insert 7 "b" "z"] :=
  ⟨reachable_run _ _ _, by decide,
   (deleteRecord_correct _ (reachable_run _ _ _) "a" 1).2.2.2.2.1
     ⟨⟨1, "p", true⟩, by decide, rfl⟩,
   by decide,
   (deleteRecord_correct _ (reachable_run _ _ _) "b" 7).2.2.2.2.2.1 (by decide),
   (deleteRecord_correct _ (reachable_run _ _ _) "a" 3).2.2.1 (by decide),
   (deleteRecord_correct _ (reachable_run _ _ _) "zz" 1).2.2.2.1 (by decide)⟩

/-- Claim C16: `clearDocument` is idempotent and total. For every state and key, after
`clearDocument(key)` the document is absent (the point and range reads return
absent/empty for it) and all other documents and the key/value table are unchanged; a
second `clearDocument(key)` leaves the in-memory state as it is after the first, and
leaves the store, executing the issued calls, in the same state. -/
theorem clearDocument_idempotent (c : Collection) (key : String) :
    UMap.find (c.clearDocument key).m_data key = none ∧
    (∀ t, (c.clearDocument key).getLatestRecordForDocument key t = none) ∧
    (∀ t, (c.clearDocument key).getEarliestRecordForDocument key t = none) ∧
    (∀ a b reverse limit,
      (c.clearDocument key).getAllRecordsForDocument key a b reverse limit = []) ∧
    (∀ key1, key1 ≠ key →
      UMap.find (c.clearDocument key).m_data key1 = UMap.find c.m_data key1) ∧
    (c.clearDocument key).m_key_vaue = c.m_key_vaue ∧
    ((c.clearDocument key).clearDocument key).m_data = (c.clearDocument key).m_data ∧
    ((c.clearDocument key).clearDocument key).m_key_vaue = (c.clearDocument key).m_key_vaue ∧
    ((c.clearDocument key).clearDocument key).m_hasNewRecords =
      (c.clearDocument key).m_hasNewRecords ∧
    (∀ s : SqliteStorage,
      s.applyAll ((c.clearDocument key).clearDocument key).storeCalls =
        s.applyAll (c.clearDocument key).storeCalls) := by
  obtain ⟨hd, hc, hkv, hn, hst, hname⟩ := clearDocument_fields c key
  obtain ⟨hd2, hc2, hkv2, hn2, _, _⟩ := clearDocument_fields (c.clearDocument key) key
  have hfind : UMap.find (c.clearDocument key).m_data key = none := by
    rw [hd]; exact UMap.find_erase_self _ _
  refine ⟨hfind, ?_, ?_, ?_, ?_, hkv, ?_, hkv2, hn2, ?_⟩
  · intro t; simp [Collection.getLatestRecordForDocument, hfind]
  · intro t; simp [Collection.getEarliestRecordForDocument, hfind]
  · intro a b reverse limit; simp [Collection.getAllRecordsForDocument, hfind]
  · intro key1 hk; rw [hd]; exact UMap.find_erase_of_ne _ hk
  · rw [hd2]; exact UMap.erase_of_find_none hfind
  · intro s
    rw [hc2, hc, hst, hname]
    by_cases hs : c.m_storage = true
    · simp only [hs, if_true, SqliteStorage.applyAll_append]
      simp only [SqliteStorage.applyAll, List.foldl_cons, List.foldl_nil]
      exact SqliteStorage.apply_deleteDocument_twice _ _ _
    · simp [hs]

theorem clearDocument_idempotent_witness :
    UMap.find ((run (Collection.new "c" true)
      [Op.insert 1 "a" "x", Op.insert 2 "b" "y"]).clearDocument "a").m_data "b" =
      UMap.find (run (Collection.new "c" true)
        [Op.insert 1 "a" "x", Op.insert 2 "b" "y"]).m_data "b" ∧
    UMap.find ((run (Collection.new "c" true)
      [Op.insert 1 "a" "x", Op.insert 2 "b" "y"]).clearDocument "a").m_data "a" = none ∧
    ((run (Collection.new "c" true)
      [Op.insert 1 "a" "x", Op.insert 2 "b" "y"]).clearDocument "a").m_data =
      [("b", [⟨2, "y", true⟩])] ∧
    (((run (Collection.new "c" true)
      [Op.insert 1 "a" "x", Op.insert 2 "b" "y"]).clearDocument "a").clearDocument
        "a").storeCalls =
      [StoreCall.deleteDocument "c" "a", StoreCall.deleteDocument "c" "a"] :=
  ⟨(clearDocument_idempotent _ "a").2.2.2.2.1 "b" (by decide),
   (clearDocument_idempotent _ "a").1, by decide, by decide⟩

/-- Claim C17: successful flush. In every reachable state of a collection with a store,
if `beginTransaction`, every `upsertRecord` and `commitTransaction` succeed, then after
`flushToDisk` every record is non-dirty with its timestamp and payload unchanged,
`has_dirty` is false, and the upserts issued are exactly one call, with document key,
timestamp and payload, for each record that was dirty at flush start. -/
theorem flushToDisk_success (c : Collection) (h : Reachable c) (hst : c.m_storage = true)
    (ok : Nat → Bool) (hok : ∀ n, ok n = true) :
    (∀ key, (c.flushToDisk true ok true).document key =
      (c.document key).map (fun r => ({ r with isNew := false } : DataRecord))) ∧
    ¬ hasDirtyRecord (c.flushToDisk true ok true) ∧
    (c.flushToDisk true ok true).m_hasNewRecords = false ∧
    (c.flushToDisk true ok true).storeCalls =
      c.storeCalls ++ (if c.m_hasNewRecords = true then
        StoreCall.beginTransaction ::
          (dirtyRecords c.m_data).map (upsertCall c.m_name) ++ [StoreCall.commitTransaction]
        else []) ∧
    (c.m_hasNewRecords = false → dirtyRecords c.m_data = []) ∧
    (∀ p, p ∈ dirtyRecords c.m_data ↔ (p.2 ∈ c.document p.1 ∧ p.2.isNew = true)) ∧
    ((dirtyRecords c.m_data).map (upsertCall c.m_name)).Nodup := by
  have hinv := Inv.of_reachable h
  obtain ⟨h1, h2, h3⟩ := flushToDisk_all_ok hinv hst ok hok true
  refine ⟨h1, h2, h3, ?_, hinv.dirtyRecords_nil, hinv.dirtyRecords_mem,
    nodup_upsertCalls c.m_name c.m_data hinv.nodup hinv.sorted⟩
  have := flushToDisk_calls hst ok true (c := c)
  simpa using this

theorem flushToDisk_success_witness :
    Reachable (run (Collection.new "c" true)
      [Op.insert 1 "a" "p", Op.insert 2 "b" "q", Op.flushToDisk true (fun _ => true) true,
       Op.insert 3 "a" "r"]) ∧
    (run (Collection.new "c" true)
      [Op.insert 1 "a" "p", Op.insert 2 "b" "q", Op.flushToDisk true (fun _ => true) true,
       Op.insert 3 "a" "r"]).m_data =
      [("a", [⟨1, "p", false⟩, ⟨3, "r", true⟩]), ("b", [⟨2, "q", false⟩])] ∧
    ((run (Collection.new "c" true)
      [Op.insert 1 "a" "p", Op.insert 2 "b" "q", Op.flushToDisk true (fun _ => true) true,
       Op.insert 3 "a" "r"]).flushToDisk true (fun _ => true) true).document "a" =
      ((run (Collection.new "c" true)
        [Op.insert 1 "a" "p", Op.insert 2 "b" "q", Op.flushToDisk true (fun _ => true) true,
         Op.insert 3 "a" "r"]).document "a").map
        (fun r => ({ r with isNew := false } : DataRecord)) ∧
    ((run (Collection.new "c" true)
      [Op.insert 1 "a" "p", Op.insert 2 "b" "q", Op.flushToDisk true (fun _ => true) true,
       Op.insert 3 "a" "r"]).flushToDisk true (fun _ => true) true).m_hasNewRecords = false ∧
    ((run (Collection.new "c" true)
      [Op.insert 1 "a" "p", Op.insert 2 "b" "q", Op.flushToDisk true (fun _ => true) true,
       Op.insert 3 "a" "r"]).flushToDisk true (fun _ => true) true).storeCalls =
      [StoreCall.beginTransaction, StoreCall.upsertRecord "c" "a" 1 "p",
       StoreCall.upsertRecord "c" "b" 2 "q", StoreCall.commitTransaction,
       StoreCall.beginTransaction, StoreCall.upsertRecord "c" "a" 3 "r",
       StoreCall.commitTransaction] :=
  ⟨reachable_run _ _ _, by decide,
   (flushToDisk_success _ (reachable_run _ _ _) (by decide) (fun _ => true)
     (fun _ => rfl)).1 "a",
   (flushToDisk_success _ (reachable_run _ _ _) (by decide) (fun _ => true)
     (fun _ => rfl)).2.2.1,
   by decide⟩

/-- Claim C18: partial flush failure. With `upsertRecord` answered by an arbitrary oracle
(`ok i` for the `i`-th call) and begin and commit succeeding, after `flushToDisk` the
`i`-th dirty record is non-dirty exactly when `ok i`, timestamps and payloads are
unchanged, non-dirty records stay as they are, and `has_dirty` is true exactly when some
upsert failed; a following flush whose upserts all succeed leaves every record non-dirty
and `has_dirty` false. -/
theorem flushToDisk_partial_failure (c : Collection) (h : Reachable c)
    (hst : c.m_storage = true) (ok : Nat → Bool) :
    (∀ key, ((c.flushToDisk true ok true).document key).map
        (fun r => (r.timestamp, r.data)) =
      (c.document key).map (fun r => (r.timestamp, r.data))) ∧
    (∀ key r, r ∈ c.document key → r.isNew = false →
      r ∈ (c.flushToDisk true ok true).document key) ∧
    (∀ (i : Nat) (p : String × DataRecord), (dirtyRecords c.m_data)[i]? = some p →
      ({ p.2 with isNew := !ok i } : DataRecord) ∈
        (c.flushToDisk true ok true).document p.1) ∧
    ((c.flushToDisk true ok true).m_hasNewRecords = true ↔
      ∃ i, i < (dirtyRecords c.m_data).length ∧ ok i = false) ∧
    (c.flushToDisk true ok true).storeCalls =
      c.storeCalls ++ (if c.m_hasNewRecords = true then
        StoreCall.beginTransaction ::
          (dirtyRecords c.m_data).map (upsertCall c.m_name) ++ [StoreCall.commitTransaction]
        else []) ∧
    (∀ p, p ∈ dirtyRecords c.m_data ↔ (p.2 ∈ c.document p.1 ∧ p.2.isNew = true)) ∧
    (∀ ok2 : Nat → Bool, (∀ n, ok2 n = true) →
      ¬ hasDirtyRecord ((c.flushToDisk true ok true).flushToDisk true ok2 true) ∧
      ((c.flushToDisk true ok true).flushToDisk true ok2 true).m_hasNewRecords = false) := by
  have hinv := Inv.of_reachable h
  obtain ⟨h1, h2, h3, h4⟩ := flushToDisk_documents hinv hst ok true
  refine ⟨h1, h2, h3, h4, ?_, hinv.dirtyRecords_mem, ?_⟩
  · have := flushToDisk_calls hst ok true (c := c)
    simpa using this
  · intro ok2 hok2
    have hinv1 := Inv.flushToDisk hinv true ok true
    have hst1 : (c.flushToDisk true ok true).m_storage = true := by
      by_cases hn : c.m_hasNewRecords = true
      · rw [(flushToDisk_main ok true hst hn).2.2.2.2.1]; exact hst
      · rw [flushToDisk_noop true ok true (Or.inr (by simpa using hn))]; exact hst
    exact (flushToDisk_all_ok hinv1 hst1 ok2 hok2 true).2

theorem flushToDisk_partial_failure_witness :
    Reachable (run (Collection.new "c" true)
      [Op.insert 1 "a" "p", Op.insert 2 "a" "q", Op.insert 3 "a" "r", Op.insert 4 "a" "s"]) ∧
    ((run (Collection.new "c" true)
      [Op.insert 1 "a" "p", Op.insert 2 "a" "q", Op.insert 3 "a" "r",
       Op.insert 4 "a" "s"]).flushToDisk true (fun n => decide (n % 2 = 0)) true).m_data =
      [("a", [⟨1, "p", false⟩, ⟨2, "q", true⟩, ⟨3, "r", false⟩, ⟨4, "s", true⟩])] ∧
    (dirtyRecords (run (Collection.new "c" true)
      [Op.insert 1 "a" "p", Op.insert 2 "a" "q", Op.insert 3 "a" "r",
       Op.insert 4 "a" "s"]).m_data)[1]? = some ("a", ⟨2, "q", true⟩) ∧
    (⟨2, "q", !decide (1 % 2 = 0)⟩ : DataRecord) ∈
      ((run (Collection.new "c" true)
        [Op.insert 1 "a" "p", Op.insert 2 "a" "q", Op.insert 3 "a" "r",
         Op.insert 4 "a" "s"]).flushToDisk true (fun n => decide (n % 2 = 0)) true).document
        "a" ∧
    ((run (Collection.new "c" true)
      [Op.insert 1 "a" "p", Op.insert 2 "a" "q", Op.insert 3 "a" "r",
       Op.insert 4 "a" "s"]).flushToDisk true (fun n => decide (n % 2 = 0))
        true).m_hasNewRecords = true ∧
    (((run (Collection.new "c" true)
      [Op.insert 1 "a" "p", Op.insert 2 "a" "q", Op.insert 3 "a" "r",
       Op.insert 4 "a" "s"]).flushToDisk true (fun n => decide (n % 2 = 0))
        true).flushToDisk true (fun _ => true) true).m_hasNewRecords = false ∧
    (((run (Collection.new "c" true)
      [Op.insert 1 "a" "p", Op.insert 2 "a" "q", Op.insert 3 "a" "r",
       Op.insert 4 "a" "s"]).flushToDisk true (fun n => decide (n % 2 = 0))
        true).flushToDisk true (fun _ => true) true).m_data =
      [("a", [⟨1, "p", false⟩, ⟨2, "q", false⟩, ⟨3, "r", false⟩, ⟨4, "s", false⟩])] :=
  ⟨reachable_run _ _ _, by decide, by decide,
   (flushToDisk_partial_failure _ (reachable_run _ _ _) (by decide)
     (fun n => decide (n % 2 = 0))).2.2.1 1 ("a", ⟨2, "q", true⟩) (by decide),
   ((flushToDisk_partial_failure _ (reachable_run _ _ _) (by decide)
     (fun n => decide (n % 2 = 0))).2.2.2.1).2 ⟨1, by decide, by decide⟩,
   ((flushToDisk_partial_failure _ (reachable_run _ _ _) (by decide)
     (fun n => decide (n % 2 = 0))).2.2.2.2.2.2 (fun _ => true) (fun _ => rfl)).2,
   by decide⟩

/-- Claim C19 (the code at the failing input): with a store attached, after
`insert(1, "a", "x")` a `flushToDisk` whose `beginTransaction` and `upsertRecord` succeed
and whose `commitTransaction` fails leaves the record non-dirty and `has_dirty` false
although `rollbackTransaction` is called: a store on which the commit did not take effect
holds no row after the rollback, and the next flush issues no call. -/
theorem flushToDisk_failed_commit_clears_dirty :
    (run (Collection.new "c" true) [Op.insert 1 "a" "x"]).m_data =
      [("a", [⟨1, "x", true⟩])] ∧
    ((run (Collection.new "c" true) [Op.insert 1 "a" "x"]).flushToDisk
      true (fun _ => true) false).m_data = [("a", [⟨1, "x", false⟩])] ∧
    ((run (Collection.new "c" true) [Op.insert 1 "a" "x"]).flushToDisk
      true (fun _ => true) false).m_hasNewRecords = false ∧
    ((run (Collection.new "c" true) [Op.insert 1 "a" "x"]).flushToDisk
      true (fun _ => true) false).storeCalls =
      [StoreCall.beginTransaction, StoreCall.upsertRecord "c" "a" 1 "x",
       StoreCall.commitTransaction, StoreCall.rollbackTransaction] ∧
    ((⟨true, [], [], none⟩ : SqliteStorage).applyAll
      [StoreCall.beginTransaction, StoreCall.upsertRecord "c" "a" 1 "x",
       StoreCall.rollbackTransaction]).records = [] ∧
    (((run (Collection.new "c" true) [Op.insert 1 "a" "x"]).flushToDisk
      true (fun _ => true) false).flushToDisk true (fun _ => true) true).storeCalls =
      ((run (Collection.new "c" true) [Op.insert 1 "a" "x"]).flushToDisk
        true (fun _ => true) false).storeCalls := by
  refine ⟨by decide, by decide, by decide, by decide, by decide, by decide⟩

/-- Claim C20: flush/reload round trip. For every finite sequence of inserts applied to an
empty collection attached to an open store with no transaction pending and holding no row
for the collection's name, followed by `flushToDisk`, a fresh collection of the same name on the same store after
`loadFromDisk` has exactly the same documents, with the same timestamp/payload sequences
and every record non-dirty, and `has_dirty` is false. -/
theorem flush_reload_round_trip (name : String) (ops : List Op) (s : SqliteStorage)
    (hops : ∀ op ∈ ops, op.isInsert = true) (hopen : s.m_isOpen = true)
    (hpending : s.pending = none) (hempty : ∀ row ∈ s.records, row.collection ≠ name) :
    (∀ key,
      ((Collection.new name true).loadOn
          ((run (Collection.new name true) ops).flushOn s).2).document key =
        ((run (Collection.new name true) ops).document key).map
          (fun r => ({ r with isNew := false } : DataRecord))) ∧
    (∀ key,
      (UMap.find ((Collection.new name true).loadOn
          ((run (Collection.new name true) ops).flushOn s).2).m_data key).isSome ↔
        (UMap.find (run (Collection.new name true) ops).m_data key).isSome) ∧
    ¬ hasDirtyRecord ((Collection.new name true).loadOn
        ((run (Collection.new name true) ops).flushOn s).2) ∧
    ((Collection.new name true).loadOn
        ((run (Collection.new name true) ops).flushOn s).2).m_hasNewRecords = false := by
  have hA : Inv (run (Collection.new name true) ops) := Inv.run (Inv.new name true) ops
  obtain ⟨hst, hname, hdirty⟩ := allDirty_run_inserts name ops hops
  have hB : Inv ((Collection.new name true).loadOn
      ((run (Collection.new name true) ops).flushOn s).2) :=
    Inv.loadFromDisk (Inv.new name true) _ _
  have hopen1 := (flushOn_store hA hst s hopen hpending ⟨"", "", 0, ""⟩).2.1
  have hrows : ∀ x : StoredRecord,
      x ∈ ((run (Collection.new name true) ops).flushOn s).2.fetchRecords name ↔
        ∃ r ∈ (run (Collection.new name true) ops).document x.document,
          r.timestamp = x.timestamp ∧ r.data = x.data := by
    intro x
    rw [SqliteStorage.mem_fetchRecords _ hopen1]
    constructor
    · rintro ⟨row, hrow, hcol, rfl⟩
      rcases ((flushOn_store hA hst s hopen hpending row).2.2).1 hrow with ⟨p, hp, hpe⟩ | ⟨hmem, _⟩
      · have hp1 := (hA.dirtyRecords_mem p).1 hp
        subst hpe
        exact ⟨p.2, hp1.1, rfl, rfl⟩
      · exact absurd hcol (hempty row hmem)
    · rintro ⟨r, hr, h1, h2⟩
      refine ⟨⟨name, x.document, x.timestamp, x.data⟩, ?_, rfl, rfl⟩
      refine ((flushOn_store hA hst s hopen hpending _).2.2).2 (Or.inl ⟨(x.document, r), ?_, ?_⟩)
      · exact (hA.dirtyRecords_mem (x.document, r)).2 ⟨hr, hdirty _ r hr⟩
      · simp only [hname, h1, h2]
  have hfun : ∀ x ∈ ((run (Collection.new name true) ops).flushOn s).2.fetchRecords name,
      ∀ y ∈ ((run (Collection.new name true) ops).flushOn s).2.fetchRecords name,
        x.document = y.document → x.timestamp = y.timestamp → x.data = y.data := by
    intro x hx y hy h1 h2
    obtain ⟨r1, hr1, ht1, hd1⟩ := (hrows x).1 hx
    obtain ⟨r2, hr2, ht2, hd2⟩ := (hrows y).1 hy
    rw [h1] at hr1
    have := strictAsc_eq_of_timestamp (hA.document_sorted y.document) hr1 hr2
      (by rw [ht1, ht2, h2])
    rw [← hd1, ← hd2, this]
  have hdoc : ∀ key,
      ((Collection.new name true).loadOn
          ((run (Collection.new name true) ops).flushOn s).2).document key =
        ((run (Collection.new name true) ops).document key).map
          (fun r => ({ r with isNew := false } : DataRecord)) := by
    intro key
    apply strictAsc_ext (hB.document_sorted key)
      (strictAsc_map_flushed (hA.document_sorted key))
    intro r
    have hload := loadFromDisk_document (c := Collection.new name true) rfl
      (((run (Collection.new name true) ops).flushOn s).2.fetchRecords name)
      (((run (Collection.new name true) ops).flushOn s).2.fetchKeyValues name) key
    have hmem := mem_foldl_insertInternal
      (((run (Collection.new name true) ops).flushOn s).2.fetchRecords name) hfun
      (c := ({ Collection.new name true with
                m_data := []
                m_key_vaue := []
                m_hasNewRecords := false
                storeCalls := (Collection.new name true).storeCalls ++
                  [StoreCall.fetchRecords (Collection.new name true).m_name] } : Collection))
      (by constructor <;> simp [UMap.keys]) key r
    have hload1 : ((Collection.new name true).loadOn
        ((run (Collection.new name true) ops).flushOn s).2).document key = _ := hload
    rw [hload1, hmem, hrows]
    simp only [Collection.document, UMap.find, Option.getD_none, List.not_mem_nil, false_and,
      or_false, List.mem_map]
    constructor
    · rintro ⟨hclean, r0, hr0, ht, hd⟩
      refine ⟨r0, hr0, ?_⟩
      cases r
      cases r0
      simp only at hclean ht hd ⊢
      simp only [hclean, ht, hd]
    · rintro ⟨r0, hr0, rfl⟩
      exact ⟨rfl, r0, hr0, rfl, rfl⟩
  refine ⟨hdoc, ?_, ?_, ?_⟩
  · intro key
    have h1 := hdoc key
    cases hfB : UMap.find ((Collection.new name true).loadOn
        ((run (Collection.new name true) ops).flushOn s).2).m_data key with
    | none =>
      cases hfA : UMap.find (run (Collection.new name true) ops).m_data key with
      | none => simp
      | some recsA =>
        rw [document_of_find_none hfB, document_of_find hfA] at h1
        have := hA.find_ne_nil hfA
        cases recsA with
        | nil => exact absurd rfl this
        | cons a rest => simp at h1
    | some recsB =>
      cases hfA : UMap.find (run (Collection.new name true) ops).m_data key with
      | none =>
        rw [document_of_find hfB, document_of_find_none hfA] at h1
        exact absurd h1 (hB.find_ne_nil hfB)
      | some recsA => simp
  · rintro ⟨e, he, r, hr, hnew⟩
    have := (hB.dirty e he r hr hnew).1
    rw [show ((Collection.new name true).loadOn
        ((run (Collection.new name true) ops).flushOn s).2).m_hasNewRecords = false from
      loadFromDisk_hasNew rfl _ _] at this
    cases this
  · exact loadFromDisk_hasNew rfl _ _

theorem flush_reload_round_trip_witness :
    (∀ op ∈ [Op.insert 3 "a" "x", Op.insert 1 "b" "y", Op.insert 2 "a" "z",
        Op.insert 3 "a" "x2"], op.isInsert = true) ∧
    (⟨true, [⟨"d", "a", 1, "old"⟩], [], none⟩ : SqliteStorage).m_isOpen = true ∧
    (⟨true, [⟨"d", "a", 1, "old"⟩], [], none⟩ : SqliteStorage).pending = none ∧
    (∀ row ∈ (⟨true, [⟨"d", "a", 1, "old"⟩], [], none⟩ : SqliteStorage).records,
      row.collection ≠ "c") ∧
    (run (Collection.new "c" true)
      [Op.insert 3 "a" "x", Op.insert 1 "b" "y", Op.insert 2 "a" "z",
       Op.insert 3 "a" "x2"]).document "a" = [⟨2, "z", true⟩, ⟨3, "x2", true⟩] ∧
    ((Collection.new "c" true).loadOn
      ((run (Collection.new "c" true)
        [Op.insert 3 "a" "x", Op.insert 1 "b" "y", Op.insert 2 "a" "z",
         Op.insert 3 "a" "x2"]).flushOn ⟨true, [⟨"d", "a", 1, "old"⟩], [], none⟩).2).document
      "a" = [⟨2, "z", false⟩, ⟨3, "x2", false⟩] ∧
    ((Collection.new "c" true).loadOn
      ((run (Collection.new "c" true)
        [Op.insert 3 "a" "x", Op.insert 1 "b" "y", Op.insert 2 "a" "z",
         Op.insert 3 "a" "x2"]).flushOn ⟨true, [⟨"d", "a", 1, "old"⟩], [], none⟩).2).document
      "a" =
      ((run (Collection.new "c" true)
        [Op.insert 3 "a" "x", Op.insert 1 "b" "y", Op.insert 2 "a" "z",
         Op.insert 3 "a" "x2"]).document "a").map
        (fun r => ({ r with isNew := false } : DataRecord)) ∧
    ((Collection.new "c" true).loadOn
      ((run (Collection.new "c" true)
        [Op.insert 3 "a" "x", Op.insert 1 "b" "y", Op.insert 2 "a" "z",
         Op.insert 3 "a" "x2"]).flushOn
        ⟨true, [⟨"d", "a", 1, "old"⟩], [], none⟩).2).m_hasNewRecords = false :=
  ⟨by simp [Op.isInsert], rfl, rfl, by decide, by decide, by decide,
   (flush_reload_round_trip "c" _ ⟨true, [⟨"d", "a", 1, "old"⟩], [], none⟩
     (by simp [Op.isInsert]) rfl rfl (by decide)).1 "a",
   (flush_reload_round_trip "c" _ ⟨true, [⟨"d", "a", 1, "old"⟩], [], none⟩
     (by simp [Op.isInsert]) rfl rfl (by decide)).2.2.2⟩

/-- Claim C21: `loadFromDisk` replaces the state regardless of row order. For a collection
with a store, in any state, and any list of fetched rows (in any order, with repetitions)
and key/values: after `loadFromDisk` every document is strictly ascending; a record is in
document `key` exactly when it is clean and is the last fetched row for its
`(key, timestamp)`; hence the timestamps of a document are exactly the timestamps fetched
for it, a key is present exactly when some row was fetched for it, and nothing of the
previous documents remains; no record is dirty and `m_hasNewRecords` is false; the
key/value table has no repeated key and binds each key to its last fetched value, and to
nothing when no key/value was fetched for it. -/
theorem loadFromDisk_replaces_state (c : Collection) (hst : c.m_storage = true)
    (rows : List StoredRecord) (keyValues : List StoredKeyValue) :
    (∀ key, StrictAsc ((c.loadFromDisk rows keyValues).document key)) ∧
    (∀ key r, r ∈ (c.loadFromDisk rows keyValues).document key ↔
      (r.isNew = false ∧
        rows.reverse.find?
            (fun row => decide (row.document = key ∧ row.timestamp = r.timestamp)) =
          some ⟨key, r.timestamp, r.data⟩)) ∧
    (∀ key (t : Int),
      t ∈ ((c.loadFromDisk rows keyValues).document key).map (fun r => r.timestamp) ↔
        ∃ row ∈ rows, row.document = key ∧ row.timestamp = t) ∧
    (∀ key, (UMap.find (c.loadFromDisk rows keyValues).m_data key).isSome ↔
      ∃ row ∈ rows, row.document = key) ∧
    ¬ hasDirtyRecord (c.loadFromDisk rows keyValues) ∧
    (c.loadFromDisk rows keyValues).m_hasNewRecords = false ∧
    (UMap.keys (c.loadFromDisk rows keyValues).m_key_vaue).Nodup ∧
    (∀ k, UMap.find (c.loadFromDisk rows keyValues).m_key_vaue k =
      (keyValues.reverse.find? (fun kv => decide (kv.key = k))).map (fun kv => kv.value)) := by
  have hinv : Inv (c.loadFromDisk rows keyValues) := by
    have h1 := Inv.foldl_insertInternal rows
      (c := ({ c with
            m_data := []
            m_key_vaue := []
            m_hasNewRecords := false
            storeCalls := c.storeCalls ++ [StoreCall.fetchRecords c.m_name] } : Collection))
      (Inv.of_data_nil rfl)
    have hd := loadFromDisk_data hst rows keyValues
    have hn := loadFromDisk_hasNew hst rows keyValues
    refine ⟨?_, ?_, ?_, ?_⟩
    · rw [hd]; exact h1.nodup
    · rw [hd]; exact h1.nonempty
    · rw [hd]; exact h1.sorted
    · rw [hd]
      intro e he r hr hdirty
      have h2 := (h1.dirty e he r hr hdirty).1
      rw [foldl_insertInternal_hasNew rows (Inv.of_data_nil rfl)] at h2
      cases h2
  have hts : ∀ key (t : Int),
      t ∈ ((c.loadFromDisk rows keyValues).document key).map (fun r => r.timestamp) ↔
        ∃ row ∈ rows, row.document = key ∧ row.timestamp = t := by
    intro key t
    rw [← timestamp_mem_loadFromDisk hst rows keyValues key t, List.mem_map]
  refine ⟨fun key => hinv.document_sorted key,
    fun key r => mem_loadFromDisk hst rows keyValues key r, hts, ?_, ?_,
    loadFromDisk_hasNew hst rows keyValues, ?_, ?_⟩
  · intro key
    rw [hinv.key_present_iff]
    constructor
    · rintro ⟨r, hr⟩
      obtain ⟨row, hrow, hd, -⟩ :=
        (timestamp_mem_loadFromDisk hst rows keyValues key r.timestamp).1 ⟨r, hr, rfl⟩
      exact ⟨row, hrow, hd⟩
    · rintro ⟨row, hrow, hd⟩
      obtain ⟨r, hr, -⟩ :=
        (timestamp_mem_loadFromDisk hst rows keyValues key row.timestamp).2
          ⟨row, hrow, hd, rfl⟩
      exact ⟨r, hr⟩
  · rintro ⟨e, he, r, hr, hdirty⟩
    have h2 := (hinv.dirty e he r hr hdirty).1
    rw [loadFromDisk_hasNew hst] at h2
    cases h2
  · rw [loadFromDisk_keyValues hst]
    exact keys_foldl_assign_nodup keyValues [] List.nodup_nil
  · intro k
    rw [loadFromDisk_keyValues hst, find_foldl_assign]
    cases keyValues.reverse.find? (fun kv => decide (kv.key = k)) <;> rfl

theorem loadFromDisk_replaces_state_witness :
    (run (Collection.new "c" true)
      [Op.insert 9 "old" "o", Op.setValueForKey "k0" "v0"]).m_storage = true ∧
    StrictAsc (((run (Collection.new "c" true)
      [Op.insert 9 "old" "o", Op.setValueForKey "k0" "v0"]).loadFromDisk
        [⟨"a", 5, "x"⟩, ⟨"a", 3, "y"⟩, ⟨"b", 1, "w"⟩, ⟨"a", 5, "z"⟩]
        [⟨"k", "1"⟩, ⟨"k", "2"⟩]).document "a") ∧
    ((run (Collection.new "c" true)
      [Op.insert 9 "old" "o", Op.setValueForKey "k0" "v0"]).loadFromDisk
        [⟨"a", 5, "x"⟩, ⟨"a", 3, "y"⟩, ⟨"b", 1, "w"⟩, ⟨"a", 5, "z"⟩]
        [⟨"k", "1"⟩, ⟨"k", "2"⟩]).m_data =
      [("a", [⟨3, "y", false⟩, ⟨5, "z", false⟩]), ("b", [⟨1, "w", false⟩])] ∧
    ((run (Collection.new "c" true)
      [Op.insert 9 "old" "o", Op.setValueForKey "k0" "v0"]).loadFromDisk
        [⟨"a", 5, "x"⟩, ⟨"a", 3, "y"⟩, ⟨"b", 1, "w"⟩, ⟨"a", 5, "z"⟩]
        [⟨"k", "1"⟩, ⟨"k", "2"⟩]).m_key_vaue = [("k", "2")] :=
  ⟨by decide,
   (loadFromDisk_replaces_state
      (run (Collection.new "c" true) [Op.insert 9 "old" "o", Op.setValueForKey "k0" "v0"])
      (by decide) [⟨"a", 5, "x"⟩, ⟨"a", 3, "y"⟩, ⟨"b", 1, "w"⟩, ⟨"a", 5, "z"⟩]
      [⟨"k", "1"⟩, ⟨"k", "2"⟩]).1 "a",
   by decide, by decide⟩

/-- Claim C22: replace equals delete-then-insert. In every reachable state in which
document `key` has a record with timestamp `t`, the document map after
`insert(t, key, p)` and the document map after `deleteRecord(key, t)` followed by
`insert(t, key, p)` bind every key to the same record sequence (also when the record was
the only one of the document, where `deleteRecord` removes the key and the insert creates
it again), and the length of document `key` after `insert(t, key, p)` equals its length
before. -/
theorem replace_eq_delete_then_insert (c : Collection) (h : Reachable c) (t : Int)
    (key p : String) (hrec : ∃ r ∈ c.document key, r.timestamp = t) :
    (∀ k, UMap.find (c.insert t key p).m_data k =
      UMap.find ((c.deleteRecord key t).insert t key p).m_data k) ∧
    (∀ k, (c.insert t key p).document k =
      ((c.deleteRecord key t).insert t key p).document k) ∧
    ((c.insert t key p).document key).length = (c.document key).length := by
  have hinv := Inv.of_reachable h
  have hinv1 := Inv.deleteRecord hinv key t
  obtain ⟨hdoc, hother, -, -, -, hst, -⟩ := deleteRecord_effect hinv key t hrec
  have hfind : ∀ k, UMap.find (c.insert t key p).m_data k =
      UMap.find ((c.deleteRecord key t).insert t key p).m_data k := by
    intro k
    unfold Collection.insert
    by_cases hk : k = key
    · rw [hk, insertInternal_find_self hinv, insertInternal_find_self hinv1, hdoc, hst]
      exact congrArg some
        (upsertSorted_filter (r := ⟨t, p, c.m_storage⟩) (hinv.document_sorted key)).symm
    · rw [insertInternal_find_other _ _ _ _ _ hk, insertInternal_find_other _ _ _ _ _ hk,
        hother k hk]
  refine ⟨hfind, ?_, ?_⟩
  · intro k
    unfold Collection.document
    rw [hfind k]
  · unfold Collection.insert
    rw [insertInternal_document_self hinv]
    exact length_upsertSorted_hit (hinv.document_sorted key) _ hrec

theorem replace_eq_delete_then_insert_witness :
    Reachable (run (Collection.new "c" true) [Op.insert 5 "a" "x", Op.insert 7 "b" "z"]) ∧
    (∃ r ∈ (run (Collection.new "c" true)
        [Op.insert 5 "a" "x", Op.insert 7 "b" "z"]).document "a", r.timestamp = 5) ∧
    ((run (Collection.new "c" true)
        [Op.insert 5 "a" "x", Op.insert 7 "b" "z"]).insert 5 "a" "y").document "a" =
      (((run (Collection.new "c" true)
        [Op.insert 5 "a" "x", Op.insert 7 "b" "z"]).deleteRecord "a" 5).insert
          5 "a" "y").document "a" ∧
    (((run (Collection.new "c" true)
        [Op.insert 5 "a" "x", Op.insert 7 "b" "z"]).insert 5 "a" "y").document "a").length =
      1 :=
  ⟨reachable_run _ _ _, ⟨⟨5, "x", true⟩, by decide, rfl⟩,
   (replace_eq_delete_then_insert
      (run (Collection.new "c" true) [Op.insert 5 "a" "x", Op.insert 7 "b" "z"])
      (reachable_run _ _ _) 5 "a" "y" ⟨⟨5, "x", true⟩, by decide, rfl⟩).2.1 "a",
   by decide⟩

/-- Claim C23: dirtiness of `insert`. In every reachable state of a collection created
with store flag `storage`, `insert(t, key, p)` puts the record `(t, p)` with
`dirty = storage` into document `key`, every record of that document with timestamp `t`
has `dirty = storage`, `m_hasNewRecords` afterwards is true exactly when the collection
was created with a store, and the store-call trace is unchanged. In a collection created
without a store no record is dirty and `m_hasNewRecords` is false in every reachable
state. -/
theorem insert_dirtiness (name : String) (storage : Bool) (ops : List Op) (t : Int)
    (key p : String) :
    ((⟨t, p, storage⟩ : DataRecord) ∈
        ((run (Collection.new name storage) ops).insert t key p).document key) ∧
    (∀ r ∈ ((run (Collection.new name storage) ops).insert t key p).document key,
        r.timestamp = t → (r.isNew = true ↔ storage = true)) ∧
    (((run (Collection.new name storage) ops).insert t key p).m_hasNewRecords = true ↔
        storage = true) ∧
    ((run (Collection.new name storage) ops).insert t key p).storeCalls =
        (run (Collection.new name storage) ops).storeCalls ∧
    (storage = false →
      ¬ hasDirtyRecord (run (Collection.new name storage) ops) ∧
      (run (Collection.new name storage) ops).m_hasNewRecords = false) := by
  have hinv : Inv (run (Collection.new name storage) ops) :=
    Inv.of_reachable (reachable_run name storage ops)
  have hst : (run (Collection.new name storage) ops).m_storage = storage :=
    run_new_storage name storage ops
  have hclean : storage = false →
      (run (Collection.new name storage) ops).m_hasNewRecords = false := by
    intro hs
    rw [run_hasNew_no_store (by rw [hs]; rfl)]
    rfl
  have hdoc : ((run (Collection.new name storage) ops).insert t key p).document key =
      Collection.upsertSorted ((run (Collection.new name storage) ops).document key)
        ⟨t, p, storage⟩ := by
    unfold Collection.insert
    rw [insertInternal_document_self hinv, hst]
  refine ⟨?_, ?_, ?_, ?_, ?_⟩
  · rw [hdoc]
    exact (Collection.mem_upsertSorted (hinv.document_sorted key) _ _).2 (Or.inl rfl)
  · intro r hr ht
    rw [hdoc] at hr
    rcases (Collection.mem_upsertSorted (hinv.document_sorted key) _ _).1 hr with h1 | h1
    · rw [h1]
    · exact absurd ht h1.2
  · unfold Collection.insert
    rw [insertInternal_hasNew hinv, hst]
    cases storage with
    | true => simp
    | false => simp [hclean rfl]
  · unfold Collection.insert
    exact insertInternal_storeCalls _ _ _ _ _
  · intro hs
    refine ⟨?_, hclean hs⟩
    rintro ⟨e, he, r, hr, hd⟩
    have h2 := (hinv.dirty e he r hr hd).2
    rw [hst, hs] at h2
    cases h2

/-- Claim C24: the key/value side-table. For every state (the table, a hash map, has no
repeated key) and keys `k`, `k1`: `getValueForKey(k)` after `setValueForKey(k, v)` returns
`v`; `getValueForKey(k)` returns the empty text when `k` is not in the table, in
particular in every state reached by operations none of which set `k`, and after
`removeValueForKey(k)`; `setValueForKey(k, v)` and `removeValueForKey(k)` leave
`getValueForKey(k1)` unchanged for `k1 ≠ k` and leave the document map unchanged;
`getAllKeys()` has no repeated entry and lists exactly the keys present in the table,
including a key whose stored value is the empty text. -/
theorem keyValue_side_table (c : Collection) (hk : (UMap.keys c.m_key_vaue).Nodup)
    (k k1 v : String) :
    (c.setValueForKey k v).getValueForKey k = v ∧
    (UMap.find c.m_key_vaue k = none → c.getValueForKey k = "") ∧
    (∀ (name : String) (storage : Bool) (ops : List Op),
      (∀ op ∈ ops, op.setsKey k = false) →
      (run (Collection.new name storage) ops).getValueForKey k = "") ∧
    (c.removeValueForKey k).getValueForKey k = "" ∧
    (k1 ≠ k →
      (c.setValueForKey k v).getValueForKey k1 = c.getValueForKey k1 ∧
      (c.removeValueForKey k).getValueForKey k1 = c.getValueForKey k1) ∧
    (c.setValueForKey k v).m_data = c.m_data ∧
    (c.removeValueForKey k).m_data = c.m_data ∧
    c.getAllKeys.Nodup ∧
    (∀ x, x ∈ c.getAllKeys ↔ (UMap.find c.m_key_vaue x).isSome) ∧
    (k ∈ (c.setValueForKey k "").getAllKeys ∧ (c.setValueForKey k "").getValueForKey k = "" ∧
      k ∉ (c.removeValueForKey k).getAllKeys) := by
  refine ⟨?_, ?_, ?_, ?_, ?_, setValueForKey_data c k v, removeValueForKey_data c k, ?_, ?_,
    ?_, ?_, ?_⟩
  · rw [getValueForKey_of_find, setValueForKey_keyValues, UMap.find_assign_self]
    rfl
  · intro h
    rw [getValueForKey_of_find, h]
    rfl
  · intro name storage ops hops
    rw [getValueForKey_of_find,
      run_keyValue_none (c := Collection.new name storage) (by rfl) ops hops]
    rfl
  · rw [getValueForKey_of_find, removeValueForKey_keyValues, UMap.find_erase_self]
    rfl
  · intro hne
    constructor
    · rw [getValueForKey_of_find, getValueForKey_of_find, setValueForKey_keyValues,
        UMap.find_assign_of_ne _ _ hne]
    · rw [getValueForKey_of_find, getValueForKey_of_find, removeValueForKey_keyValues,
        UMap.find_erase_of_ne _ hne]
  · rw [getAllKeys_eq_keys]; exact hk
  · intro x
    rw [getAllKeys_eq_keys, UMap.find_isSome_iff]
  · rw [getAllKeys_eq_keys, ← UMap.find_isSome_iff, setValueForKey_keyValues,
      UMap.find_assign_self]
    rfl
  · rw [getValueForKey_of_find, setValueForKey_keyValues, UMap.find_assign_self]
    rfl
  · rw [getAllKeys_eq_keys, ← UMap.find_none_iff, removeValueForKey_keyValues]
    exact UMap.find_erase_self _ _

theorem keyValue_side_table_witness :
    (UMap.keys (run (Collection.new "c" true)
      [Op.setValueForKey "k" "v", Op.setValueForKey "e" ""]).m_key_vaue).Nodup ∧
    ((run (Collection.new "c" true)
      [Op.setValueForKey "k" "v", Op.setValueForKey "e" ""]).setValueForKey "k"
        "w").getValueForKey "k" = "w" ∧
    (run (Collection.new "c" true)
      [Op.setValueForKey "k" "v", Op.setValueForKey "e" ""]).getAllKeys = ["k", "e"] :=
  ⟨by decide,
   (keyValue_side_table (run (Collection.new "c" true)
      [Op.setValueForKey "k" "v", Op.setValueForKey "e" ""]) (by decide) "k" "e" "w").1,
   by decide⟩

/-- Claim C25: no dirty record is hidden from flush. In every reachable state, whatever
answers the store gave on the way, a dirty record implies `m_hasNewRecords = true`;
hence whenever `flushToDisk` takes its early return on `m_hasNewRecords == false` (and
so changes nothing), every record in memory is clean. -/
theorem dirty_record_never_hidden (c : Collection) (h : Reachable c) :
    (hasDirtyRecord c → c.m_hasNewRecords = true) ∧
    (c.m_hasNewRecords = false →
      (∀ e ∈ c.m_data, ∀ r ∈ e.2, r.isNew = false) ∧
      ∀ (beginOk : Bool) (upsertOk : Nat → Bool) (commitOk : Bool),
        c.flushToDisk beginOk upsertOk commitOk = c) := by
  have hinv := Inv.of_reachable h
  refine ⟨?_, ?_⟩
  · rintro ⟨e, he, r, hr, hd⟩
    exact (hinv.dirty e he r hr hd).1
  · intro hn
    refine ⟨?_, fun beginOk upsertOk commitOk =>
      flushToDisk_noop beginOk upsertOk commitOk (Or.inr hn)⟩
    intro e he r hr
    cases hd : r.isNew with
    | false => rfl
    | true =>
      have h1 := (hinv.dirty e he r hr hd).1
      rw [hn] at h1
      cases h1

theorem dirty_record_never_hidden_witness :
    Reachable (run (Collection.new "c" true)
      [Op.insert 1 "a" "x", Op.insert 2 "b" "y", Op.deleteRecord "a" 1,
       Op.flushToDisk true (fun _ => false) true]) ∧
    hasDirtyRecord (run (Collection.new "c" true)
      [Op.insert 1 "a" "x", Op.insert 2 "b" "y", Op.deleteRecord "a" 1,
       Op.flushToDisk true (fun _ => false) true]) ∧
    (run (Collection.new "c" true)
      [Op.insert 1 "a" "x", Op.insert 2 "b" "y", Op.deleteRecord "a" 1,
       Op.flushToDisk true (fun _ => false) true]).m_hasNewRecords = true :=
  ⟨reachable_run _ _ _,
   ⟨("b", [⟨2, "y", true⟩]), by decide, ⟨2, "y", true⟩, by decide, rfl⟩,
   (dirty_record_never_hidden _ (reachable_run _ _ _)).1
     ⟨("b", [⟨2, "y", true⟩]), by decide, ⟨2, "y", true⟩, by decide, rfl⟩⟩

/-- Claim C26: a flush that cannot proceed changes nothing. For every state (reachable or
not), if the collection has no store, or `m_hasNewRecords` is false, or
`beginTransaction` fails, then `flushToDisk` leaves the document map (hence every record
and its dirty flag), `m_hasNewRecords` and the key/value table unchanged; the only store
call it can issue is the failing `beginTransaction` itself, so no `upsertRecord`,
`commitTransaction` or `rollbackTransaction` is issued. -/
theorem flushToDisk_cannot_proceed (c : Collection) (beginOk : Bool) (upsertOk : Nat → Bool)
    (commitOk : Bool)
    (h : c.m_storage = false ∨ c.m_hasNewRecords = false ∨ beginOk = false) :
    (c.flushToDisk beginOk upsertOk commitOk).m_data = c.m_data ∧
    (c.flushToDisk beginOk upsertOk commitOk).m_hasNewRecords = c.m_hasNewRecords ∧
    (c.flushToDisk beginOk upsertOk commitOk).m_key_vaue = c.m_key_vaue ∧
    (c.flushToDisk beginOk upsertOk commitOk).storeCalls = c.storeCalls ++
      (if c.m_storage = true ∧ c.m_hasNewRecords = true then [StoreCall.beginTransaction]
        else []) ∧
    (∀ call ∈ ((c.flushToDisk beginOk upsertOk commitOk).storeCalls).drop c.storeCalls.length,
      call = StoreCall.beginTransaction) := by
  have hmain : (c.flushToDisk beginOk upsertOk commitOk).m_data = c.m_data ∧
      (c.flushToDisk beginOk upsertOk commitOk).m_hasNewRecords = c.m_hasNewRecords ∧
      (c.flushToDisk beginOk upsertOk commitOk).storeCalls = c.storeCalls ++
        (if c.m_storage = true ∧ c.m_hasNewRecords = true then [StoreCall.beginTransaction]
          else []) := by
    rcases h with h | h | h
    · rw [flushToDisk_noop beginOk upsertOk commitOk (Or.inl h)]
      simp [h]
    · rw [flushToDisk_noop beginOk upsertOk commitOk (Or.inr h)]
      simp [h]
    · rw [h]
      exact flushToDisk_data_of_begin_failed c upsertOk commitOk
  refine ⟨hmain.1, hmain.2.1, flushToDisk_keyValues c beginOk upsertOk commitOk,
    hmain.2.2, ?_⟩
  intro call hcall
  rw [hmain.2.2, List.drop_left] at hcall
  split_ifs at hcall
  · simpa using hcall
  · simp at hcall

theorem flushToDisk_cannot_proceed_witness :
    ((run (Collection.new "c" true) [Op.insert 1 "a" "x"]).m_storage = false ∨
      (run (Collection.new "c" true) [Op.insert 1 "a" "x"]).m_hasNewRecords = false ∨
      false = false) ∧
    ((run (Collection.new "c" true) [Op.insert 1 "a" "x"]).flushToDisk false
        (fun _ => true) true).m_data = [("a", [⟨1, "x", true⟩])] ∧
    ((run (Collection.new "c" true) [Op.insert 1 "a" "x"]).flushToDisk false
        (fun _ => true) true).storeCalls = [StoreCall.beginTransaction] :=
  ⟨Or.inr (Or.inr rfl),
   (flushToDisk_cannot_proceed (run (Collection.new "c" true) [Op.insert 1 "a" "x"]) false
      (fun _ => true) true (Or.inr (Or.inr rfl))).1.trans (by decide),
   (flushToDisk_cannot_proceed (run (Collection.new "c" true) [Op.insert 1 "a" "x"]) false
      (fun _ => true) true (Or.inr (Or.inr rfl))).2.2.2.1.trans (by decide)⟩

end FluxionDB
